import Mathlib

/-!
Verification of the persistent mmap-backed Robin-Hood hash map
(`mmap_lib::detail::map` in `mmap_map.hpp`).

The development shallowly embeds the data structure as a record `PMap`
holding the header fields (`mask`, `numElements`, `maxNumElementsAllowed`,
`infoInc`, `infoHashShift`), the info-byte array, the slot array, and the
lifecycle flags (mapped-or-not, file descriptor, backing-file existence,
lock counters).  Machine integers are modelled as `Nat`/`Int` with explicit
wrap-around where the C++ code truncates (`uint8_t` casts, 32-bit `int`
truncation of the hash, sign-extension before masking).  Loops are encoded
as fuel-bounded structural recursions returning `Option`; all fuel values
are generous upper bounds derived from the termination arguments of the
source (info values are bounded by 255 and strictly increase, probe paths
stop at the first empty slot).
-/

set_option linter.unusedSectionVars false
set_option maxRecDepth 8000
set_option maxHeartbeats 1000000

namespace MmapMap

/-- Pointwise update of a function, modelling a store into the info-byte or
slot array. -/
def upd {α : Type} (f : ℕ → α) (i : ℕ) (y : α) : ℕ → α :=
  fun j => if j = i then y else f j

/-- Constant `InitialNumElements = 1024` from the source. -/
def InitialNumElements : ℕ := 1024

/-- Constant `InitialInfoNumBits = 5` from the source. -/
def InitialInfoNumBits : ℕ := 5

/-- Constant `InitialInfoInc = 1 << InitialInfoNumBits` from the source. -/
def InitialInfoInc : ℕ := 2 ^ InitialInfoNumBits

/-- Width in bits of the C type `int`; the source computes the initial hash
shift as `sizeof(int) * 8 - InitialInfoNumBits`. -/
def intBits : ℕ := 32

/-- Constant `InitialInfoHashShift = sizeof(int) * 8 - InitialInfoNumBits`
from the source (that is 32 - 5 = 27). -/
def InitialInfoHashShift : ℕ := intBits - InitialInfoNumBits

/-- Two's-complement value of the low 32 bits of a machine word, modelling
the C conversion of a `size_t` hash to a signed `int`. -/
def toSigned32 (x : ℕ) : ℤ :=
  if x % 2 ^ 32 < 2 ^ 31 then (x % 2 ^ 32 : ℤ) else (x % 2 ^ 32 : ℤ) - 2 ^ 32

/-- Arithmetic shift right of a signed value, i.e. floor division by a power
of two (gcc semantics of `>>` on a negative `int`). -/
def sar (x : ℤ) (s : ℕ) : ℤ := Int.fdiv x (2 ^ s)

/-- Cast of an `InfoType` (signed 32-bit) value to `uint8_t`. -/
def toU8 (x : ℤ) : ℕ := (x % 256).toNat

/-- Conversion of a signed 32-bit value (given by its low 32 bits) to
`uint64_t`, i.e. sign extension; the source applies it implicitly in
`idx &= *mMask`. -/
def signExtend64 (x : ℕ) : ℕ :=
  if x % 2 ^ 32 < 2 ^ 31 then x % 2 ^ 32 else 2 ^ 64 - 2 ^ 32 + x % 2 ^ 32

/-- Hashing context: the `Hash::operator()` function (returning a `size_t`
value), the `bad_hash_prevention` multiplier (1 when the configured hasher
is the library default), and the `MaxLoadFactor100` template parameter. -/
structure HashCfg (K : Type) where
  hash : K → ℕ
  badHash : ℕ
  loadFactor : ℕ

/-- State of one map instance.  When `allocated` is true the header fields
model the mapped region's header; when false they model the local fallback
copies (`local_mMask`, ...).  `info` is the info-byte array including the
sentinel at index `mask + 1` (bytes beyond it are the zero padding);
`slots` is the raw memory of the key/value slot array (contents at
positions whose info byte is 0 are garbage).  `fileExists` tracks whether
the backing file currently exists on disk, `sizeMemo` models the memoized
`mmap_size` (only its zero-ness steers control flow, so it records the
entry count it was computed for). -/
structure PMap (K V : Type) where
  mask : ℕ
  numElements : ℕ
  maxNumElementsAllowed : ℕ
  infoInc : ℕ
  infoHashShift : ℕ
  info : ℕ → ℕ
  slots : ℕ → K × V
  allocated : Bool
  fdOpen : Bool
  hasFile : Bool
  fileExists : Bool
  inUseMutex : Bool
  sizeMemo : ℕ
  refLocked : ℕ

variable {K V : Type} [DecidableEq K]

/-- Function `calcMaxNumElementsAllowed`: the integer branch
`maxElements * MaxLoadFactor100 / 100` (the floating-point branch is taken
only above `SIZE_MAX / 100`, far beyond any state considered here). -/
def calcMaxNumElementsAllowed (cfg : HashCfg K) (maxElements : ℕ) : ℕ :=
  maxElements * cfg.loadFactor / 100

/-- Function `keyToIdx`: multiply the hash by `bad_hash_prevention` in
`size_t` arithmetic, truncate to a signed `int`, derive
`info = mInfoInc + (idx >> mInfoHashShift)` with an arithmetic shift, and
mask the (sign-extended) index with `mMask`.  The caller has already
reloaded the mapping. -/
def keyToIdx (cfg : HashCfg K) (m : PMap K V) (k : K) : ℕ × ℤ :=
  (signExtend64 (cfg.hash k * cfg.badHash % 2 ^ 64) &&& m.mask,
   (m.infoInc : ℤ) + sar (toSigned32 (cfg.hash k * cfg.badHash % 2 ^ 64)) m.infoHashShift)

/-- Function `next_idx`: step one slot forward, wrapping with the mask. -/
def nextIdx (m : PMap K V) (idx : ℕ) : ℕ := (idx + 1) &&& m.mask

/-- Computation `(idx - 1) & *mMask` from `shiftUp`, with the two's
complement wrap of `idx - 1` at `idx = 0`. -/
def prevIdx (m : PMap K V) (idx : ℕ) : ℕ :=
  if idx = 0 then (2 ^ 64 - 1) &&& m.mask else (idx - 1) &&& m.mask

/-- Loop of `nextWhileLess`: advance while `info < mInfo[idx]`. -/
def nextWhileLessGo (m : PMap K V) : ℕ → ℕ → ℤ → Option (ℕ × ℤ)
  | 0, _, _ => none
  | fuel + 1, idx, info =>
    if info < (m.info idx : ℤ) then
      nextWhileLessGo m fuel (nextIdx m idx) (info + (m.infoInc : ℤ))
    else some (idx, info)

/-- Match loop of `doCreate`: while `info == mInfo[idx]`, stop with
`found = true` on a key match, otherwise advance; stop with `found = false`
as soon as the info bytes differ. -/
def matchLoopGo (m : PMap K V) (k : K) : ℕ → ℕ → ℤ → Option (ℕ × ℤ × Bool)
  | 0, _, _ => none
  | fuel + 1, idx, info =>
    if info = (m.info idx : ℤ) then
      if (m.slots idx).1 = k then some (idx, info, true)
      else matchLoopGo m k fuel (nextIdx m idx) (info + (m.infoInc : ℤ))
    else some (idx, info, false)

/-- Empty-slot search of `doCreate` and `insert_move`: advance while
`mInfo[idx] != 0` (the info variable is advanced alongside but unused). -/
def findEmptyGo (m : PMap K V) : ℕ → ℕ → ℤ → Option (ℕ × ℤ)
  | 0, _, _ => none
  | fuel + 1, idx, info =>
    if m.info idx ≠ 0 then
      findEmptyGo m fuel (nextIdx m idx) (info + (m.infoInc : ℤ))
    else some (idx, info)

/-- Body of one `shiftUp` iteration: move the predecessor slot into `idx`,
give it the predecessor's info byte plus `mInfoInc` (as a `uint8_t`), and
zero `mMaxNumElementsAllowed` if one more increment would overflow the
byte. -/
def shiftUpWrite (m : PMap K V) (idx : ℕ) : PMap K V :=
  if 255 < (m.info (prevIdx m idx) + m.infoInc) % 256 + m.infoInc then
    { m with slots := upd m.slots idx (m.slots (prevIdx m idx)),
             info := upd m.info idx ((m.info (prevIdx m idx) + m.infoInc) % 256),
             maxNumElementsAllowed := 0 }
  else
    { m with slots := upd m.slots idx (m.slots (prevIdx m idx)),
             info := upd m.info idx ((m.info (prevIdx m idx) + m.infoInc) % 256) }

/-- Function `shiftUp(idx, insertion_idx)`: walk backwards from the empty
slot to the insertion point applying `shiftUpWrite` at each position. -/
def shiftUpGo : ℕ → PMap K V → ℕ → ℕ → Option (PMap K V)
  | 0, _, _, _ => none
  | fuel + 1, m, idx, insertionIdx =>
    if idx = insertionIdx then some m
    else shiftUpGo fuel (shiftUpWrite m idx) (prevIdx m idx) insertionIdx

/-- Function `shiftDown(idx)`: while the next info byte is at least
`2 * mInfoInc`, copy the next slot down with its info byte decremented by
`mInfoInc`; finally zero the info byte at the stopping position.  Note that
the source walks with a plain `idx + 1` (no wrap): the sentinel stops it. -/
def shiftDownGo : ℕ → PMap K V → ℕ → Option (PMap K V)
  | 0, _, _ => none
  | fuel + 1, m, idx =>
    if 2 * m.infoInc ≤ m.info (idx + 1) then
      shiftDownGo fuel
        { m with info := upd m.info idx (m.info (idx + 1) - m.infoInc),
                 slots := upd m.slots idx (m.slots (idx + 1)) } (idx + 1)
    else some { m with info := upd m.info idx 0 }

/-- Search loop of `findIdx`, with the pair unrolling of the source: two
probes per iteration, the `while (info <= mInfo[idx])` condition checked
after the second advance.  Returns the slot index on a match and `-1` when
the condition fails. -/
def findIdxGo (m : PMap K V) (k : K) : ℕ → ℕ → ℤ → Option ℤ
  | 0, _, _ => none
  | fuel + 1, idx, info =>
    if info = (m.info idx : ℤ) ∧ (m.slots idx).1 = k then some (idx : ℤ)
    else if info + (m.infoInc : ℤ) = (m.info (nextIdx m idx) : ℤ) ∧
        (m.slots (nextIdx m idx)).1 = k then some ((nextIdx m idx : ℕ) : ℤ)
    else if info + (m.infoInc : ℤ) + (m.infoInc : ℤ)
        ≤ (m.info (nextIdx m (nextIdx m idx)) : ℤ) then
      findIdxGo m k fuel (nextIdx m (nextIdx m idx))
        (info + (m.infoInc : ℤ) + (m.infoInc : ℤ))
    else some (-1)

/-- Search loop of `erase(key)`: a do-while that checks for a match at every
probe and exits as soon as `info` exceeds the info byte after one
advance. -/
def eraseGo (cfg : HashCfg K) : ℕ → PMap K V → K → ℕ → ℤ → Option (PMap K V × ℕ)
  | 0, _, _, _, _ => none
  | fuel + 1, m, k, idx, info =>
    if info = (m.info idx : ℤ) ∧ (m.slots idx).1 = k then
      match shiftDownGo (m.mask + 2) m idx with
      | none => none
      | some m1 => some ({ m1 with numElements := m1.numElements - 1 }, 1)
    else if info + (m.infoInc : ℤ) ≤ (m.info (nextIdx m idx) : ℤ) then
      eraseGo cfg fuel m k (nextIdx m idx) (info + (m.infoInc : ℤ))
    else some (m, 0)

/-- Skip-forward loop of `insert_move`: advance while `info <= mInfo[idx]`
(the reinserted element is known to be absent). -/
def skipGo (m : PMap K V) : ℕ → ℕ → ℤ → Option (ℕ × ℤ)
  | 0, _, _ => none
  | fuel + 1, idx, info =>
    if info ≤ (m.info idx : ℤ) then
      skipGo m fuel (nextIdx m idx) (info + (m.infoInc : ℤ))
    else some (idx, info)

/-- Little-endian load of 8 info bytes as one `uint64_t`, as
`try_increase_info` does through its `uint64_t*` view of `mInfo`. -/
def loadQword (f : ℕ → ℕ) (base : ℕ) : ℕ :=
  f base + f (base + 1) * 256 + f (base + 2) * 256 ^ 2 + f (base + 3) * 256 ^ 3 +
    f (base + 4) * 256 ^ 4 + f (base + 5) * 256 ^ 5 + f (base + 6) * 256 ^ 6 +
    f (base + 7) * 256 ^ 7

/-- Constant `0x7f7f7f7f7f7f7f7f` from `try_increase_info`. -/
def qmask : ℕ := 0x7f7f7f7f7f7f7f7f

/-- Little-endian store of one `uint64_t` over 8 info bytes. -/
def storeQword (f : ℕ → ℕ) (base : ℕ) (q : ℕ) : ℕ → ℕ :=
  fun j => if base ≤ j ∧ j < base + 8 then q / 256 ^ (j - base) % 256 else f j

/-- Info-byte rewriting loop of `try_increase_info`: for each of the first
`n` qwords, `data[i] = (data[i] >> 1) & 0x7f7f7f7f7f7f7f7f`. -/
def tiiBytes (f : ℕ → ℕ) : ℕ → (ℕ → ℕ)
  | 0 => f
  | n + 1 =>
    storeQword (tiiBytes f n) (8 * n) ((loadQword (tiiBytes f n) (8 * n) >>> 1) &&& qmask)

/-- Function `try_increase_info`: refuse when `mInfoInc <= 2`; otherwise
halve `mInfoInc` (as a `uint8_t`), increment `mInfoHashShift`, right-shift
every info byte of the first `(mMask + 1) / 8` qwords, and recompute
`mMaxNumElementsAllowed`. -/
def try_increase_info (cfg : HashCfg K) (m : PMap K V) : PMap K V × Bool :=
  if m.infoInc ≤ 2 then (m, false)
  else
    ({ m with
        infoInc := m.infoInc >>> 1 % 256,
        infoHashShift := m.infoHashShift + 1,
        info := tiiBytes m.info ((m.mask + 1) / 8),
        maxNumElementsAllowed := calcMaxNumElementsAllowed cfg (m.mask + 1) }, true)

/-- Entry-count resolution of `setup_mmap(n_entries)`: a forced size wins;
otherwise on the first reload of a file-backed map the leading 8 bytes of
the file (the stored `mask`) are read and incremented by one (a fresh or
empty file yields `InitialNumElements`); with a memoized size, or for an
anonymous map, `InitialNumElements` is used. -/
def resolveEntries (m : PMap K V) (nEntries : ℕ) : ℕ :=
  if m.hasFile = false then
    (if nEntries ≠ 0 then nEntries else InitialNumElements)
  else if nEntries ≠ 0 then nEntries
  else if m.sizeMemo = 0 then
    (if m.fileExists ∧ m.mask ≠ 0 then m.mask + 1 else InitialNumElements)
  else InitialNumElements

/-- File-opening step of `setup_mmap`: `mmap_gc::open` creates the backing
file of a file-backed map if needed. -/
def openFile (m : PMap K V) : PMap K V :=
  if m.hasFile then { m with fdOpen := true, fileExists := true } else m

/-- Function `setup_mmap(n_entries)`: resolve the entry count, open or
create the backing file, and either attach to the existing data
(`*mNumElements != 0` in the mapped region) or initialise a fresh header
with `mask = n - 1`, the load-factor bound, `infoInc = 1 << 5`,
`infoHashShift = 27` and the sentinel byte at index `n`. -/
def setup_mmap (cfg : HashCfg K) (m : PMap K V) (nEntries : ℕ) : PMap K V :=
  if m.hasFile ∧ m.fileExists ∧ m.numElements ≠ 0 then
    { openFile m with allocated := true, sizeMemo := m.mask + 1 }
  else
    { openFile m with
      allocated := true,
      sizeMemo := resolveEntries m nEntries,
      maxNumElementsAllowed := calcMaxNumElementsAllowed cfg (resolveEntries m nEntries),
      mask := resolveEntries m nEntries - 1,
      numElements := 0,
      infoInc := InitialInfoInc,
      infoHashShift := InitialInfoHashShift,
      info := fun i => if i = resolveEntries m nEntries then 1 else 0 }

/-- Function `reload`: map the region in if it is not currently mapped. -/
def reload (cfg : HashCfg K) (m : PMap K V) : PMap K V :=
  if m.allocated then m else setup_mmap cfg m 0

/-- Insertion tail shared by `doCreate` and `insert_move`: find the first
empty slot at or after the insertion point, shift the intervening slots up,
place the new entry, write its info byte, and bump `mNumElements`. -/
def insertTail (m : PMap K V) (insertionIdx : ℕ) (scanInfo : ℤ) (infoByte : ℕ)
    (kv : K × V) : Option (PMap K V) :=
  match findEmptyGo m (m.mask + 2) insertionIdx scanInfo with
  | none => none
  | some (idxE, _) =>
    match (if idxE = insertionIdx then some m
           else shiftUpGo (m.mask + 2) m idxE insertionIdx) with
    | none => none
    | some m2 =>
      some { m2 with
        slots := upd m2.slots insertionIdx kv,
        info := upd m2.info insertionIdx infoByte,
        numElements := m2.numElements + 1 }

/-- Core of `insert_move` after the `mMaxNumElementsAllowed == 0` repair:
skip forward with `<=`, apply the displacement-overflow guard on the
`uint8_t`-cast insertion info, and place the entry. -/
def insertMoveCore (cfg : HashCfg K) (m0 : PMap K V) (kv : K × V) : Option (PMap K V) :=
  match skipGo m0 (m0.mask + 600) (keyToIdx cfg m0 kv.1).1 (keyToIdx cfg m0 kv.1).2 with
  | none => none
  | some (idx1, info1) =>
    insertTail
      (if 255 < toU8 info1 + m0.infoInc then { m0 with maxNumElementsAllowed := 0 }
       else m0)
      idx1 info1 (toU8 info1) kv

/-- Function `insert_move`: reinsert an entry known to be new (used by
`rehash`); if `mMaxNumElementsAllowed` is zero first run
`try_increase_info`. -/
def insert_move (cfg : HashCfg K) (m : PMap K V) (kv : K × V) : Option (PMap K V) :=
  insertMoveCore cfg
    (if m.maxNumElementsAllowed = 0 then (try_increase_info cfg m).1 else m) kv

/-- Growth tail of `rehash` (the map is already reloaded and strictly
smaller than `numBuckets`): mark the old file for deletion, reset the local
header, map a fresh region of the requested size, and reinsert every
occupied entry of the old region through `insert_move`. -/
def rehashTail (cfg : HashCfg K) (m : PMap K V) (numBuckets : ℕ) : Option (PMap K V) :=
  (List.range (m.mask + 1)).foldlM
    (fun acc i => if m.info i ≠ 0 then insert_move cfg acc (m.slots i) else some acc)
    (setup_mmap cfg
      { (if m.fdOpen then { m with fileExists := false, fdOpen := false } else m) with
          allocated := false, mask := 0, numElements := 0,
          maxNumElementsAllowed := 0 }
      numBuckets)

/-- Function `rehash(numBuckets)`: reload, return unchanged when the table
is already at least that large, otherwise grow through `rehashTail`. -/
def rehash (cfg : HashCfg K) (m : PMap K V) (numBuckets : ℕ) : Option (PMap K V) :=
  if numBuckets ≤ (reload cfg m).mask + 1 then some (reload cfg m)
  else rehashTail cfg (reload cfg m) numBuckets

/-- Function `increase_size`: allocate lazily when nothing is mapped yet,
otherwise try `try_increase_info` while under the recomputed load bound,
else rehash to twice the slot count. -/
def increase_size (cfg : HashCfg K) (m : PMap K V) : Option (PMap K V) :=
  if m.mask = 0 then some (reload cfg m)
  else if m.numElements < calcMaxNumElementsAllowed cfg (m.mask + 1) then
    (if (try_increase_info cfg m).2 = true then some (try_increase_info cfg m).1
     else rehash cfg (try_increase_info cfg m).1 (2 * (m.mask + 1)))
  else rehash cfg m (2 * (m.mask + 1))

/-- One attempt of the `doCreate` loop body on an already reloaded map:
locate the insertion window with `nextWhileLess`, scan the equal-info run
for the key; on a hit overwrite the pair in place (`Sum.inl`), on a reached
load bound run `increase_size` and report a retry (`Sum.inr`), otherwise
apply the displacement-overflow guard and insert at the window. -/
def doCreateAttempt (cfg : HashCfg K) (m : PMap K V) (k : K) (v : V) :
    Option ((PMap K V × ℕ) ⊕ PMap K V) :=
  match nextWhileLessGo m (m.mask + 600) (keyToIdx cfg m k).1 (keyToIdx cfg m k).2 with
  | none => none
  | some (idx1, info1) =>
    match matchLoopGo m k (m.mask + 600) idx1 info1 with
    | none => none
    | some (idx2, info2, found) =>
      if found then some (Sum.inl ({ m with slots := upd m.slots idx2 (k, v) }, idx2))
      else if m.maxNumElementsAllowed ≤ m.numElements then
        (increase_size cfg m).map Sum.inr
      else
        (insertTail
            (if 255 < info2 + (m.infoInc : ℤ) then { m with maxNumElementsAllowed := 0 }
             else m)
            idx2 info2 (toU8 info2) (k, v)).map (fun m2 => Sum.inl (m2, idx2))

/-- Body of `doCreate` (the implementation of `set`): reload, run one
attempt, and retry (the `continue` of the source) after a growth step.  The
fuel bounds the number of retries. -/
def doCreateGo (cfg : HashCfg K) : ℕ → PMap K V → K → V → Option (PMap K V × ℕ)
  | 0, _, _, _ => none
  | fuel + 1, m0, k, v =>
    match doCreateAttempt cfg (reload cfg m0) k v with
    | none => none
    | some (Sum.inl r) => some r
    | some (Sum.inr m1) => doCreateGo cfg fuel m1 k v

/-- Public `set(key, val)` = `doCreate`. -/
def setOp (cfg : HashCfg K) (m : PMap K V) (k : K) (v : V) : Option (PMap K V × ℕ) :=
  doCreateGo cfg 40 m k v

/-- Function `findIdx` (with its leading `reload`), returning the updated
state and the found index or `-1`. -/
def findIdx (cfg : HashCfg K) (m : PMap K V) (k : K) : PMap K V × Option ℤ :=
  (reload cfg m,
   findIdxGo (reload cfg m) k ((reload cfg m).mask + 600)
     (keyToIdx cfg (reload cfg m) k).1 (keyToIdx cfg (reload cfg m) k).2)

/-- Public `find_key(key)`: `findIdx` under the short write lock. -/
def find_key (cfg : HashCfg K) (m : PMap K V) (k : K) : PMap K V × Option ℤ :=
  findIdx cfg m k

/-- Public `has(key)`: whether `findIdx` returned a non-negative index. -/
def hasOp (cfg : HashCfg K) (m : PMap K V) (k : K) : PMap K V × Option Bool :=
  ((findIdx cfg m k).1, (findIdx cfg m k).2.map fun i => 0 ≤ i)

/-- Public `get(key)`: `findIdx`, assert the index is non-negative, and
copy the value out of the slot. -/
def getOp (cfg : HashCfg K) (m : PMap K V) (k : K) : PMap K V × Option V :=
  match findIdx cfg m k with
  | (m1, some i) => if 0 ≤ i then (m1, some ((m1.slots i.toNat).2)) else (m1, none)
  | (m1, none) => (m1, none)

/-- Public `erase(key)`: probe from the key's home bucket; on a hit run
`shiftDown` and decrement `mNumElements`, returning 1; return 0 on a
miss. -/
def eraseOp (cfg : HashCfg K) (m : PMap K V) (k : K) : Option (PMap K V × ℕ) :=
  eraseGo cfg ((reload cfg m).mask + 600) (reload cfg m) k
    (keyToIdx cfg (reload cfg m) k).1 (keyToIdx cfg (reload cfg m) k).2

/-- Doubling loop of `reserve`. -/
def reserveGo (cfg : HashCfg K) : ℕ → ℕ → ℕ → ℕ
  | 0, newSize, _ => newSize
  | fuel + 1, newSize, count =>
    if calcMaxNumElementsAllowed cfg newSize < count ∧ newSize ≠ 0 then
      reserveGo cfg fuel (2 * newSize) count
    else newSize

/-- Public `reserve(count)`: double from `max(InitialNumElements, mask+1)`
until the load bound covers `count`, then rehash. -/
def reserveOp (cfg : HashCfg K) (m : PMap K V) (count : ℕ) : Option (PMap K V) :=
  rehash cfg m (reserveGo cfg 64 (max InitialNumElements (m.mask + 1)) count)

/-- Header snapshot and unlink-if-empty step of the reclamation callback. -/
def gcSnapshot (m : PMap K V) : PMap K V :=
  if m.fdOpen then
    (if m.numElements = 0 then { m with fileExists := false, sizeMemo := 0 } else m)
  else { m with sizeMemo := 0 }

/-- Reclamation callback `gc_done(base, force)`: refuse on a stale base or
when the mutation lock is held; otherwise unlink the file if the map is
empty (forgetting the size memo), snapshot the header into the local
fallback fields, and drop the mapping and file descriptor. -/
def gc_done (m : PMap K V) (baseMatches : Bool) : PMap K V × Bool :=
  if baseMatches = false then (m, false)
  else if m.inUseMutex then (m, false)
  else ({ gcSnapshot m with allocated := false, fdOpen := false }, true)

/-- Unlink step of `clear()`: a file-backed map's file is removed. -/
def clearUnlink (m : PMap K V) : PMap K V :=
  if m.hasFile then { m with fileExists := false } else m

/-- Public `clear()`: recycle the mapping (modelled as a synchronous
`gc_done`), unlink the backing file, and zero the local fallback header. -/
def clearOp (m : PMap K V) : PMap K V :=
  { clearUnlink (if m.allocated then (gc_done m true).1 else m) with
      numElements := 0, mask := 0, maxNumElementsAllowed := 0 }

/-- Public `size()`: the current `*mNumElements`. -/
def sizeOp (m : PMap K V) : ℕ := m.numElements

/-- Public `empty()`: whether `*mNumElements` is zero. -/
def emptyOp (m : PMap K V) : Bool := m.numElements = 0

/-- Function `ref_lock`: acquire the write mutex when no read lock is held,
then increment the read-lock count. -/
def ref_lock (m : PMap K V) : PMap K V :=
  { m with inUseMutex := if m.refLocked = 0 then true else m.inUseMutex,
           refLocked := m.refLocked + 1 }

/-- Function `ref_unlock`: decrement the read-lock count and release the
write mutex when it reaches zero. -/
def ref_unlock (m : PMap K V) : PMap K V :=
  { m with refLocked := m.refLocked - 1,
           inUseMutex := if m.refLocked - 1 = 0 then false else m.inUseMutex }

/-- Abstract view of an iterator: whether its `map_ptr` is bound to the map
(a bound iterator holds one read lock on it). -/
structure IterM where
  bound : Bool

/-- Iterator copy assignment `operator=`: overwrite the fields with the
source's and acquire a read lock when the new `map_ptr` is non-null.  The
read lock held through the overwritten binding is not released. -/
def iterCopyAssign (b : IterM) (m : PMap K V) : IterM × PMap K V :=
  (⟨b.bound⟩, if b.bound then ref_lock m else m)

/-- Iterator destructor: release one read lock when bound. -/
def iterDestroy (it : IterM) (m : PMap K V) : PMap K V :=
  if it.bound then ref_unlock m else m

/-- Operations of the public mutation API considered in the invariant
claims. -/
inductive Op (K V : Type) where
  | setK (k : K) (v : V)
  | eraseK (k : K)
  | reserveN (n : ℕ)
  | clearAll

/-- Application of one public operation to the map state (`none` on fuel
exhaustion, which never happens in the executions proved about). -/
def applyOp (cfg : HashCfg K) (op : Op K V) (m : PMap K V) : Option (PMap K V) :=
  match op with
  | Op.setK k v => (setOp cfg m k v).map Prod.fst
  | Op.eraseK k => (eraseOp cfg m k).map Prod.fst
  | Op.reserveN n => reserveOp cfg m n
  | Op.clearAll => some (clearOp m)

/-- Sequential application of a list of public operations. -/
def applyOps (cfg : HashCfg K) : List (Op K V) → PMap K V → Option (PMap K V)
  | [], m => some m
  | op :: ops, m =>
    match applyOp cfg op m with
    | none => none
    | some m1 => applyOps cfg ops m1

/-- Freshly constructed map instance: nothing mapped, the local fallback
header zeroed, the static initial `infoInc`/`infoHashShift`.  `slots0`
models the uninitialised slot memory. -/
def mkMap (hasFile : Bool) (slots0 : ℕ → K × V) : PMap K V :=
  { mask := 0, numElements := 0, maxNumElementsAllowed := 0,
    infoInc := InitialInfoInc, infoHashShift := InitialInfoHashShift,
    info := fun _ => 0, slots := slots0,
    allocated := false, fdOpen := false, hasFile := hasFile, fileExists := false,
    inUseMutex := false, sizeMemo := 0, refLocked := 0 }

/-- Default hasher `mmap_lib::hash<uint64_t>`: the Murmur3 64-bit
finalizer (two multiply-xor-shift rounds, shift 33). -/
def murmur64 (k0 : ℕ) : ℕ :=
  let k := k0 % 2 ^ 64
  let h1 := k ^^^ (k >>> 33)
  let h2 := h1 * 0xff51afd7ed558ccd % 2 ^ 64
  let h3 := h2 ^^^ (h2 >>> 33)
  let h4 := h3 * 0xc4ceb9fe1a85ec53 % 2 ^ 64
  h4 ^^^ (h4 >>> 33)

/-- Configuration of `mmap_lib::map<uint64_t, uint64_t>` with the default
hasher (`bad_hash_prevention = 1`) and the default load factor 80. -/
def cfgU64 : HashCfg ℕ := ⟨murmur64, 1, 80⟩

/-- Freshly constructed anonymous `map<uint64_t, uint64_t>` instance. -/
def pm0N : PMap ℕ ℕ := mkMap false (fun _ => (0, 0))

/-- Freshly constructed file-backed `map<uint64_t, uint64_t>` instance. -/
def pmF : PMap ℕ ℕ := mkMap true (fun _ => (0, 0))

/-! ### Frame lemmas for the loops -/

theorem shiftDownGo_frame :
    ∀ (fuel : ℕ) (m : PMap K V) (idx : ℕ) (m' : PMap K V),
      shiftDownGo fuel m idx = some m' →
      m'.allocated = m.allocated ∧ m'.fdOpen = m.fdOpen ∧ m'.hasFile = m.hasFile ∧
      m'.fileExists = m.fileExists ∧ m'.mask = m.mask ∧ m'.infoInc = m.infoInc ∧
      m'.infoHashShift = m.infoHashShift ∧ m'.numElements = m.numElements ∧
      m'.maxNumElementsAllowed = m.maxNumElementsAllowed ∧ m'.sizeMemo = m.sizeMemo ∧
      m'.inUseMutex = m.inUseMutex := by
  intro fuel
  induction fuel with
  | zero => intro m idx m' h; simp [shiftDownGo] at h
  | succ n ih =>
    intro m idx m' h
    rw [shiftDownGo] at h
    by_cases hc : 2 * m.infoInc ≤ m.info (idx + 1)
    · rw [if_pos hc] at h
      simpa using ih _ _ _ h
    · rw [if_neg hc] at h
      simp only [Option.some.injEq] at h
      subst h
      simp

theorem eraseGo_frame :
    ∀ (fuel : ℕ) (m : PMap K V) (k : K) (idx : ℕ) (info : ℤ)
      (m' : PMap K V) (r : ℕ) (cfg : HashCfg K),
      eraseGo cfg fuel m k idx info = some (m', r) →
      m'.allocated = m.allocated ∧ m'.fdOpen = m.fdOpen ∧ m'.hasFile = m.hasFile ∧
      m'.fileExists = m.fileExists ∧ m'.mask = m.mask ∧ m'.infoInc = m.infoInc ∧
      m'.infoHashShift = m.infoHashShift ∧ m'.sizeMemo = m.sizeMemo ∧
      m'.inUseMutex = m.inUseMutex ∧
      m'.maxNumElementsAllowed = m.maxNumElementsAllowed := by
  intro fuel
  induction fuel with
  | zero => intro m k idx info m' r cfg h; simp [eraseGo] at h
  | succ n ih =>
    intro m k idx info m' r cfg h
    rw [eraseGo] at h
    by_cases hc : info = (m.info idx : ℤ) ∧ (m.slots idx).1 = k
    · rw [if_pos hc] at h
      rcases hsd : shiftDownGo (m.mask + 2) m idx with _ | m1
      · rw [hsd] at h; exact absurd h (by simp)
      · rw [hsd] at h
        simp only [Option.some.injEq, Prod.mk.injEq] at h
        obtain ⟨h1, _⟩ := h
        have := shiftDownGo_frame (m.mask + 2) m idx m1 hsd
        subst h1
        simp_all
    · rw [if_neg hc] at h
      by_cases hc2 : info + (m.infoInc : ℤ) ≤ (m.info (nextIdx m idx) : ℤ)
      · rw [if_pos hc2] at h
        exact ih _ _ _ _ _ _ _ h
      · rw [if_neg hc2] at h
        simp only [Option.some.injEq, Prod.mk.injEq] at h
        obtain ⟨h1, _⟩ := h
        subst h1
        simp

theorem shiftUpGo_frame :
    ∀ (fuel : ℕ) (m : PMap K V) (idx ins : ℕ) (m' : PMap K V),
      shiftUpGo fuel m idx ins = some m' →
      m'.allocated = m.allocated ∧ m'.fdOpen = m.fdOpen ∧ m'.hasFile = m.hasFile ∧
      m'.fileExists = m.fileExists ∧ m'.mask = m.mask ∧ m'.infoInc = m.infoInc ∧
      m'.infoHashShift = m.infoHashShift ∧ m'.numElements = m.numElements ∧
      m'.sizeMemo = m.sizeMemo ∧ m'.inUseMutex = m.inUseMutex := by
  intro fuel
  induction fuel with
  | zero => intro m idx ins m' h; simp [shiftUpGo] at h
  | succ n ih =>
    intro m idx ins m' h
    rw [shiftUpGo] at h
    by_cases hc : idx = ins
    · rw [if_pos hc] at h
      simp only [Option.some.injEq] at h
      subst h
      simp
    · rw [if_neg hc] at h
      have h2 := ih _ _ _ _ h
      have h3 : (shiftUpWrite m idx).allocated = m.allocated ∧
          (shiftUpWrite m idx).fdOpen = m.fdOpen ∧
          (shiftUpWrite m idx).hasFile = m.hasFile ∧
          (shiftUpWrite m idx).fileExists = m.fileExists ∧
          (shiftUpWrite m idx).mask = m.mask ∧
          (shiftUpWrite m idx).infoInc = m.infoInc ∧
          (shiftUpWrite m idx).infoHashShift = m.infoHashShift ∧
          (shiftUpWrite m idx).numElements = m.numElements ∧
          (shiftUpWrite m idx).sizeMemo = m.sizeMemo ∧
          (shiftUpWrite m idx).inUseMutex = m.inUseMutex := by
        unfold shiftUpWrite
        by_cases hg : 255 < (m.info (prevIdx m idx) + m.infoInc) % 256 + m.infoInc <;>
          simp [hg]
      simp_all

theorem insertTail_frame (m : PMap K V) (i : ℕ) (si : ℤ) (b : ℕ) (kv : K × V)
    (m' : PMap K V) (h : insertTail m i si b kv = some m') :
    m'.allocated = m.allocated ∧ m'.fdOpen = m.fdOpen ∧ m'.hasFile = m.hasFile ∧
    m'.fileExists = m.fileExists ∧ m'.mask = m.mask ∧ m'.infoInc = m.infoInc ∧
    m'.infoHashShift = m.infoHashShift ∧ m'.numElements = m.numElements + 1 ∧
    m'.sizeMemo = m.sizeMemo ∧ m'.inUseMutex = m.inUseMutex := by
  unfold insertTail at h
  rcases hfe : findEmptyGo m (m.mask + 2) i si with _ | ⟨idxE, inf2⟩
  · rw [hfe] at h; exact absurd h (by simp)
  · rw [hfe] at h
    dsimp only at h
    by_cases hx : idxE = i
    · rw [if_pos hx] at h
      simp only [Option.some.injEq] at h
      subst h
      simp
    · rw [if_neg hx] at h
      rcases hsu : shiftUpGo (m.mask + 2) m idxE i with _ | m2
      · rw [hsu] at h; exact absurd h (by simp)
      · rw [hsu] at h
        simp only [Option.some.injEq] at h
        subst h
        have := shiftUpGo_frame (m.mask + 2) m idxE i m2 hsu
        simp_all

theorem tii_frame (cfg : HashCfg K) (m : PMap K V) :
    ((try_increase_info cfg m).1).allocated = m.allocated ∧
    ((try_increase_info cfg m).1).fdOpen = m.fdOpen ∧
    ((try_increase_info cfg m).1).hasFile = m.hasFile ∧
    ((try_increase_info cfg m).1).fileExists = m.fileExists ∧
    ((try_increase_info cfg m).1).mask = m.mask ∧
    ((try_increase_info cfg m).1).numElements = m.numElements ∧
    ((try_increase_info cfg m).1).sizeMemo = m.sizeMemo ∧
    ((try_increase_info cfg m).1).inUseMutex = m.inUseMutex := by
  unfold try_increase_info
  by_cases h : m.infoInc ≤ 2 <;> simp [h]

theorem insert_move_frame (cfg : HashCfg K) (m : PMap K V) (kv : K × V)
    (m' : PMap K V) (h : insert_move cfg m kv = some m') :
    m'.allocated = m.allocated ∧ m'.fdOpen = m.fdOpen ∧ m'.hasFile = m.hasFile ∧
    m'.fileExists = m.fileExists ∧ m'.mask = m.mask ∧ m'.sizeMemo = m.sizeMemo ∧
    m'.inUseMutex = m.inUseMutex := by
  unfold insert_move at h
  have hcore : ∀ (m0 : PMap K V), insertMoveCore cfg m0 kv = some m' →
      m'.allocated = m0.allocated ∧ m'.fdOpen = m0.fdOpen ∧ m'.hasFile = m0.hasFile ∧
      m'.fileExists = m0.fileExists ∧ m'.mask = m0.mask ∧ m'.sizeMemo = m0.sizeMemo ∧
      m'.inUseMutex = m0.inUseMutex := by
    intro m0 h0
    unfold insertMoveCore at h0
    rcases hsk : skipGo m0 (m0.mask + 600) (keyToIdx cfg m0 kv.1).1
        (keyToIdx cfg m0 kv.1).2 with _ | ⟨idx1, info1⟩
    · rw [hsk] at h0; exact absurd h0 (by simp)
    · rw [hsk] at h0
      dsimp only at h0
      by_cases hg : 255 < toU8 info1 + m0.infoInc
      · rw [if_pos hg] at h0
        have h3 := insertTail_frame _ _ _ _ _ _ h0
        simp_all
      · rw [if_neg hg] at h0
        have h3 := insertTail_frame _ _ _ _ _ _ h0
        simp_all
  by_cases hz : m.maxNumElementsAllowed = 0
  · rw [if_pos hz] at h
    have h4 := hcore _ h
    have h5 := tii_frame cfg m
    simp_all
  · rw [if_neg hz] at h
    exact hcore _ h


/-! ### Claim C5: fields written by `setup_mmap` when it initialises a
fresh header -/

/-- Claim C5 counterexample: the claim states that a fresh header gets
`infoHashShift = wordBits - 5`, i.e. 59 on a 64-bit build.  The code
computes `InitialInfoHashShift = sizeof(int) * 8 - InitialInfoNumBits`,
so a fresh header of the concrete anonymous `map<uint64_t, uint64_t>`
gets `infoHashShift = 27`, not `64 - 5 = 59`. -/
theorem C5_counterexample :
    (setup_mmap cfgU64 pm0N 0).infoHashShift = 27 ∧ 27 ≠ 64 - 5 := by decide

/-- Claim C5 (amended): when `setup_mmap` initialises a fresh header (no
backing data on disk, no memoized size), it writes `mask = n - 1` with
`n = InitialNumElements`, `maxNumElementsAllowed` per the load factor,
`infoInc = 1 <<< 5`, `infoHashShift = intBits - 5 = 27` (the shift is
taken over the 32-bit `int` hash, not the 64-bit word, so it is 27 rather
than 59), and the sentinel byte 1 at index `n`. -/
theorem C5_fresh_header (cfg : HashCfg K) (m : PMap K V)
    (hfe : m.fileExists = false) (hsm : m.sizeMemo = 0) :
    (setup_mmap cfg m 0).mask = InitialNumElements - 1 ∧
    (setup_mmap cfg m 0).maxNumElementsAllowed
      = calcMaxNumElementsAllowed cfg InitialNumElements ∧
    (setup_mmap cfg m 0).infoInc = 1 <<< InitialInfoNumBits ∧
    (setup_mmap cfg m 0).infoHashShift = intBits - InitialInfoNumBits ∧
    (setup_mmap cfg m 0).infoHashShift = 27 ∧
    (setup_mmap cfg m 0).info InitialNumElements = 1 := by
  have hres : resolveEntries m 0 = InitialNumElements := by
    unfold resolveEntries
    cases hH : m.hasFile <;> simp [hfe, hsm]
  unfold setup_mmap
  rw [if_neg (by simp [hfe])]
  simp [hres, InitialInfoInc, InitialInfoNumBits, InitialInfoHashShift, intBits,
    InitialNumElements, Nat.shiftLeft_eq]

/-- Claim C5 witness: the amended header-initialisation theorem applied to
the fresh anonymous `map<uint64_t, uint64_t>` instance. -/
theorem C5_fresh_header_witness :
    (setup_mmap cfgU64 pm0N 0).mask = InitialNumElements - 1 ∧
    (setup_mmap cfgU64 pm0N 0).maxNumElementsAllowed
      = calcMaxNumElementsAllowed cfgU64 InitialNumElements ∧
    (setup_mmap cfgU64 pm0N 0).infoInc = 1 <<< InitialInfoNumBits ∧
    (setup_mmap cfgU64 pm0N 0).infoHashShift = intBits - InitialInfoNumBits ∧
    (setup_mmap cfgU64 pm0N 0).infoHashShift = 27 ∧
    (setup_mmap cfgU64 pm0N 0).info InitialNumElements = 1 :=
  C5_fresh_header cfgU64 pm0N rfl rfl

/-! ### Claim C10: iterator copy assignment leaks the read lock -/

/-- Map state in which one live iterator `a` holds its read lock. -/
def pmOneLock : PMap ℕ ℕ := ref_lock pm0N

/-- Claim C10 counterexample: the claim quantifies over every iterator
`b`; for a default-constructed (unbound) `b`, `operator=` acquires no new
lock, so `readLockCount` stays at its prior value 1 instead of becoming
`1 + 1`. -/
theorem C10_counterexample :
    pmOneLock.refLocked = 1 ∧
    ((iterCopyAssign ⟨false⟩ pmOneLock).2).refLocked = 1 ∧ 1 ≠ 1 + 1 := by decide

/-- Claim C10 (amended): for an iterator `a` bound to the map (holding one
of the read locks) and a *bound* iterator `b`, the assignment `a = b`
increments `readLockCount` by one and never releases the lock previously
held through `a`; so if `a` and `b` were the only holders
(`readLockCount = 2`), after the assignment and the destruction of both
iterators the count is 1, never returning to zero. -/
theorem C10_assign_leaks_lock (m : PMap K V) (a b : IterM)
    (ha : a.bound = true) (hb : b.bound = true) (hc : m.refLocked = 2) :
    ((iterCopyAssign b m).2).refLocked = m.refLocked + 1 ∧
    (iterDestroy ⟨b.bound⟩
        (iterDestroy (iterCopyAssign b m).1 (iterCopyAssign b m).2)).refLocked = 1 ∧
    (iterDestroy ⟨b.bound⟩
        (iterDestroy (iterCopyAssign b m).1 (iterCopyAssign b m).2)).refLocked ≠ 0 := by
  simp [iterCopyAssign, iterDestroy, ref_lock, ref_unlock, hb, hc]

/-- Claim C10 witness: the leak theorem applied to a concrete state with
two live bound iterators. -/
theorem C10_assign_leaks_lock_witness :
    ((iterCopyAssign ⟨true⟩ (ref_lock pmOneLock)).2).refLocked
        = (ref_lock pmOneLock).refLocked + 1 ∧
    (iterDestroy ⟨(true : Bool)⟩
        (iterDestroy (iterCopyAssign ⟨true⟩ (ref_lock pmOneLock)).1
          (iterCopyAssign ⟨true⟩ (ref_lock pmOneLock)).2)).refLocked = 1 ∧
    (iterDestroy ⟨(true : Bool)⟩
        (iterDestroy (iterCopyAssign ⟨true⟩ (ref_lock pmOneLock)).1
          (iterCopyAssign ⟨true⟩ (ref_lock pmOneLock)).2)).refLocked ≠ 0 :=
  C10_assign_leaks_lock (ref_lock pmOneLock) ⟨true⟩ ⟨true⟩ rfl rfl rfl

/-! ### Claim C8: when the backing file is unlinked -/

/-- Operation sequence that makes a file-backed map empty again through a
final erase. -/
def c8ops : List (Op ℕ ℕ) := [Op.setK 5 7, Op.eraseK 5]

/-- Claim C8 counterexample: on the file-backed `map<uint64_t, uint64_t>`,
after `set(5, 7)` followed by the final `erase(5)` the map is empty but
the backing file still exists — the erase path contains no `unlink`. -/
theorem C8_counterexample :
    (applyOps cfgU64 c8ops pmF).map (fun m => (emptyOp m, m.fileExists))
      = some (true, true) := by decide

/-- Claim C8 (amended): an erase never unlinks the backing file, even when
it makes the map empty; the file is unlinked by the reclamation callback
`gc_done` when the map is empty at reclamation time, and by an explicit
`clear()`. -/
theorem C8_unlink_on_reclaim_or_clear (cfg : HashCfg K) (m : PMap K V) :
    (∀ k m' r, m.allocated = true → eraseOp cfg m k = some (m', r) →
      m'.fileExists = m.fileExists) ∧
    (m.inUseMutex = false → m.fdOpen = true → m.numElements = 0 →
      (gc_done m true).1.fileExists = false ∧ (gc_done m true).2 = true) ∧
    (m.hasFile = true → (clearOp m).fileExists = false) := by
  refine ⟨?_, ?_, ?_⟩
  · intro k m' r hall h
    unfold eraseOp at h
    rw [reload, if_pos hall] at h
    exact (eraseGo_frame _ _ _ _ _ _ _ _ h).2.2.2.1
  · intro hmu hfd hne
    simp [gc_done, gcSnapshot, hmu, hfd, hne]
  · intro hhf
    have h1 : ((gc_done m true).1).hasFile = m.hasFile := by
      unfold gc_done gcSnapshot
      by_cases hmu : m.inUseMutex <;>
        by_cases hfd : m.fdOpen <;>
          by_cases hne : m.numElements = 0 <;> simp [hmu, hfd, hne]
    by_cases hall : m.allocated <;> simp [clearOp, clearUnlink, hall, h1, hhf]

/-- Concrete empty-again file-backed state reached by `set(5, 7);
erase(5)`. -/
def pmC8 : PMap ℕ ℕ := (applyOps cfgU64 c8ops pmF).getD pmF

/-- Concrete file-backed state with one entry (after `set(5, 7)`). -/
def pmSet : PMap ℕ ℕ := (applyOps cfgU64 [Op.setK 5 7] pmF).getD pmF

/-- Concrete state of `pmSet` after the final `erase(5)`. -/
def pmE : PMap ℕ ℕ := ((eraseOp cfgU64 pmSet 5).getD (pmSet, 0)).1

/-- Claim C8 witness: the amended unlink theorem applied to the concrete
empty-again file-backed state produced by `set(5, 7); erase(5)` (its
erase-preserves-file, reclamation, and clear parts all instantiated on
concrete states). -/
theorem C8_unlink_witness :
    applyOps cfgU64 c8ops pmF = some pmC8 ∧
    eraseOp cfgU64 pmSet 5 = some (pmE, 1) ∧ pmE.fileExists = pmSet.fileExists ∧
    pmC8.inUseMutex = false ∧ pmC8.fdOpen = true ∧ pmC8.numElements = 0 ∧
    (gc_done pmC8 true).1.fileExists = false ∧ (gc_done pmC8 true).2 = true ∧
    (clearOp pmC8).fileExists = false := by
  refine ⟨rfl, rfl, ?_, rfl, rfl, rfl, ?_, ?_, ?_⟩
  · exact (C8_unlink_on_reclaim_or_clear cfgU64 pmSet).1 5 pmE 1 rfl rfl
  · exact ((C8_unlink_on_reclaim_or_clear cfgU64 pmC8).2.1 rfl rfl rfl).1
  · exact ((C8_unlink_on_reclaim_or_clear cfgU64 pmC8).2.1 rfl rfl rfl).2
  · exact (C8_unlink_on_reclaim_or_clear cfgU64 pmC8).2.2 rfl

/-! ### Claim C2: header inequalities after every operation -/

/-- Eight keys of `map<uint64_t, uint64_t>` whose Murmur3-finalized hashes
all fall into home bucket 54 of the 1024-slot table, inserted in
decreasing order of their upper-hash-bits info contribution so that each
lands at the end of the collision chain. -/
def c2ops : List (Op ℕ ℕ) :=
  [Op.setK 1404 1, Op.setK 1457 2, Op.setK 811 3, Op.setK 1429 4,
   Op.setK 1096 5, Op.setK 1786 6, Op.setK 383 7, Op.setK 1088 8]

/-- Claim C2 counterexample: after the eighth colliding `set`, the
displacement-overflow guard (`insertion_info + *mInfoInc > 0xFF`) has set
`maxNumElementsAllowed` to 0 while `numElements` is 8, so the claimed
invariant `numElements <= maxNumElementsAllowed` is violated after an
operation of the sequence. -/
theorem C2_counterexample :
    (applyOps cfgU64 c2ops pm0N).map
      (fun m => decide (m.numElements ≤ m.maxNumElementsAllowed)) = some false := by
  decide

/-! ### Lifecycle lemmas: `setup_mmap`, `reload`, `rehash` -/

theorem resolveEntries_forced (m : PMap K V) (nE : ℕ) (hn : nE ≠ 0) :
    resolveEntries m nE = nE := by
  unfold resolveEntries
  cases hH : m.hasFile <;> simp [hn]

theorem setup_mmap_allocated (cfg : HashCfg K) (m : PMap K V) (nE : ℕ) :
    (setup_mmap cfg m nE).allocated = true := by
  unfold setup_mmap
  split <;> rfl

theorem setup_mmap_fresh (cfg : HashCfg K) (m : PMap K V) (nE : ℕ)
    (hfr : ¬(m.hasFile = true ∧ m.fileExists = true ∧ m.numElements ≠ 0)) :
    (setup_mmap cfg m nE).mask = resolveEntries m nE - 1 ∧
    (setup_mmap cfg m nE).numElements = 0 ∧
    (setup_mmap cfg m nE).maxNumElementsAllowed
      = calcMaxNumElementsAllowed cfg (resolveEntries m nE) ∧
    (setup_mmap cfg m nE).infoInc = InitialInfoInc ∧
    (setup_mmap cfg m nE).infoHashShift = InitialInfoHashShift ∧
    (setup_mmap cfg m nE).info
      = (fun i => if i = resolveEntries m nE then 1 else 0) ∧
    (setup_mmap cfg m nE).slots = m.slots ∧
    (setup_mmap cfg m nE).allocated = true ∧
    (setup_mmap cfg m nE).hasFile = m.hasFile := by
  unfold setup_mmap openFile
  rw [if_neg hfr]
  by_cases h2 : m.hasFile <;> simp [h2]

theorem reload_id (cfg : HashCfg K) (m : PMap K V) (h : m.allocated = true) :
    reload cfg m = m := by
  unfold reload
  rw [if_pos h]

theorem reload_allocated (cfg : HashCfg K) (m : PMap K V) :
    (reload cfg m).allocated = true := by
  unfold reload
  by_cases h : m.allocated = true
  · rw [if_pos h]; exact h
  · rw [if_neg h]; exact setup_mmap_allocated cfg m 0

theorem reload_mask_ge (cfg : HashCfg K) (m : PMap K V)
    (h : m.allocated = true ∨ m.mask = 0) : m.mask ≤ (reload cfg m).mask := by
  rcases h with h | h
  · rw [reload_id cfg m h]
  · rw [h]; exact Nat.zero_le _

theorem foldlM_insert_move_frame (cfg : HashCfg K) :
    ∀ (l : List ℕ) (oi : ℕ → ℕ) (os : ℕ → K × V) (acc m' : PMap K V),
      l.foldlM
        (fun acc i => if oi i ≠ 0 then insert_move cfg acc (os i) else some acc) acc
        = some m' →
      m'.allocated = acc.allocated ∧ m'.mask = acc.mask ∧ m'.fdOpen = acc.fdOpen ∧
      m'.hasFile = acc.hasFile ∧ m'.fileExists = acc.fileExists ∧
      m'.sizeMemo = acc.sizeMemo ∧ m'.inUseMutex = acc.inUseMutex := by
  intro l
  induction l with
  | nil =>
    intro oi os acc m' h
    rw [List.foldlM_nil] at h
    simp only [pure, Option.some.injEq] at h
    subst h
    simp
  | cons a l ih =>
    intro oi os acc m' h
    rw [List.foldlM_cons] at h
    by_cases ha : oi a ≠ 0
    · rw [if_pos ha] at h
      rcases him : insert_move cfg acc (os a) with _ | acc1
      · rw [him] at h; exact absurd h (by simp [Option.bind])
      · rw [him] at h
        simp only [Option.bind_eq_bind, Option.some_bind] at h
        have h1 := ih oi os acc1 m' h
        have h2 := insert_move_frame cfg acc (os a) acc1 him
        simp_all
    · rw [if_neg ha] at h
      simp only [Option.bind_eq_bind, Option.some_bind] at h
      exact ih oi os acc m' h

theorem rehashTail_spec (cfg : HashCfg K) (mR : PMap K V) (n : ℕ) (m' : PMap K V)
    (hn : n ≠ 0) (h : rehashTail cfg mR n = some m') :
    m'.mask = n - 1 ∧ m'.allocated = true := by
  unfold rehashTail at h
  have hfold := foldlM_insert_move_frame cfg _ _ _ _ _ h
  have hfr : ¬((if mR.fdOpen = true
        then { mR with fileExists := false, fdOpen := false } else mR).hasFile = true
      ∧ (if mR.fdOpen = true
        then { mR with fileExists := false, fdOpen := false } else mR).fileExists = true
      ∧ (0 : ℕ) ≠ 0) := by
    simp
  obtain ⟨h1, _, _, _, _, _, _, h8, _⟩ := setup_mmap_fresh cfg
    { (if mR.fdOpen then { mR with fileExists := false, fdOpen := false } else mR) with
        allocated := false, mask := 0, numElements := 0,
        maxNumElementsAllowed := 0 } n (by by_cases hf : mR.fdOpen <;> simp_all)
  have hres : resolveEntries
      { (if mR.fdOpen then { mR with fileExists := false, fdOpen := false } else mR) with
          allocated := false, mask := 0, numElements := 0,
          maxNumElementsAllowed := 0 } n = n :=
    resolveEntries_forced _ n hn
  constructor
  · rw [hfold.2.1, h1, hres]
  · rw [hfold.1, h8]

theorem rehash_mono (cfg : HashCfg K) (m m' : PMap K V) (n : ℕ)
    (hma : m.allocated = true ∨ m.mask = 0)
    (h : rehash cfg m n = some m') : m.mask ≤ m'.mask ∧ m'.allocated = true := by
  unfold rehash at h
  by_cases hc : n ≤ (reload cfg m).mask + 1
  · rw [if_pos hc] at h
    simp only [Option.some.injEq] at h
    subst h
    exact ⟨reload_mask_ge cfg m hma, reload_allocated cfg m⟩
  · rw [if_neg hc] at h
    have hn : n ≠ 0 := by omega
    have := rehashTail_spec cfg (reload cfg m) n m' hn h
    refine ⟨?_, this.2⟩
    have h2 := reload_mask_ge cfg m hma
    omega

theorem tii_false_id (cfg : HashCfg K) (m : PMap K V)
    (h : (try_increase_info cfg m).2 = false) : (try_increase_info cfg m).1 = m := by
  unfold try_increase_info at h ⊢
  by_cases h2 : m.infoInc ≤ 2
  · rw [if_pos h2]
  · rw [if_neg h2] at h
    simp at h

theorem increase_size_mono (cfg : HashCfg K) (m m' : PMap K V)
    (hma : m.allocated = true ∨ m.mask = 0)
    (h : increase_size cfg m = some m') : m.mask ≤ m'.mask ∧ m'.allocated = true := by
  unfold increase_size at h
  by_cases h0 : m.mask = 0
  · rw [if_pos h0] at h
    simp only [Option.some.injEq] at h
    subst h
    exact ⟨by omega, reload_allocated cfg m⟩
  · rw [if_neg h0] at h
    have hall : m.allocated = true := hma.resolve_right h0
    by_cases h1 : m.numElements < calcMaxNumElementsAllowed cfg (m.mask + 1)
    · rw [if_pos h1] at h
      by_cases h2 : (try_increase_info cfg m).2 = true
      · rw [if_pos h2] at h
        simp only [Option.some.injEq] at h
        subst h
        have := tii_frame cfg m
        constructor
        · rw [this.2.2.2.2.1]
        · rw [this.1, hall]
      · rw [if_neg h2] at h
        rw [tii_false_id cfg m (by simpa using h2)] at h
        exact rehash_mono cfg m m' _ (Or.inl hall) h
    · rw [if_neg h1] at h
      exact rehash_mono cfg m m' _ (Or.inl hall) h

theorem doCreateAttempt_cases (cfg : HashCfg K) (m : PMap K V) (k : K) (v : V)
    (r : (PMap K V × ℕ) ⊕ PMap K V) (h : doCreateAttempt cfg m k v = some r) :
    (∃ mz i, r = Sum.inl (mz, i) ∧ mz.mask = m.mask ∧ mz.allocated = m.allocated) ∨
    (∃ mz, r = Sum.inr mz ∧ increase_size cfg m = some mz) := by
  unfold doCreateAttempt at h
  rcases h1 : nextWhileLessGo m (m.mask + 600) (keyToIdx cfg m k).1 (keyToIdx cfg m k).2
      with _ | ⟨idx1, info1⟩
  · rw [h1] at h; exact absurd h (by simp)
  · rw [h1] at h
    dsimp only at h
    rcases h2 : matchLoopGo m k (m.mask + 600) idx1 info1 with _ | ⟨idx2, info2, found⟩
    · rw [h2] at h; exact absurd h (by simp)
    · rw [h2] at h
      dsimp only at h
      by_cases hf : found = true
      · rw [hf] at h
        simp only [if_pos, Option.some.injEq] at h
        subst h
        exact Or.inl ⟨_, _, rfl, rfl, rfl⟩
      · rw [Bool.not_eq_true] at hf
        rw [hf] at h
        simp only [Bool.false_eq_true, if_false] at h
        by_cases hsz : m.maxNumElementsAllowed ≤ m.numElements
        · rw [if_pos hsz] at h
          rcases h3 : increase_size cfg m with _ | mz
          · rw [h3] at h; exact absurd h (by simp)
          · rw [h3] at h
            simp only [Option.map_some', Option.some.injEq] at h
            subst h
            exact Or.inr ⟨mz, rfl, h3 ▸ rfl⟩
        · rw [if_neg hsz] at h
          rcases h4 : insertTail
              (if 255 < info2 + (m.infoInc : ℤ)
                then { m with maxNumElementsAllowed := 0 } else m)
              idx2 info2 (toU8 info2) (k, v) with _ | m2
          · rw [h4] at h; exact absurd h (by simp)
          · rw [h4] at h
            simp only [Option.map_some', Option.some.injEq] at h
            subst h
            have h5 := insertTail_frame _ _ _ _ _ _ h4
            refine Or.inl ⟨m2, idx2, rfl, ?_, ?_⟩
            · rw [h5.2.2.2.2.1]
              by_cases hg : 255 < info2 + (m.infoInc : ℤ) <;> simp [hg]
            · rw [h5.1]
              by_cases hg : 255 < info2 + (m.infoInc : ℤ) <;> simp [hg]

theorem doCreateGo_mono (cfg : HashCfg K) :
    ∀ (fuel : ℕ) (m : PMap K V) (k : K) (v : V) (m' : PMap K V) (i : ℕ),
      (m.allocated = true ∨ m.mask = 0) →
      doCreateGo cfg fuel m k v = some (m', i) →
      m.mask ≤ m'.mask ∧ m'.allocated = true := by
  intro fuel
  induction fuel with
  | zero => intro m k v m' i hma h; simp [doCreateGo] at h
  | succ fz ih =>
    intro m k v m' i hma h
    rw [doCreateGo] at h
    rcases hA : doCreateAttempt cfg (reload cfg m) k v with _ | r
    · rw [hA] at h; exact absurd h (by simp)
    · rw [hA] at h
      rcases doCreateAttempt_cases cfg (reload cfg m) k v r hA with
        ⟨mz, j, rfl, hm1, hm2⟩ | ⟨mz, rfl, hinc⟩
      · simp only [Option.some.injEq] at h
        rw [Prod.mk.injEq] at h
        obtain ⟨h5, _⟩ := h
        subst h5
        constructor
        · rw [hm1]; exact reload_mask_ge cfg m hma
        · rw [hm2]; exact reload_allocated cfg m
      · have hz := increase_size_mono cfg (reload cfg m) mz
          (Or.inl (reload_allocated cfg m)) hinc
        have h6 := ih mz k v m' i (Or.inl hz.2) h
        have h7 := reload_mask_ge cfg m hma
        exact ⟨by omega, h6.2⟩

/-! ### Claim C9: `rehash` never shrinks -/

/-- Claim C9 counterexample: on the never-allocated map the current slot
count `mask + 1` is 1, so for `n = 1` the claim says `rehash(1)` leaves
the state completely unchanged; but `rehash` first calls `reload`, which
creates the initial 1024-slot mapping (the mask becomes 1023 and the map
becomes allocated). -/
theorem C9_counterexample :
    pm0N.mask = 0 ∧ pm0N.allocated = false ∧ (1 : ℕ) ≤ pm0N.mask + 1 ∧
    (rehash cfgU64 pm0N 1).map (fun m => (m.mask, m.allocated))
      = some (1023, true) := by decide

/-- Restriction of the operation alphabet to `set` and `reserve` (the
claim excepts `clear`; `erase` is not in its list either). -/
def growOnly : Op K V → Prop
  | Op.setK _ _ => True
  | Op.reserveN _ => True
  | _ => False

/-- Claim C9 (amended): on a mapped table, `rehash(n)` with
`mask + 1 >= n` returns with the state completely unchanged (on a
never-allocated map it first triggers the initial allocation); in all
cases `rehash` never shrinks the table, and over any sequence of
`set`/`reserve` operations the slot count is monotonically
non-decreasing. -/
theorem C9_rehash_never_shrinks (cfg : HashCfg K) :
    (∀ (m : PMap K V) (n : ℕ), m.allocated = true → n ≤ m.mask + 1 →
      rehash cfg m n = some m) ∧
    (∀ (m m' : PMap K V) (n : ℕ), m.allocated = true ∨ m.mask = 0 →
      rehash cfg m n = some m' → m.mask ≤ m'.mask) ∧
    (∀ (ops : List (Op K V)) (m m' : PMap K V),
      (∀ op ∈ ops, growOnly op) →
      m.allocated = true ∨ m.mask = 0 →
      applyOps cfg ops m = some m' → m.mask ≤ m'.mask) := by
  refine ⟨?_, ?_, ?_⟩
  · intro m n hall hle
    unfold rehash
    rw [reload_id cfg m hall, if_pos hle]
  · intro m m' n hma h
    exact (rehash_mono cfg m m' n hma h).1
  · intro ops
    induction ops with
    | nil =>
      intro m m' hgrow hma h
      simp only [applyOps, Option.some.injEq] at h
      subst h
      exact le_refl _
    | cons op ops ih =>
      intro m m' hgrow hma h
      simp only [applyOps] at h
      rcases h1 : applyOp cfg op m with _ | m1
      · rw [h1] at h; exact absurd h (by simp)
      · rw [h1] at h
        have hstep : m.mask ≤ m1.mask ∧ m1.allocated = true := by
          rcases op with ⟨k, v⟩ | k | n | _
          · simp only [applyOp] at h1
            rcases h2 : setOp cfg m k v with _ | ⟨mz, j⟩
            · rw [h2] at h1; exact absurd h1 (by simp)
            · rw [h2] at h1
              simp only [Option.map_some', Option.some.injEq] at h1
              subst h1
              exact doCreateGo_mono cfg 40 m k v mz j hma h2
          · exact absurd (hgrow _ (List.mem_cons_self _ _)) (by simp [growOnly])
          · simp only [applyOp] at h1
            exact rehash_mono cfg m m1 _ hma h1
          · exact absurd (hgrow _ (List.mem_cons_self _ _)) (by simp [growOnly])
        have h3 := ih m1 m' (fun op hop => hgrow op (List.mem_cons_of_mem _ hop))
          (Or.inl hstep.2) h
        omega

/-- Concrete anonymous map state after `set(5, 7)`. -/
def pmSet1N : PMap ℕ ℕ := (applyOps cfgU64 [Op.setK 5 7] pm0N).getD pm0N

/-- Claim C9 witness: the no-shrink theorem applied to the concrete
allocated 1024-slot table (`rehash(1024)` is an exact no-op) and to the
concrete grow sequence `set(5, 7)` from the fresh map. -/
theorem C9_rehash_never_shrinks_witness :
    rehash cfgU64 (setup_mmap cfgU64 pm0N 0) 1024 = some (setup_mmap cfgU64 pm0N 0) ∧
    pm0N.mask ≤ pmSet1N.mask := by
  constructor
  · exact (C9_rehash_never_shrinks cfgU64).1 (setup_mmap cfgU64 pm0N 0) 1024 rfl
      (by decide)
  · exact (C9_rehash_never_shrinks cfgU64).2.2 [Op.setK 5 7] pm0N pmSet1N
      (by intro op hop; simp at hop; subst hop; trivial) (Or.inr rfl) rfl

/-! ### Bounds on the initial probe info value -/

theorem toSigned32_bounds (x : ℕ) : -(2 ^ 31) ≤ toSigned32 x ∧ toSigned32 x < 2 ^ 31 := by
  unfold toSigned32
  have h1 : x % 2 ^ 32 < 2 ^ 32 := Nat.mod_lt _ (by norm_num)
  have h1' : ((x % 2 ^ 32 : ℕ) : ℤ) < 2 ^ 32 := by exact_mod_cast h1
  have h0' : (0 : ℤ) ≤ ((x % 2 ^ 32 : ℕ) : ℤ) := Int.ofNat_nonneg _
  by_cases h : x % 2 ^ 32 < 2 ^ 31
  · rw [if_pos h]
    have h' : ((x % 2 ^ 32 : ℕ) : ℤ) < 2 ^ 31 := by exact_mod_cast h
    constructor <;> omega
  · rw [if_neg h]
    have h' : (2 ^ 31 : ℤ) ≤ ((x % 2 ^ 32 : ℕ) : ℤ) := by
      have := Nat.le_of_not_lt h
      exact_mod_cast this
    constructor <;> omega

theorem sar_bounds (t : ℤ) (s : ℕ) (h1 : -(2 ^ 31) ≤ t) (h2 : t < 2 ^ 31)
    (hs2 : s ≤ 31) :
    -((2 : ℤ) ^ (31 - s)) ≤ sar t s ∧ sar t s ≤ 2 ^ (31 - s) - 1 := by
  unfold sar
  rw [Int.fdiv_eq_ediv _ (by positivity)]
  have hsplit : (2 ^ 31 : ℤ) = 2 ^ (31 - s) * 2 ^ s := by
    rw [← pow_add]
    congr 1
    omega
  have hpos : (0 : ℤ) < 2 ^ s := by positivity
  constructor
  · have hlow : (-(2 ^ 31) : ℤ) / 2 ^ s = -(2 ^ (31 - s)) := by
      rw [hsplit, ← neg_mul, Int.mul_ediv_cancel _ (by positivity)]
    calc -((2 : ℤ) ^ (31 - s)) = -(2 ^ 31) / 2 ^ s := hlow.symm
      _ ≤ t / 2 ^ s := Int.ediv_le_ediv hpos h1
  · have hup : ((2 : ℤ) ^ 31 - 1) / 2 ^ s = 2 ^ (31 - s) - 1 := by
      have hrw : (2 : ℤ) ^ 31 - 1 = (2 ^ s - 1) + (2 ^ (31 - s) - 1) * 2 ^ s := by
        rw [sub_mul, one_mul, ← hsplit]
        ring
      rw [hrw, Int.add_mul_ediv_right _ _ (by positivity),
        Int.ediv_eq_zero_of_lt (by omega) (by omega)]
      ring
    calc t / 2 ^ s ≤ ((2 : ℤ) ^ 31 - 1) / 2 ^ s := Int.ediv_le_ediv hpos (by omega)
      _ = 2 ^ (31 - s) - 1 := hup

/-- For every hash value, with valid `(infoInc, infoHashShift)` parameters
(`infoInc = 2 ^ (32 - shift)`, shift between 27 and 31), the initial probe
info `mInfoInc + (idx >> mInfoHashShift)` lies in `[1, 47]`. -/
theorem info0_bounds (inc s x : ℕ) (hs1 : 27 ≤ s) (hs2 : s ≤ 31)
    (hinc : inc = 2 ^ (32 - s)) :
    1 ≤ (inc : ℤ) + sar (toSigned32 x) s ∧ (inc : ℤ) + sar (toSigned32 x) s ≤ 47 := by
  obtain ⟨ht1, ht2⟩ := toSigned32_bounds x
  obtain ⟨hs1', hs2'⟩ := sar_bounds (toSigned32 x) s ht1 ht2 hs2
  have hincZ : (inc : ℤ) = 2 ^ (32 - s) := by rw [hinc]; push_cast; ring
  have hdouble : (2 : ℤ) ^ (32 - s) = 2 * 2 ^ (31 - s) := by
    rw [← pow_succ']
    congr 1
    omega
  have hEb : (2 : ℤ) ^ (31 - s) ≤ 16 := by
    calc (2 : ℤ) ^ (31 - s) ≤ 2 ^ 4 := by
          apply pow_le_pow_right₀ (by norm_num)
          omega
      _ = 16 := by norm_num
  have hE1 : (0 : ℤ) < 2 ^ (31 - s) := by positivity
  constructor <;> omega

/-! ### Claim C6: `find` on a never-allocated map -/

/-- Search on a table whose reachable info bytes are all zero terminates
with `-1` in a single unrolled iteration. -/
theorem findIdxGo_all_empty (m1 : PMap K V) (k : K)
    (hz : ∀ i, i ≤ m1.mask → m1.info i = 0) :
    ∀ (fuel idx : ℕ) (info : ℤ), 1 ≤ fuel → idx ≤ m1.mask → 1 ≤ info →
      findIdxGo m1 k fuel idx info = some (-1) := by
  intro fuel idx info hfuel hidx hinfo
  obtain ⟨f, rfl⟩ : ∃ f, fuel = f + 1 := ⟨fuel - 1, by omega⟩
  rw [findIdxGo]
  have h0 : m1.info idx = 0 := hz idx hidx
  have h1 : m1.info (nextIdx m1 idx) = 0 := hz _ Nat.and_le_right
  have h2 : m1.info (nextIdx m1 (nextIdx m1 idx)) = 0 := hz _ Nat.and_le_right
  have hincnn : (0 : ℤ) ≤ (m1.infoInc : ℤ) := Int.ofNat_nonneg _
  have hc1 : ¬(info = ((m1.info idx : ℕ) : ℤ) ∧ (m1.slots idx).1 = k) := by
    rw [h0]
    intro hcon
    have := hcon.1
    push_cast at this
    omega
  have hc2 : ¬(info + (m1.infoInc : ℤ) = ((m1.info (nextIdx m1 idx) : ℕ) : ℤ) ∧
      (m1.slots (nextIdx m1 idx)).1 = k) := by
    rw [h1]
    intro hcon
    have := hcon.1
    push_cast at this
    omega
  have hc3 : ¬(info + (m1.infoInc : ℤ) + (m1.infoInc : ℤ)
      ≤ ((m1.info (nextIdx m1 (nextIdx m1 idx)) : ℕ) : ℤ)) := by
    rw [h2]
    push_cast
    omega
  rw [if_neg hc1, if_neg hc2, if_neg hc3]

theorem resolveEntries_fresh (m : PMap K V) (hfe : m.fileExists = false)
    (hsm : m.sizeMemo = 0) : resolveEntries m 0 = InitialNumElements := by
  unfold resolveEntries
  cases hH : m.hasFile <;> simp [hfe, hsm]

/-- Claim C6 counterexample: `find` on the never-allocated map does create
the initial mapping (the claim says only `set` triggers the allocation):
the resulting state is mapped even though the search correctly reports
`-1`. -/
theorem C6_counterexample :
    pm0N.allocated = false ∧ ((find_key cfgU64 pm0N 0).1).allocated = true ∧
    (find_key cfgU64 pm0N 0).2 = some (-1) := by decide

/-- Claim C6 (amended): on a map that has never been allocated, `find`
returns the `-1` result and `size()` is 0, but — contrary to the claim —
it does trigger the initial allocation, because `findIdx` begins with
`reload()`; `set` triggers the allocation as well. -/
theorem C6_find_on_unallocated (cfg : HashCfg K) (m : PMap K V) (k : K)
    (ha : m.allocated = false) (hfe : m.fileExists = false) (hsm : m.sizeMemo = 0) :
    (find_key cfg m k).2 = some (-1) ∧
    ((find_key cfg m k).1).allocated = true ∧
    sizeOp ((find_key cfg m k).1) = 0 := by
  have hrl : reload cfg m = setup_mmap cfg m 0 := by
    unfold reload
    rw [if_neg (by rw [ha]; exact Bool.false_ne_true)]
  have hres : resolveEntries m 0 = InitialNumElements := resolveEntries_fresh m hfe hsm
  have hfr : ¬(m.hasFile = true ∧ m.fileExists = true ∧ m.numElements ≠ 0) := by
    rw [hfe]
    rintro ⟨-, hcon, -⟩
    exact Bool.false_ne_true hcon
  obtain ⟨hmask, hnum, hmax, hinc, hshift, hinfo, hslots, hall, hhf⟩ :=
    setup_mmap_fresh cfg m 0 hfr
  refine ⟨?_, ?_, ?_⟩
  · show (findIdx cfg m k).2 = some (-1)
    unfold findIdx
    rw [hrl]
    apply findIdxGo_all_empty
    · intro i hi
      rw [hinfo]
      have : i ≠ resolveEntries m 0 := by
        rw [hres]
        rw [hmask, hres] at hi
        simp only [InitialNumElements] at hi ⊢
        omega
      simp [this]
    · omega
    · exact Nat.and_le_right
    · have hb := info0_bounds InitialInfoInc InitialInfoHashShift
        (cfg.hash k * cfg.badHash % 2 ^ 64) (by norm_num [InitialInfoHashShift, intBits,
          InitialInfoNumBits]) (by norm_num [InitialInfoHashShift, intBits,
          InitialInfoNumBits]) (by norm_num [InitialInfoInc, InitialInfoHashShift,
          intBits, InitialInfoNumBits])
      show 1 ≤ (keyToIdx cfg (setup_mmap cfg m 0) k).2
      unfold keyToIdx
      rw [hinc, hshift]
      exact hb.1
  · show ((findIdx cfg m k).1).allocated = true
    unfold findIdx
    rw [hrl]
    exact hall
  · show sizeOp ((findIdx cfg m k).1) = 0
    unfold findIdx sizeOp
    rw [hrl]
    exact hnum

/-- Claim C6 witness: the amended theorem applied to the fresh anonymous
`map<uint64_t, uint64_t>` instance at key 0. -/
theorem C6_find_on_unallocated_witness :
    (find_key cfgU64 pm0N 0).2 = some (-1) ∧
    ((find_key cfgU64 pm0N 0).1).allocated = true ∧
    sizeOp ((find_key cfgU64 pm0N 0).1) = 0 :=
  C6_find_on_unallocated cfgU64 pm0N 0 rfl rfl rfl

/-! ### Claim C7: `try_increase_info` halves every info byte through
64-bit masked qword operations and keeps the sentinel -/

/-- Little-endian value of `n` bytes taken from `B`. -/
def bval : ℕ → (ℕ → ℕ) → ℕ
  | 0, _ => 0
  | n + 1, B => B 0 + 256 * bval n (fun t => B (t + 1))

/-- Mask of `n` bytes of `0x7f`. -/
def mval : ℕ → ℕ
  | 0 => 0
  | n + 1 => 127 + 256 * mval n

theorem land_byte_split (x y x' y' : ℕ) (hx : x < 256) (hy : y < 256) :
    (x + 256 * x') &&& (y + 256 * y') = (x &&& y) + 256 * (x' &&& y') := by
  apply Nat.eq_of_testBit_eq
  intro j
  rw [Nat.testBit_land]
  have hx8 : x < 2 ^ 8 := hx
  have hy8 : y < 2 ^ 8 := hy
  have e1 : x + 256 * x' = 2 ^ 8 * x' + x := by ring
  have e2 : y + 256 * y' = 2 ^ 8 * y' + y := by ring
  have e3 : (x &&& y) + 256 * (x' &&& y') = 2 ^ 8 * (x' &&& y') + (x &&& y) := by ring
  rw [e1, e2, e3, Nat.testBit_mul_pow_two_add _ hx8, Nat.testBit_mul_pow_two_add _ hy8,
    Nat.testBit_mul_pow_two_add _ (Nat.and_lt_two_pow x hy8)]
  by_cases hj : j < 8
  · simp [hj, Nat.testBit_land]
  · simp [hj, Nat.testBit_land]

theorem halve_and_mask : ∀ (n : ℕ) (B : ℕ → ℕ), (∀ t, t < n → B t < 256) →
    (bval n B / 2) &&& mval n = bval n (fun t => B t / 2) := by
  intro n
  induction n with
  | zero => intro B hB; simp [bval, mval]
  | succ n ih =>
    intro B hB
    have hB0 := hB 0 (Nat.succ_pos n)
    have hdecomp : bval (n + 1) B / 2 =
        (B 0 / 2 + 128 * (bval n (fun t => B (t + 1)) % 2)) +
          256 * (bval n (fun t => B (t + 1)) / 2) := by
      rw [bval]
      omega
    have hmv : mval (n + 1) = 127 + 256 * mval n := rfl
    rw [hdecomp, hmv, land_byte_split _ _ _ _ (by omega) (by norm_num)]
    have hlow : (B 0 / 2 + 128 * (bval n (fun t => B (t + 1)) % 2)) &&& 127 = B 0 / 2 := by
      have h127 : (127 : ℕ) = 2 ^ 7 - 1 := by norm_num
      rw [h127, Nat.and_pow_two_sub_one_eq_mod]
      omega
    rw [hlow, ih _ (fun t ht => hB (t + 1) (by omega))]
    rfl

theorem bval_digit : ∀ (n : ℕ) (B : ℕ → ℕ), (∀ t, t < n → B t < 256) →
    ∀ t, t < n → bval n B / 256 ^ t % 256 = B t := by
  intro n
  induction n with
  | zero => intro B hB t ht; omega
  | succ n ih =>
    intro B hB t ht
    cases t with
    | zero =>
      rw [bval]
      have := hB 0 (by omega)
      simp only [pow_zero, Nat.div_one]
      omega
    | succ t =>
      have hdiv : bval (n + 1) B / 256 = bval n (fun s => B (s + 1)) := by
        rw [bval]
        have := hB 0 (by omega)
        omega
      have hstep : bval (n + 1) B / 256 ^ (t + 1) = bval n (fun s => B (s + 1)) / 256 ^ t := by
        rw [pow_succ', ← Nat.div_div_eq_div_mul, hdiv]
      rw [hstep, ih _ (fun s hs => hB (s + 1) (by omega)) t (by omega)]

theorem loadQword_eq_bval (f : ℕ → ℕ) (base : ℕ) :
    loadQword f base = bval 8 (fun t => f (base + t)) := by
  have h : bval 8 (fun t => f (base + t)) =
      f base + 256 * (f (base + 1) + 256 * (f (base + 2) + 256 * (f (base + 3) +
        256 * (f (base + 4) + 256 * (f (base + 5) + 256 * (f (base + 6) +
        256 * (f (base + 7) + 256 * 0))))))) := rfl
  rw [h]
  unfold loadQword
  ring

theorem qmask_eq_mval : qmask = mval 8 := by decide

theorem tiiStep_byte (g : ℕ → ℕ) (base j : ℕ)
    (hb : ∀ t, t < 8 → g (base + t) < 256) (hj1 : base ≤ j) (hj2 : j < base + 8) :
    storeQword g base ((loadQword g base >>> 1) &&& qmask) j = g j / 2 := by
  unfold storeQword
  rw [if_pos ⟨hj1, hj2⟩, Nat.shiftRight_eq_div_pow, pow_one, loadQword_eq_bval,
    qmask_eq_mval, halve_and_mask 8 _ hb]
  have hd := bval_digit 8 (fun t => g (base + t) / 2)
    (fun t ht => by show g (base + t) / 2 < 256; have := hb t ht; omega)
    (j - base) (by omega)
  rw [hd]
  show g (base + (j - base)) / 2 = g j / 2
  have harg : base + (j - base) = j := by omega
  rw [harg]

theorem tiiBytes_spec (f : ℕ → ℕ) : ∀ (n : ℕ), (∀ j, j < 8 * n → f j < 256) →
    ∀ j, (j < 8 * n → tiiBytes f n j = f j / 2) ∧ (8 * n ≤ j → tiiBytes f n j = f j) := by
  intro n
  induction n with
  | zero => intro hf j; exact ⟨by omega, fun _ => rfl⟩
  | succ n ih =>
    intro hf j
    have ihs := ih (fun j hj => hf j (by omega))
    rw [tiiBytes]
    constructor
    · intro hj
      by_cases hlt : j < 8 * n
      · unfold storeQword
        rw [if_neg (by omega)]
        exact (ihs j).1 hlt
      · have hb : ∀ t, t < 8 → tiiBytes f n (8 * n + t) < 256 := by
          intro t ht
          rw [(ihs (8 * n + t)).2 (by omega)]
          exact hf _ (by omega)
        rw [tiiStep_byte _ _ _ hb (by omega) (by omega)]
        rw [(ihs j).2 (by omega)]
    · intro hj
      unfold storeQword
      rw [if_neg (by omega)]
      exact (ihs j).2 (by omega)

/-- Claim C7: `try_increase_info` returns false when `infoInc <= 2`;
otherwise it halves `infoInc`, increments `infoHashShift`, right-shifts
every info byte of slots `0..mask` by one through the 64-bit masked qword
loop, leaves the sentinel byte at index `mask + 1` untouched, and
recomputes the load bound. -/
theorem C7_try_increase_info (cfg : HashCfg K) (m : PMap K V) :
    (m.infoInc ≤ 2 → try_increase_info cfg m = (m, false)) ∧
    (2 < m.infoInc → m.infoInc ≤ 255 → 8 ∣ m.mask + 1 →
      (∀ j, j ≤ m.mask → m.info j < 256) →
      (try_increase_info cfg m).2 = true ∧
      (try_increase_info cfg m).1.infoInc = m.infoInc / 2 ∧
      (try_increase_info cfg m).1.infoHashShift = m.infoHashShift + 1 ∧
      (∀ j, j ≤ m.mask → (try_increase_info cfg m).1.info j = m.info j / 2) ∧
      (try_increase_info cfg m).1.info (m.mask + 1) = m.info (m.mask + 1) ∧
      (try_increase_info cfg m).1.maxNumElementsAllowed
        = calcMaxNumElementsAllowed cfg (m.mask + 1)) := by
  constructor
  · intro hle
    unfold try_increase_info
    rw [if_pos hle]
  · intro hgt hlt255 hdvd hb
    have h8 : 8 * ((m.mask + 1) / 8) = m.mask + 1 := Nat.mul_div_cancel' hdvd
    unfold try_increase_info
    rw [if_neg (by omega)]
    refine ⟨rfl, ?_, rfl, ?_, ?_, rfl⟩
    · show m.infoInc >>> 1 % 256 = m.infoInc / 2
      rw [Nat.shiftRight_eq_div_pow, pow_one]
      omega
    · intro j hj
      exact (tiiBytes_spec m.info ((m.mask + 1) / 8)
        (fun j hj => hb j (by omega)) j).1 (by omega)
    · exact (tiiBytes_spec m.info ((m.mask + 1) / 8)
        (fun j hj => hb j (by omega)) (m.mask + 1)).2 (by omega)

/-- Concrete freshly allocated 1024-slot table. -/
def pmA : PMap ℕ ℕ := setup_mmap cfgU64 pm0N 0

/-- Claim C7 witness: `try_increase_info` applied to the freshly allocated
1024-slot table (`infoInc = 32`), and, for the refusal branch, to the same
table with `infoInc` lowered to 2. -/
theorem C7_try_increase_info_witness :
    try_increase_info cfgU64 { pmA with infoInc := 2 }
        = ({ pmA with infoInc := 2 }, false) ∧
    (try_increase_info cfgU64 pmA).2 = true ∧
    (try_increase_info cfgU64 pmA).1.infoInc = pmA.infoInc / 2 ∧
    (try_increase_info cfgU64 pmA).1.infoHashShift = pmA.infoHashShift + 1 ∧
    (∀ j, j ≤ pmA.mask → (try_increase_info cfgU64 pmA).1.info j = pmA.info j / 2) ∧
    (try_increase_info cfgU64 pmA).1.info (pmA.mask + 1) = pmA.info (pmA.mask + 1) ∧
    (try_increase_info cfgU64 pmA).1.maxNumElementsAllowed
      = calcMaxNumElementsAllowed cfgU64 (pmA.mask + 1) := by
  have h1 := (C7_try_increase_info cfgU64 { pmA with infoInc := 2 }).1 (by decide)
  have h2 := (C7_try_increase_info cfgU64 pmA).2 (by decide) (by decide) (by decide)
    (by decide)
  exact ⟨h1, h2.1, h2.2.1, h2.2.2.1, h2.2.2.2.1, h2.2.2.2.2.1, h2.2.2.2.2.2⟩

/-! ### Probe positions never leave the table -/

theorem keyToIdx_le_mask (cfg : HashCfg K) (m : PMap K V) (k : K) :
    (keyToIdx cfg m k).1 ≤ m.mask :=
  Nat.and_le_right

theorem nextIdx_le_mask (m : PMap K V) (idx : ℕ) : nextIdx m idx ≤ m.mask :=
  Nat.and_le_right

theorem nextWhileLessGo_le_mask :
    ∀ (fuel : ℕ) (m : PMap K V) (idx : ℕ) (info : ℤ) (idx' : ℕ) (info' : ℤ),
      nextWhileLessGo m fuel idx info = some (idx', info') → idx ≤ m.mask →
      idx' ≤ m.mask := by
  intro fuel
  induction fuel with
  | zero => intro m idx info idx' info' h _; simp [nextWhileLessGo] at h
  | succ n ih =>
    intro m idx info idx' info' h hle
    rw [nextWhileLessGo] at h
    by_cases hc : info < (m.info idx : ℤ)
    · rw [if_pos hc] at h
      exact ih m _ _ _ _ h (nextIdx_le_mask m idx)
    · rw [if_neg hc] at h
      simp only [Option.some.injEq, Prod.mk.injEq] at h
      omega

theorem matchLoopGo_le_mask :
    ∀ (fuel : ℕ) (m : PMap K V) (k : K) (idx : ℕ) (info : ℤ) (idx' : ℕ)
      (info' : ℤ) (fnd : Bool),
      matchLoopGo m k fuel idx info = some (idx', info', fnd) → idx ≤ m.mask →
      idx' ≤ m.mask := by
  intro fuel
  induction fuel with
  | zero => intro m k idx info idx' info' fnd h _; simp [matchLoopGo] at h
  | succ n ih =>
    intro m k idx info idx' info' fnd h hle
    rw [matchLoopGo] at h
    by_cases hc : info = (m.info idx : ℤ)
    · rw [if_pos hc] at h
      by_cases hk : (m.slots idx).1 = k
      · rw [if_pos hk] at h
        simp only [Option.some.injEq, Prod.mk.injEq] at h
        omega
      · rw [if_neg hk] at h
        exact ih m k _ _ _ _ _ h (nextIdx_le_mask m idx)
    · rw [if_neg hc] at h
      simp only [Option.some.injEq, Prod.mk.injEq] at h
      omega

theorem findEmptyGo_le_mask :
    ∀ (fuel : ℕ) (m : PMap K V) (idx : ℕ) (info : ℤ) (idx' : ℕ) (info' : ℤ),
      findEmptyGo m fuel idx info = some (idx', info') → idx ≤ m.mask →
      idx' ≤ m.mask := by
  intro fuel
  induction fuel with
  | zero => intro m idx info idx' info' h _; simp [findEmptyGo] at h
  | succ n ih =>
    intro m idx info idx' info' h hle
    rw [findEmptyGo] at h
    by_cases hc : m.info idx ≠ 0
    · rw [if_pos hc] at h
      exact ih m _ _ _ _ h (nextIdx_le_mask m idx)
    · rw [if_neg hc] at h
      simp only [Option.some.injEq, Prod.mk.injEq] at h
      omega

theorem skipGo_le_mask :
    ∀ (fuel : ℕ) (m : PMap K V) (idx : ℕ) (info : ℤ) (idx' : ℕ) (info' : ℤ),
      skipGo m fuel idx info = some (idx', info') → idx ≤ m.mask →
      idx' ≤ m.mask := by
  intro fuel
  induction fuel with
  | zero => intro m idx info idx' info' h _; simp [skipGo] at h
  | succ n ih =>
    intro m idx info idx' info' h hle
    rw [skipGo] at h
    by_cases hc : info ≤ (m.info idx : ℤ)
    · rw [if_pos hc] at h
      exact ih m _ _ _ _ h (nextIdx_le_mask m idx)
    · rw [if_neg hc] at h
      simp only [Option.some.injEq, Prod.mk.injEq] at h
      omega

/-! ### Writes never touch bytes above the table -/

theorem tiiBytes_high (f : ℕ → ℕ) : ∀ (n j : ℕ), 8 * n ≤ j → tiiBytes f n j = f j := by
  intro n
  induction n with
  | zero => intro j _; rfl
  | succ n ih =>
    intro j hj
    rw [tiiBytes]
    unfold storeQword
    rw [if_neg (by omega)]
    exact ih j (by omega)

theorem tii_info_high (cfg : HashCfg K) (m : PMap K V) (hdvd : 8 ∣ m.mask + 1) :
    ∀ q, m.mask < q → (try_increase_info cfg m).1.info q = m.info q := by
  intro q hq
  unfold try_increase_info
  by_cases h : m.infoInc ≤ 2
  · rw [if_pos h]
  · rw [if_neg h]
    show tiiBytes m.info ((m.mask + 1) / 8) q = m.info q
    have h8 : 8 * ((m.mask + 1) / 8) = m.mask + 1 := Nat.mul_div_cancel' hdvd
    exact tiiBytes_high m.info _ q (by omega)

theorem shiftUpGo_info_high :
    ∀ (fuel : ℕ) (m : PMap K V) (idx ins : ℕ) (m' : PMap K V),
      shiftUpGo fuel m idx ins = some m' → idx ≤ m.mask →
      ∀ q, m.mask < q → m'.info q = m.info q := by
  intro fuel
  induction fuel with
  | zero => intro m idx ins m' h _; simp [shiftUpGo] at h
  | succ n ih =>
    intro m idx ins m' h hidx q hq
    rw [shiftUpGo] at h
    by_cases hc : idx = ins
    · rw [if_pos hc] at h
      simp only [Option.some.injEq] at h
      subst h
      rfl
    · rw [if_neg hc] at h
      have hmask : (shiftUpWrite m idx).mask = m.mask := by
        unfold shiftUpWrite
        by_cases hg : 255 < (m.info (prevIdx m idx) + m.infoInc) % 256 + m.infoInc <;>
          simp [hg]
      have hprev : prevIdx m idx ≤ m.mask := by
        unfold prevIdx
        by_cases h0 : idx = 0 <;> simp [h0, Nat.and_le_right]
      have hprev2 : prevIdx (shiftUpWrite m idx) idx = prevIdx m idx := by
        unfold prevIdx
        rw [hmask]
      have h2 := ih (shiftUpWrite m idx) (prevIdx m idx) ins m' h (by rw [hmask]; exact hprev)
        q (by rw [hmask]; exact hq)
      rw [h2]
      unfold shiftUpWrite
      by_cases hg : 255 < (m.info (prevIdx m idx) + m.infoInc) % 256 + m.infoInc <;>
        simp [hg, upd] <;> intro hcon <;> omega

theorem shiftDownGo_info_high :
    ∀ (fuel : ℕ) (m : PMap K V) (idx : ℕ) (m' : PMap K V),
      shiftDownGo fuel m idx = some m' → idx ≤ m.mask →
      m.info (m.mask + 1) < 2 * m.infoInc →
      ∀ q, m.mask < q → m'.info q = m.info q := by
  intro fuel
  induction fuel with
  | zero => intro m idx m' h _ _; simp [shiftDownGo] at h
  | succ n ih =>
    intro m idx m' h hidx hsent q hq
    rw [shiftDownGo] at h
    by_cases hc : 2 * m.infoInc ≤ m.info (idx + 1)
    · rw [if_pos hc] at h
      have hne : idx ≠ m.mask := by
        intro hcon
        rw [hcon] at hc
        omega
      have h2 := ih _ (idx + 1) m' h (show idx + 1 ≤ m.mask by omega)
        (show upd m.info idx (m.info (idx + 1) - m.infoInc) (m.mask + 1) < 2 * m.infoInc by
          unfold upd
          rw [if_neg (by omega)]
          exact hsent)
        q (show m.mask < q from hq)
      rw [h2]
      show upd m.info idx (m.info (idx + 1) - m.infoInc) q = m.info q
      unfold upd
      rw [if_neg (by omega)]
    · rw [if_neg hc] at h
      simp only [Option.some.injEq] at h
      subst h
      simp only [upd]
      rw [if_neg (by omega)]

theorem insertTail_info_high (m : PMap K V) (i : ℕ) (si : ℤ) (b : ℕ) (kv : K × V)
    (m' : PMap K V) (h : insertTail m i si b kv = some m') (hi : i ≤ m.mask) :
    ∀ q, m.mask < q → m'.info q = m.info q := by
  intro q hq
  unfold insertTail at h
  rcases hfe : findEmptyGo m (m.mask + 2) i si with _ | ⟨idxE, inf2⟩
  · rw [hfe] at h; exact absurd h (by simp)
  · rw [hfe] at h
    dsimp only at h
    have hE : idxE ≤ m.mask := findEmptyGo_le_mask _ m _ _ _ _ hfe hi
    by_cases hx : idxE = i
    · rw [if_pos hx] at h
      simp only [Option.some.injEq] at h
      subst h
      simp only [upd]
      rw [if_neg (by omega)]
    · rw [if_neg hx] at h
      rcases hsu : shiftUpGo (m.mask + 2) m idxE i with _ | m2
      · rw [hsu] at h; exact absurd h (by simp)
      · rw [hsu] at h
        simp only [Option.some.injEq] at h
        subst h
        have hh := shiftUpGo_info_high _ m idxE i m2 hsu hE q hq
        have hm2 := shiftUpGo_frame _ m idxE i m2 hsu
        simp only [upd]
        rw [if_neg (by omega), hh]

/-! ### Claim C2 (amended): the header invariant -/

/-- Header invariant maintained by every public operation: the load bound
never exceeds the slot count, `infoInc` stays in `[1, 32]`, a mapped table
has a power-of-two (at least 8) slot count and an intact sentinel, and an
unmapped instance has zeroed fallback counters. -/
def Inv2 (m : PMap K V) : Prop :=
  m.maxNumElementsAllowed ≤ m.mask + 1 ∧ 1 ≤ m.infoInc ∧ m.infoInc ≤ 32 ∧
  (m.allocated = true → m.info (m.mask + 1) = 1 ∧ ∃ p, 3 ≤ p ∧ m.mask + 1 = 2 ^ p) ∧
  (m.allocated = false → m.mask = 0 ∧ m.maxNumElementsAllowed = 0 ∧ m.numElements = 0) ∧
  m.inUseMutex = false

theorem openFile_mutex (m : PMap K V) : (openFile m).inUseMutex = m.inUseMutex := by
  unfold openFile
  split <;> rfl

theorem setup_mmap_mutex (cfg : HashCfg K) (m : PMap K V) (nE : ℕ) :
    (setup_mmap cfg m nE).inUseMutex = m.inUseMutex := by
  unfold setup_mmap
  split <;> exact openFile_mutex m

theorem reload_mutex (cfg : HashCfg K) (m : PMap K V) :
    (reload cfg m).inUseMutex = m.inUseMutex := by
  unfold reload
  by_cases h : m.allocated = true
  · rw [if_pos h]
  · rw [if_neg h]
    exact setup_mmap_mutex cfg m 0

theorem calcMax_le (cfg : HashCfg K) (n : ℕ) (hlf : cfg.loadFactor ≤ 100) :
    calcMaxNumElementsAllowed cfg n ≤ n := by
  unfold calcMaxNumElementsAllowed
  calc n * cfg.loadFactor / 100 ≤ n * 100 / 100 :=
        Nat.div_le_div_right (Nat.mul_le_mul_left n hlf)
    _ = n := Nat.mul_div_cancel n (by norm_num)

theorem resolveEntries_zero_mask (m : PMap K V) (h : m.mask = 0) :
    resolveEntries m 0 = InitialNumElements := by
  unfold resolveEntries
  cases hH : m.hasFile
  · simp
  · by_cases hs : m.sizeMemo = 0 <;> simp [hs, h]

theorem reload_inv (cfg : HashCfg K) (m : PMap K V) (hlf : cfg.loadFactor ≤ 100)
    (hi : Inv2 m) : Inv2 (reload cfg m) := by
  unfold reload
  by_cases ha : m.allocated = true
  · rw [if_pos ha]
    exact hi
  · rw [if_neg ha]
    have ha' : m.allocated = false := by
      cases hA : m.allocated
      · rfl
      · exact absurd hA ha
    obtain ⟨h0a, h0b, h0c⟩ := hi.2.2.2.2.1 ha'
    have hfr : ¬(m.hasFile = true ∧ m.fileExists = true ∧ m.numElements ≠ 0) := by
      rintro ⟨-, -, hcon⟩
      exact hcon h0c
    obtain ⟨f1, f2, f3, f4, f5, f6, f7, f8, f9⟩ := setup_mmap_fresh cfg m 0 hfr
    have hres := resolveEntries_zero_mask m h0a
    rw [hres] at f1 f3 f6
    refine ⟨?_, ?_, ?_, ?_, ?_, ?_⟩
    · rw [f3, f1]
      have := calcMax_le cfg InitialNumElements hlf
      simp only [InitialNumElements] at this ⊢
      omega
    · rw [f4]; norm_num [InitialInfoInc, InitialInfoNumBits]
    · rw [f4]; norm_num [InitialInfoInc, InitialInfoNumBits]
    · intro _
      constructor
      · rw [f6, f1]
        norm_num [InitialNumElements]
      · refine ⟨10, by norm_num, ?_⟩
        rw [f1]
        norm_num [InitialNumElements]
    · intro hcon
      rw [f8] at hcon
      exact absurd hcon (by simp)
    · rw [setup_mmap_mutex cfg m 0]
      exact hi.2.2.2.2.2

theorem tii_inv (cfg : HashCfg K) (m : PMap K V) (hlf : cfg.loadFactor ≤ 100)
    (hi : Inv2 m) (hall : m.allocated = true) : Inv2 (try_increase_info cfg m).1 := by
  obtain ⟨hsent, ⟨p, hp3, hpow⟩⟩ := hi.2.2.2.1 hall
  have hdvd : 8 ∣ m.mask + 1 := by
    rw [hpow]
    have h8 : (8 : ℕ) = 2 ^ 3 := by norm_num
    rw [h8]
    exact pow_dvd_pow 2 hp3
  have hhigh := tii_info_high cfg m hdvd (m.mask + 1) (by omega)
  unfold try_increase_info at hhigh ⊢
  by_cases h2 : m.infoInc ≤ 2
  · rw [if_pos h2]
    exact hi
  · rw [if_neg h2] at hhigh ⊢
    have hinc32 := hi.2.2.1
    have hincdiv : m.infoInc >>> 1 % 256 = m.infoInc / 2 := by
      rw [Nat.shiftRight_eq_div_pow, pow_one]
      omega
    refine ⟨?_, ?_, ?_, ?_, ?_, ?_⟩
    · show calcMaxNumElementsAllowed cfg (m.mask + 1) ≤ m.mask + 1
      exact calcMax_le cfg _ hlf
    · show 1 ≤ m.infoInc >>> 1 % 256
      rw [hincdiv]
      omega
    · show m.infoInc >>> 1 % 256 ≤ 32
      rw [hincdiv]
      omega
    · intro _
      exact ⟨hhigh.trans hsent, p, hp3, hpow⟩
    · intro hcon
      rw [hall] at hcon
      exact absurd hcon (by simp)
    · exact hi.2.2.2.2.2

theorem shiftUpGo_max_le :
    ∀ (fuel : ℕ) (m : PMap K V) (idx ins : ℕ) (m' : PMap K V),
      shiftUpGo fuel m idx ins = some m' →
      m'.maxNumElementsAllowed ≤ m.maxNumElementsAllowed := by
  intro fuel
  induction fuel with
  | zero => intro m idx ins m' h; simp [shiftUpGo] at h
  | succ n ih =>
    intro m idx ins m' h
    rw [shiftUpGo] at h
    by_cases hc : idx = ins
    · rw [if_pos hc] at h
      simp only [Option.some.injEq] at h
      subst h
      exact le_refl _
    · rw [if_neg hc] at h
      have h2 := ih _ _ _ _ h
      have h3 : (shiftUpWrite m idx).maxNumElementsAllowed ≤ m.maxNumElementsAllowed := by
        unfold shiftUpWrite
        by_cases hg : 255 < (m.info (prevIdx m idx) + m.infoInc) % 256 + m.infoInc <;>
          simp [hg]
      omega

theorem insertTail_max_le (m : PMap K V) (i : ℕ) (si : ℤ) (b : ℕ) (kv : K × V)
    (m' : PMap K V) (h : insertTail m i si b kv = some m') :
    m'.maxNumElementsAllowed ≤ m.maxNumElementsAllowed := by
  unfold insertTail at h
  rcases hfe : findEmptyGo m (m.mask + 2) i si with _ | ⟨idxE, inf2⟩
  · rw [hfe] at h; exact absurd h (by simp)
  · rw [hfe] at h
    dsimp only at h
    by_cases hx : idxE = i
    · rw [if_pos hx] at h
      simp only [Option.some.injEq] at h
      subst h
      exact le_refl _
    · rw [if_neg hx] at h
      rcases hsu : shiftUpGo (m.mask + 2) m idxE i with _ | m2
      · rw [hsu] at h; exact absurd h (by simp)
      · rw [hsu] at h
        simp only [Option.some.injEq] at h
        subst h
        exact shiftUpGo_max_le _ m idxE i m2 hsu

theorem insertTail_inv (m : PMap K V) (i : ℕ) (si : ℤ) (b : ℕ) (kv : K × V)
    (m' : PMap K V) (hi2 : Inv2 m) (hall : m.allocated = true) (hidx : i ≤ m.mask)
    (h : insertTail m i si b kv = some m') : Inv2 m' := by
  have hfr := insertTail_frame m i si b kv m' h
  have hmax := insertTail_max_le m i si b kv m' h
  have hhigh := insertTail_info_high m i si b kv m' h hidx
  refine ⟨?_, ?_, ?_, ?_, ?_, ?_⟩
  · rw [hfr.2.2.2.2.1]
    have := hi2.1
    omega
  · rw [hfr.2.2.2.2.2.1]; exact hi2.2.1
  · rw [hfr.2.2.2.2.2.1]; exact hi2.2.2.1
  · intro _
    obtain ⟨hs, hp⟩ := hi2.2.2.2.1 hall
    rw [hfr.2.2.2.2.1]
    exact ⟨(hhigh _ (by omega)).trans hs, hp⟩
  · intro hcon
    rw [hfr.1, hall] at hcon
    exact absurd hcon (by simp)
  · rw [hfr.2.2.2.2.2.2.2.2.2]
    exact hi2.2.2.2.2.2

theorem inv_zero_max (m : PMap K V) (hi : Inv2 m) :
    Inv2 { m with maxNumElementsAllowed := 0 } := by
  refine ⟨Nat.zero_le _, hi.2.1, hi.2.2.1, ?_, ?_, hi.2.2.2.2.2⟩
  · intro ha
    exact hi.2.2.2.1 ha
  · intro ha
    exact ⟨(hi.2.2.2.2.1 ha).1, rfl, (hi.2.2.2.2.1 ha).2.2⟩

theorem insert_move_inv (cfg : HashCfg K) (m : PMap K V) (kv : K × V) (m' : PMap K V)
    (hlf : cfg.loadFactor ≤ 100) (hi : Inv2 m) (hall : m.allocated = true)
    (h : insert_move cfg m kv = some m') : Inv2 m' := by
  unfold insert_move at h
  have hcore : ∀ (m0 : PMap K V), Inv2 m0 → m0.allocated = true →
      insertMoveCore cfg m0 kv = some m' → Inv2 m' := by
    intro m0 hi0 hall0 h0
    unfold insertMoveCore at h0
    rcases hsk : skipGo m0 (m0.mask + 600) (keyToIdx cfg m0 kv.1).1
        (keyToIdx cfg m0 kv.1).2 with _ | ⟨idx1, info1⟩
    · rw [hsk] at h0; exact absurd h0 (by simp)
    · rw [hsk] at h0
      dsimp only at h0
      have hidx : idx1 ≤ m0.mask :=
        skipGo_le_mask _ m0 _ _ _ _ hsk (keyToIdx_le_mask cfg m0 kv.1)
      by_cases hg : 255 < toU8 info1 + m0.infoInc
      · rw [if_pos hg] at h0
        exact insertTail_inv _ idx1 info1 (toU8 info1) kv m'
          (inv_zero_max m0 hi0) hall0 hidx h0
      · rw [if_neg hg] at h0
        exact insertTail_inv m0 idx1 info1 (toU8 info1) kv m' hi0 hall0 hidx h0
  by_cases hz : m.maxNumElementsAllowed = 0
  · rw [if_pos hz] at h
    exact hcore _ (tii_inv cfg m hlf hi hall)
      (by rw [(tii_frame cfg m).1]; exact hall) h
  · rw [if_neg hz] at h
    exact hcore _ hi hall h

theorem foldlM_insert_move_inv (cfg : HashCfg K) (hlf : cfg.loadFactor ≤ 100) :
    ∀ (l : List ℕ) (oi : ℕ → ℕ) (os : ℕ → K × V) (acc m' : PMap K V),
      Inv2 acc → acc.allocated = true →
      l.foldlM
        (fun acc i => if oi i ≠ 0 then insert_move cfg acc (os i) else some acc) acc
        = some m' →
      Inv2 m' := by
  intro l
  induction l with
  | nil =>
    intro oi os acc m' hi _ h
    rw [List.foldlM_nil] at h
    simp only [pure, Option.some.injEq] at h
    subst h
    exact hi
  | cons a l ih =>
    intro oi os acc m' hi hall h
    rw [List.foldlM_cons] at h
    by_cases ha : oi a ≠ 0
    · rw [if_pos ha] at h
      rcases him : insert_move cfg acc (os a) with _ | acc1
      · rw [him] at h; exact absurd h (by simp [Option.bind])
      · rw [him] at h
        simp only [Option.bind_eq_bind, Option.some_bind] at h
        exact ih oi os acc1 m' (insert_move_inv cfg acc (os a) acc1 hlf hi hall him)
          (by rw [(insert_move_frame cfg acc (os a) acc1 him).1]; exact hall) h
    · rw [if_neg ha] at h
      simp only [Option.bind_eq_bind, Option.some_bind] at h
      exact ih oi os acc m' hi hall h

theorem rehash_base_mutex (mR : PMap K V) :
    ({ (if mR.fdOpen then { mR with fileExists := false, fdOpen := false } else mR) with
        allocated := false, mask := 0, numElements := 0,
        maxNumElementsAllowed := 0 } : PMap K V).inUseMutex = mR.inUseMutex := by
  split <;> rfl

theorem setup_pow_inv (cfg : HashCfg K) (m : PMap K V) (n q : ℕ)
    (hlf : cfg.loadFactor ≤ 100) (hq3 : 3 ≤ q) (hqn : n = 2 ^ q)
    (hz : m.numElements = 0) (hmu : m.inUseMutex = false) :
    Inv2 (setup_mmap cfg m n) := by
  have hnpos : 0 < n := by
    rw [hqn]
    exact pow_pos (by norm_num) q
  have hfr : ¬(m.hasFile = true ∧ m.fileExists = true ∧ m.numElements ≠ 0) := by
    rintro ⟨-, -, hcon⟩
    exact hcon hz
  obtain ⟨f1, f2, f3, f4, f5, f6, f7, f8, f9⟩ := setup_mmap_fresh cfg m n hfr
  have hres : resolveEntries m n = n := resolveEntries_forced m n (by omega)
  rw [hres] at f1 f3 f6
  refine ⟨?_, ?_, ?_, ?_, ?_, ?_⟩
  · rw [f3, f1]
    have := calcMax_le cfg n hlf
    omega
  · rw [f4]; norm_num [InitialInfoInc, InitialInfoNumBits]
  · rw [f4]; norm_num [InitialInfoInc, InitialInfoNumBits]
  · intro _
    constructor
    · rw [f6, f1]
      show (if n - 1 + 1 = n then 1 else 0) = 1
      rw [if_pos (by omega)]
    · refine ⟨q, hq3, ?_⟩
      rw [f1]
      omega
  · intro hcon
    rw [f8] at hcon
    exact absurd hcon (by simp)
  · rw [setup_mmap_mutex]
    exact hmu

theorem rehash_inv (cfg : HashCfg K) (m : PMap K V) (n : ℕ) (m' : PMap K V)
    (hlf : cfg.loadFactor ≤ 100) (hi : Inv2 m) (hq : ∃ q, 3 ≤ q ∧ n = 2 ^ q)
    (h : rehash cfg m n = some m') : Inv2 m' := by
  obtain ⟨q, hq3, hqn⟩ := hq
  unfold rehash at h
  by_cases hc : n ≤ (reload cfg m).mask + 1
  · rw [if_pos hc] at h
    simp only [Option.some.injEq] at h
    subst h
    exact reload_inv cfg m hlf hi
  · rw [if_neg hc] at h
    unfold rehashTail at h
    refine foldlM_insert_move_inv cfg hlf _ _ _ _ _ ?_ (setup_mmap_allocated cfg _ n) h
    refine setup_pow_inv cfg _ n q hlf hq3 hqn rfl ?_
    exact (rehash_base_mutex (reload cfg m)).trans
      (by rw [reload_mutex]; exact hi.2.2.2.2.2)

theorem increase_size_inv (cfg : HashCfg K) (m : PMap K V) (m' : PMap K V)
    (hlf : cfg.loadFactor ≤ 100) (hi : Inv2 m)
    (h : increase_size cfg m = some m') : Inv2 m' := by
  unfold increase_size at h
  by_cases h0 : m.mask = 0
  · rw [if_pos h0] at h
    simp only [Option.some.injEq] at h
    subst h
    exact reload_inv cfg m hlf hi
  · rw [if_neg h0] at h
    have hall : m.allocated = true := by
      cases hA : m.allocated
      · exact absurd (hi.2.2.2.2.1 hA).1 h0
      · rfl
    obtain ⟨hsent, p, hp3, hpow⟩ := hi.2.2.2.1 hall
    have hq : ∃ q, 3 ≤ q ∧ 2 * (m.mask + 1) = 2 ^ q :=
      ⟨p + 1, by omega, by rw [hpow, pow_succ]; ring⟩
    by_cases h1 : m.numElements < calcMaxNumElementsAllowed cfg (m.mask + 1)
    · rw [if_pos h1] at h
      by_cases h2 : (try_increase_info cfg m).2 = true
      · rw [if_pos h2] at h
        simp only [Option.some.injEq] at h
        subst h
        exact tii_inv cfg m hlf hi hall
      · rw [if_neg h2] at h
        rw [tii_false_id cfg m (by simpa using h2)] at h
        exact rehash_inv cfg m _ m' hlf hi hq h
    · rw [if_neg h1] at h
      exact rehash_inv cfg m _ m' hlf hi hq h

theorem doCreateAttempt_inv (cfg : HashCfg K) (m : PMap K V) (k : K) (v : V)
    (r : (PMap K V × ℕ) ⊕ PMap K V) (hlf : cfg.loadFactor ≤ 100) (hi : Inv2 m)
    (hall : m.allocated = true) (h : doCreateAttempt cfg m k v = some r) :
    (∀ mz i, r = Sum.inl (mz, i) → Inv2 mz) ∧ (∀ mz, r = Sum.inr mz → Inv2 mz) := by
  unfold doCreateAttempt at h
  rcases h1 : nextWhileLessGo m (m.mask + 600) (keyToIdx cfg m k).1 (keyToIdx cfg m k).2
      with _ | ⟨idx1, info1⟩
  · rw [h1] at h; exact absurd h (by simp)
  · rw [h1] at h
    dsimp only at h
    rcases h2 : matchLoopGo m k (m.mask + 600) idx1 info1 with _ | ⟨idx2, info2, found⟩
    · rw [h2] at h; exact absurd h (by simp)
    · rw [h2] at h
      dsimp only at h
      by_cases hf : found = true
      · rw [hf] at h
        simp only [if_pos, Option.some.injEq] at h
        subst h
        refine ⟨?_, ?_⟩
        · intro mz i hr
          simp only [Sum.inl.injEq, Prod.mk.injEq] at hr
          obtain ⟨h5, -⟩ := hr
          subst h5
          exact hi
        · intro mz hr
          simp at hr
      · rw [Bool.not_eq_true] at hf
        rw [hf] at h
        simp only [Bool.false_eq_true, if_false] at h
        by_cases hsz : m.maxNumElementsAllowed ≤ m.numElements
        · rw [if_pos hsz] at h
          rcases h3 : increase_size cfg m with _ | mz
          · rw [h3] at h; exact absurd h (by simp)
          · rw [h3] at h
            simp only [Option.map_some', Option.some.injEq] at h
            subst h
            refine ⟨?_, ?_⟩
            · intro mz' i hr
              simp at hr
            · intro mz' hr
              simp only [Sum.inr.injEq] at hr
              subst hr
              exact increase_size_inv cfg m mz hlf hi h3
        · rw [if_neg hsz] at h
          rcases h4 : insertTail
              (if 255 < info2 + (m.infoInc : ℤ)
                then { m with maxNumElementsAllowed := 0 } else m)
              idx2 info2 (toU8 info2) (k, v) with _ | m2
          · rw [h4] at h; exact absurd h (by simp)
          · rw [h4] at h
            simp only [Option.map_some', Option.some.injEq] at h
            subst h
            have hidx1 : idx1 ≤ m.mask :=
              nextWhileLessGo_le_mask _ m _ _ _ _ h1 (keyToIdx_le_mask cfg m k)
            have hidx2 : idx2 ≤ m.mask := matchLoopGo_le_mask _ m k _ _ _ _ _ h2 hidx1
            have hm2 : Inv2 m2 := by
              by_cases hg : 255 < info2 + (m.infoInc : ℤ)
              · rw [if_pos hg] at h4
                exact insertTail_inv _ idx2 info2 (toU8 info2) (k, v) m2
                  (inv_zero_max m hi) hall hidx2 h4
              · rw [if_neg hg] at h4
                exact insertTail_inv m idx2 info2 (toU8 info2) (k, v) m2 hi hall hidx2 h4
            refine ⟨?_, ?_⟩
            · intro mz i hr
              simp only [Sum.inl.injEq, Prod.mk.injEq] at hr
              obtain ⟨h5, -⟩ := hr
              subst h5
              exact hm2
            · intro mz hr
              simp at hr

theorem doCreateGo_inv (cfg : HashCfg K) (hlf : cfg.loadFactor ≤ 100) :
    ∀ (fuel : ℕ) (m : PMap K V) (k : K) (v : V) (m' : PMap K V) (i : ℕ),
      Inv2 m → doCreateGo cfg fuel m k v = some (m', i) → Inv2 m' := by
  intro fuel
  induction fuel with
  | zero => intro m k v m' i _ h; simp [doCreateGo] at h
  | succ fz ih =>
    intro m k v m' i hi h
    rw [doCreateGo] at h
    rcases hA : doCreateAttempt cfg (reload cfg m) k v with _ | r
    · rw [hA] at h; exact absurd h (by simp)
    · rw [hA] at h
      have hIA := doCreateAttempt_inv cfg (reload cfg m) k v r hlf
        (reload_inv cfg m hlf hi) (reload_allocated cfg m) hA
      rcases r with ⟨mz, j⟩ | mz
      · simp only [Option.some.injEq] at h
        rw [Prod.mk.injEq] at h
        obtain ⟨h5, -⟩ := h
        subst h5
        exact hIA.1 _ j rfl
      · exact ih mz k v m' i (hIA.2 mz rfl) h

theorem eraseGo_inv (cfg : HashCfg K) :
    ∀ (fuel : ℕ) (m : PMap K V) (k : K) (idx : ℕ) (info : ℤ) (m' : PMap K V) (r : ℕ),
      Inv2 m → m.allocated = true → idx ≤ m.mask →
      eraseGo cfg fuel m k idx info = some (m', r) → Inv2 m' := by
  intro fuel
  induction fuel with
  | zero => intro m k idx info m' r _ _ _ h; simp [eraseGo] at h
  | succ n ih =>
    intro m k idx info m' r hi hall hidx h
    rw [eraseGo] at h
    by_cases hc : info = (m.info idx : ℤ) ∧ (m.slots idx).1 = k
    · rw [if_pos hc] at h
      rcases hsd : shiftDownGo (m.mask + 2) m idx with _ | m1
      · rw [hsd] at h; exact absurd h (by simp)
      · rw [hsd] at h
        simp only [Option.some.injEq, Prod.mk.injEq] at h
        obtain ⟨h1, -⟩ := h
        subst h1
        have hfr := shiftDownGo_frame (m.mask + 2) m idx m1 hsd
        obtain ⟨hsent, p, hp3, hpow⟩ := hi.2.2.2.1 hall
        have hsl : m.info (m.mask + 1) < 2 * m.infoInc := by
          have := hi.2.1
          omega
        have hhigh := shiftDownGo_info_high (m.mask + 2) m idx m1 hsd hidx hsl
        refine ⟨?_, ?_, ?_, ?_, ?_, ?_⟩
        · show m1.maxNumElementsAllowed ≤ m1.mask + 1
          rw [hfr.2.2.2.2.2.2.2.2.1, hfr.2.2.2.2.1]
          exact hi.1
        · show 1 ≤ m1.infoInc
          rw [hfr.2.2.2.2.2.1]
          exact hi.2.1
        · show m1.infoInc ≤ 32
          rw [hfr.2.2.2.2.2.1]
          exact hi.2.2.1
        · intro _
          constructor
          · show m1.info (m1.mask + 1) = 1
            rw [hfr.2.2.2.2.1, hhigh _ (by omega)]
            exact hsent
          · refine ⟨p, hp3, ?_⟩
            rw [hfr.2.2.2.2.1]
            exact hpow
        · intro hcon
          have hcon2 : m1.allocated = false := hcon
          rw [hfr.1, hall] at hcon2
          exact absurd hcon2 (by simp)
        · show m1.inUseMutex = false
          rw [hfr.2.2.2.2.2.2.2.2.2.2]
          exact hi.2.2.2.2.2
    · rw [if_neg hc] at h
      by_cases hc2 : info + (m.infoInc : ℤ) ≤ (m.info (nextIdx m idx) : ℤ)
      · rw [if_pos hc2] at h
        exact ih m k _ _ m' r hi hall (nextIdx_le_mask m idx) h
      · rw [if_neg hc2] at h
        simp only [Option.some.injEq, Prod.mk.injEq] at h
        obtain ⟨h1, -⟩ := h
        subst h1
        exact hi

theorem eraseOp_inv (cfg : HashCfg K) (m : PMap K V) (k : K) (m' : PMap K V) (r : ℕ)
    (hlf : cfg.loadFactor ≤ 100) (hi : Inv2 m) (h : eraseOp cfg m k = some (m', r)) :
    Inv2 m' := by
  unfold eraseOp at h
  exact eraseGo_inv cfg _ (reload cfg m) k _ _ m' r (reload_inv cfg m hlf hi)
    (reload_allocated cfg m) (keyToIdx_le_mask cfg (reload cfg m) k) h

theorem reserveGo_pow (cfg : HashCfg K) :
    ∀ (fuel n count q : ℕ), n = 2 ^ q →
      ∃ r, q ≤ r ∧ reserveGo cfg fuel n count = 2 ^ r := by
  intro fuel
  induction fuel with
  | zero => intro n count q hq; exact ⟨q, le_refl q, hq⟩
  | succ fz ih =>
    intro n count q hq
    rw [reserveGo]
    by_cases hc : calcMaxNumElementsAllowed cfg n < count ∧ n ≠ 0
    · rw [if_pos hc]
      obtain ⟨r, hr1, hr2⟩ := ih (2 * n) count (q + 1) (by rw [hq, pow_succ]; ring)
      exact ⟨r, by omega, hr2⟩
    · rw [if_neg hc]
      exact ⟨q, le_refl q, hq⟩

theorem reserveOp_inv (cfg : HashCfg K) (m : PMap K V) (count : ℕ) (m' : PMap K V)
    (hlf : cfg.loadFactor ≤ 100) (hi : Inv2 m) (h : reserveOp cfg m count = some m') :
    Inv2 m' := by
  unfold reserveOp at h
  have hstart : ∃ q0, 3 ≤ q0 ∧ max InitialNumElements (m.mask + 1) = 2 ^ q0 := by
    cases hA : m.allocated
    · have h0 := (hi.2.2.2.2.1 hA).1
      refine ⟨10, by norm_num, ?_⟩
      rw [h0]
      norm_num [InitialNumElements]
    · obtain ⟨-, p, hp3, hpow⟩ := hi.2.2.2.1 hA
      by_cases hple : m.mask + 1 ≤ InitialNumElements
      · refine ⟨10, by norm_num, ?_⟩
        rw [Nat.max_eq_left hple]
        norm_num [InitialNumElements]
      · refine ⟨p, hp3, ?_⟩
        rw [Nat.max_eq_right (le_of_not_le hple), hpow]
  obtain ⟨q0, hq03, hq0⟩ := hstart
  obtain ⟨r, hqr, hrr⟩ := reserveGo_pow cfg 64 _ count q0 hq0
  exact rehash_inv cfg m _ m' hlf hi ⟨r, by omega, hrr⟩ h

theorem gcSnapshot_fields (m : PMap K V) :
    (gcSnapshot m).infoInc = m.infoInc ∧ (gcSnapshot m).inUseMutex = m.inUseMutex := by
  unfold gcSnapshot
  by_cases hf : m.fdOpen = true
  · rw [if_pos hf]
    by_cases hz : m.numElements = 0
    · rw [if_pos hz]; exact ⟨rfl, rfl⟩
    · rw [if_neg hz]; exact ⟨rfl, rfl⟩
  · rw [if_neg hf]; exact ⟨rfl, rfl⟩

theorem gc_done_unlocked (m : PMap K V) (hmu : m.inUseMutex = false) :
    (gc_done m true).1 = { gcSnapshot m with allocated := false, fdOpen := false } := by
  unfold gc_done
  rw [if_neg (by simp), hmu, if_neg (by simp)]

theorem clearUnlink_fields (m : PMap K V) :
    (clearUnlink m).infoInc = m.infoInc ∧ (clearUnlink m).allocated = m.allocated ∧
    (clearUnlink m).inUseMutex = m.inUseMutex := by
  unfold clearUnlink
  by_cases hf : m.hasFile = true
  · rw [if_pos hf]; exact ⟨rfl, rfl, rfl⟩
  · rw [if_neg hf]; exact ⟨rfl, rfl, rfl⟩

theorem clear_record_inv (m x : PMap K V) (hi : Inv2 m) (hxa : x.allocated = false)
    (hxi : x.infoInc = m.infoInc) (hxm : x.inUseMutex = false) :
    Inv2 ({ clearUnlink x with
            numElements := 0, mask := 0, maxNumElementsAllowed := 0 } : PMap K V) := by
  obtain ⟨hf1, hf2, hf3⟩ := clearUnlink_fields x
  refine ⟨Nat.zero_le _, ?_, ?_, ?_, ?_, ?_⟩
  · show 1 ≤ (clearUnlink x).infoInc
    rw [hf1, hxi]
    exact hi.2.1
  · show (clearUnlink x).infoInc ≤ 32
    rw [hf1, hxi]
    exact hi.2.2.1
  · intro hcon
    have hcon2 : (clearUnlink x).allocated = true := hcon
    rw [hf2, hxa] at hcon2
    exact absurd hcon2 (by simp)
  · intro _
    exact ⟨rfl, rfl, rfl⟩
  · show (clearUnlink x).inUseMutex = false
    rw [hf3, hxm]

theorem clearOp_inv (m : PMap K V) (hi : Inv2 m) : Inv2 (clearOp m) := by
  have hmu : m.inUseMutex = false := hi.2.2.2.2.2
  unfold clearOp
  cases hA : m.allocated
  · rw [if_neg (by simp)]
    exact clear_record_inv m m hi hA rfl hmu
  · rw [if_pos rfl, gc_done_unlocked m hmu]
    refine clear_record_inv m _ hi ?_ ?_ ?_
    · rfl
    · exact (gcSnapshot_fields m).1
    · exact (gcSnapshot_fields m).2.trans hmu

theorem mkMap_inv (hasFile : Bool) (slots0 : ℕ → K × V) :
    Inv2 (mkMap hasFile slots0 : PMap K V) := by
  refine ⟨Nat.zero_le _, ?_, ?_, ?_, ?_, rfl⟩
  · show (1 : ℕ) ≤ InitialInfoInc
    norm_num [InitialInfoInc, InitialInfoNumBits]
  · show (InitialInfoInc : ℕ) ≤ 32
    norm_num [InitialInfoInc, InitialInfoNumBits]
  · intro hcon
    have h0 : (mkMap hasFile slots0 : PMap K V).allocated = false := rfl
    rw [h0] at hcon
    exact absurd hcon (by simp)
  · intro _
    exact ⟨rfl, rfl, rfl⟩

theorem applyOp_inv (cfg : HashCfg K) (op : Op K V) (m m' : PMap K V)
    (hlf : cfg.loadFactor ≤ 100) (hi : Inv2 m) (h : applyOp cfg op m = some m') :
    Inv2 m' := by
  cases op with
  | setK k v =>
    simp only [applyOp] at h
    rcases hs : setOp cfg m k v with _ | ⟨mz, i⟩
    · rw [hs] at h; exact absurd h (by simp)
    · rw [hs] at h
      simp only [Option.map_some', Option.some.injEq] at h
      subst h
      exact doCreateGo_inv cfg hlf 40 m k v mz i hi hs
  | eraseK k =>
    simp only [applyOp] at h
    rcases hs : eraseOp cfg m k with _ | ⟨mz, i⟩
    · rw [hs] at h; exact absurd h (by simp)
    · rw [hs] at h
      simp only [Option.map_some', Option.some.injEq] at h
      subst h
      exact eraseOp_inv cfg m k mz i hlf hi hs
  | reserveN n =>
    simp only [applyOp] at h
    exact reserveOp_inv cfg m n m' hlf hi h
  | clearAll =>
    simp only [applyOp, Option.some.injEq] at h
    subst h
    exact clearOp_inv m hi

theorem applyOps_inv (cfg : HashCfg K) (hlf : cfg.loadFactor ≤ 100) :
    ∀ (ops : List (Op K V)) (m m' : PMap K V), Inv2 m →
      applyOps cfg ops m = some m' → Inv2 m' := by
  intro ops
  induction ops with
  | nil =>
    intro m m' hi h
    rw [applyOps] at h
    simp only [Option.some.injEq] at h
    subst h
    exact hi
  | cons op ops ih =>
    intro m m' hi h
    rw [applyOps] at h
    rcases hA : applyOp cfg op m with _ | m1
    · rw [hA] at h; exact absurd h (by simp)
    · rw [hA] at h
      exact ih m1 m' (applyOp_inv cfg op m m1 hlf hi hA) h

/-- Claim C2 (amended): starting from a fresh instance, after any sequence
of public mutating operations the load bound fits within the table
(`mMaxNumElementsAllowed <= mMask + 1`) and, while the region is mapped,
the sentinel info byte at index `mMask + 1` still equals 1.  (The further
claim `mNumElements <= mMaxNumElementsAllowed` of the spec is false; see
`C2_counterexample`.) -/
theorem C2_header_invariants (cfg : HashCfg K) (hasFile : Bool) (slots0 : ℕ → K × V)
    (ops : List (Op K V)) (m : PMap K V) (hlf : cfg.loadFactor ≤ 100)
    (h : applyOps cfg ops (mkMap hasFile slots0) = some m) :
    m.maxNumElementsAllowed ≤ m.mask + 1 ∧
    (m.allocated = true → m.info (m.mask + 1) = 1) := by
  have hi := applyOps_inv cfg hlf ops (mkMap hasFile slots0) m
    (mkMap_inv hasFile slots0) h
  exact ⟨hi.1, fun ha => (hi.2.2.2.1 ha).1⟩

theorem C2_header_invariants_witness :
    cfgU64.loadFactor ≤ 100 ∧
    (pm0N.maxNumElementsAllowed ≤ pm0N.mask + 1 ∧
      (pm0N.allocated = true → pm0N.info (pm0N.mask + 1) = 1)) :=
  ⟨by decide, C2_header_invariants cfgU64 false (fun _ => (0, 0)) [] pm0N (by decide) rfl⟩

/-! ### Probe-path arithmetic: the cyclic scan positions `(idx0 + t) % (mask+1)` -/

theorem probe_inj (N i0 u u' : ℕ) (hu : u < u') (hlt : u' - u < N) :
    (i0 + u) % N ≠ (i0 + u') % N := by
  intro hcon
  have h2 : N ∣ (i0 + u') - (i0 + u) :=
    (Nat.modEq_iff_dvd' (by omega)).1 hcon
  have h3 : (i0 + u') - (i0 + u) = u' - u := by omega
  rw [h3] at h2
  have := Nat.le_of_dvd (by omega) h2
  omega

theorem and_mask_mod (m : PMap K V) (p : ℕ) (hp : m.mask + 1 = 2 ^ p) (x : ℕ) :
    x &&& m.mask = x % (m.mask + 1) := by
  have h : m.mask = 2 ^ p - 1 := by omega
  calc x &&& m.mask = x &&& (2 ^ p - 1) := by rw [← h]
    _ = x % 2 ^ p := Nat.and_pow_two_sub_one_eq_mod x p
    _ = x % (m.mask + 1) := by rw [hp]

theorem nextIdx_mod (m : PMap K V) (p : ℕ) (hp : m.mask + 1 = 2 ^ p) (idx : ℕ) :
    nextIdx m idx = (idx + 1) % (m.mask + 1) :=
  and_mask_mod m p hp (idx + 1)

theorem probe_succ (N i0 s : ℕ) : ((i0 + s) % N + 1) % N = (i0 + (s + 1)) % N := by
  rw [Nat.mod_add_mod]
  congr 1

theorem probe_lt (N i0 s : ℕ) (hN : 0 < N) : (i0 + s) % N < N := Nat.mod_lt _ hN

theorem two_pow_64_mod (p : ℕ) (hp64 : p ≤ 64) : (2 ^ 64 - 1) % 2 ^ p = 2 ^ p - 1 := by
  have hq : (2 : ℕ) ^ 64 = 2 ^ (64 - p) * 2 ^ p := by
    rw [← pow_add]
    congr 1
    omega
  have h1 : 0 < (2 : ℕ) ^ p := pow_pos (by norm_num) p
  have h2 : 0 < (2 : ℕ) ^ (64 - p) := pow_pos (by norm_num) (64 - p)
  have h3 : (2 ^ (64 - p) - 1) * 2 ^ p = 2 ^ (64 - p) * 2 ^ p - 2 ^ p :=
    Nat.sub_one_mul _ _
  have h4 : (2 : ℕ) ^ 64 - 1 = (2 ^ p - 1) + (2 ^ (64 - p) - 1) * 2 ^ p := by
    rw [h3, ← hq]
    have h5 : (2 : ℕ) ^ p ≤ 2 ^ 64 := by rw [hq]; nlinarith
    omega
  rw [h4, Nat.add_mul_mod_self_right]
  exact Nat.mod_eq_of_lt (by omega)

theorem prevIdx_probe (m : PMap K V) (p : ℕ) (hp : m.mask + 1 = 2 ^ p)
    (hp1 : 1 ≤ p) (hp64 : p ≤ 64) (a : ℕ) :
    prevIdx m ((a + 1) % (m.mask + 1)) = a % (m.mask + 1) := by
  have hN : 2 ≤ m.mask + 1 := by
    rw [hp]
    calc (2 : ℕ) = 2 ^ 1 := by norm_num
      _ ≤ 2 ^ p := pow_le_pow_right₀ (by norm_num) hp1
  have hb : a % (m.mask + 1) < m.mask + 1 := Nat.mod_lt _ (by omega)
  have hx : (a + 1) % (m.mask + 1) = (a % (m.mask + 1) + 1) % (m.mask + 1) := by
    rw [Nat.mod_add_mod]
  unfold prevIdx
  by_cases h0 : (a + 1) % (m.mask + 1) = 0
  · rw [if_pos h0, and_mask_mod m p hp]
    have h2 : (2 ^ 64 - 1) % (m.mask + 1) = m.mask := by
      rw [hp, two_pow_64_mod p hp64]
      omega
    rw [h2]
    rw [hx] at h0
    by_cases hbe : a % (m.mask + 1) + 1 = m.mask + 1
    · omega
    · rw [Nat.mod_eq_of_lt (by omega)] at h0
      omega
  · rw [if_neg h0, and_mask_mod m p hp]
    rw [hx] at h0
    by_cases hbe : a % (m.mask + 1) + 1 = m.mask + 1
    · rw [hbe] at h0
      simp at h0
    · have h1 : (a % (m.mask + 1) + 1) % (m.mask + 1) = a % (m.mask + 1) + 1 :=
        Nat.mod_eq_of_lt (by omega)
      rw [hx, h1]
      have h2 : a % (m.mask + 1) + 1 - 1 = a % (m.mask + 1) := by omega
      rw [h2, Nat.mod_eq_of_lt hb]

theorem probe_shift (N idx t : ℕ) : ((idx + 1) % N + t) % N = (idx + (t + 1)) % N := by
  rw [Nat.mod_add_mod]
  congr 1
  omega

theorem nextWhileLessGo_path (m : PMap K V) (p : ℕ) (hp : m.mask + 1 = 2 ^ p) :
    ∀ (fuel idx : ℕ) (info : ℤ) (idx1 : ℕ) (info1 : ℤ),
      nextWhileLessGo m fuel idx info = some (idx1, info1) → idx < m.mask + 1 →
      ∃ t, t < fuel ∧ idx1 = (idx + t) % (m.mask + 1) ∧
        info1 = info + (t * m.infoInc : ℤ) ∧
        (∀ s, s < t → info + (s * m.infoInc : ℤ)
          < (m.info ((idx + s) % (m.mask + 1)) : ℤ)) ∧
        ¬(info1 < (m.info idx1 : ℤ)) := by
  intro fuel
  induction fuel with
  | zero => intro idx info idx1 info1 h _; simp [nextWhileLessGo] at h
  | succ n ih =>
    intro idx info idx1 info1 h hidx
    rw [nextWhileLessGo] at h
    by_cases hc : info < (m.info idx : ℤ)
    · rw [if_pos hc] at h
      have hnext : nextIdx m idx = (idx + 1) % (m.mask + 1) := nextIdx_mod m p hp idx
      rw [hnext] at h
      obtain ⟨t, ht, h1, h2, h3, h4⟩ := ih _ _ _ _ h (Nat.mod_lt _ (by omega))
      refine ⟨t + 1, by omega, ?_, ?_, ?_, h4⟩
      · rw [h1, probe_shift]
      · rw [h2]
        push_cast
        ring
      · intro s hs
        cases s with
        | zero =>
          have h0 : (idx + 0) % (m.mask + 1) = idx := by
            rw [Nat.add_zero, Nat.mod_eq_of_lt hidx]
          rw [h0]
          simpa using hc
        | succ s2 =>
          have h5 := h3 s2 (by omega)
          rw [probe_shift] at h5
          have h6 : info + ((s2 + 1 : ℕ) : ℤ) * (m.infoInc : ℤ)
              = info + (m.infoInc : ℤ) + (s2 * m.infoInc : ℤ) := by
            push_cast
            ring
          rw [h6]
          exact h5
    · rw [if_neg hc] at h
      simp only [Option.some.injEq, Prod.mk.injEq] at h
      obtain ⟨ha, hb⟩ := h
      subst ha
      subst hb
      refine ⟨0, by omega, ?_, by simp, fun s hs => absurd hs (by omega), hc⟩
      rw [Nat.add_zero, Nat.mod_eq_of_lt hidx]

theorem matchLoopGo_path (m : PMap K V) (k : K) (p : ℕ) (hp : m.mask + 1 = 2 ^ p) :
    ∀ (fuel idx : ℕ) (info : ℤ) (idx2 : ℕ) (info2 : ℤ) (found : Bool),
      matchLoopGo m k fuel idx info = some (idx2, info2, found) → idx < m.mask + 1 →
      ∃ t, t < fuel ∧ idx2 = (idx + t) % (m.mask + 1) ∧
        info2 = info + (t * m.infoInc : ℤ) ∧
        (∀ s, s < t → info + (s * m.infoInc : ℤ)
            = (m.info ((idx + s) % (m.mask + 1)) : ℤ) ∧
          (m.slots ((idx + s) % (m.mask + 1))).1 ≠ k) ∧
        (found = true → info2 = (m.info idx2 : ℤ) ∧ (m.slots idx2).1 = k) ∧
        (found = false → info2 ≠ (m.info idx2 : ℤ)) := by
  intro fuel
  induction fuel with
  | zero => intro idx info idx2 info2 found h _; simp [matchLoopGo] at h
  | succ n ih =>
    intro idx info idx2 info2 found h hidx
    rw [matchLoopGo] at h
    have h0 : (idx + 0) % (m.mask + 1) = idx := by
      rw [Nat.add_zero, Nat.mod_eq_of_lt hidx]
    by_cases hc : info = (m.info idx : ℤ)
    · rw [if_pos hc] at h
      by_cases hk : (m.slots idx).1 = k
      · rw [if_pos hk] at h
        simp only [Option.some.injEq, Prod.mk.injEq] at h
        obtain ⟨ha, hb, hf⟩ := h
        subst ha
        subst hb
        subst hf
        refine ⟨0, by omega, ?_, by simp, fun s hs => absurd hs (by omega),
          fun _ => ⟨by simpa using hc, hk⟩, by simp⟩
        rw [h0]
      · rw [if_neg hk] at h
        have hnext : nextIdx m idx = (idx + 1) % (m.mask + 1) := nextIdx_mod m p hp idx
        rw [hnext] at h
        obtain ⟨t, ht, h1, h2, h3, h4, h5⟩ := ih _ _ _ _ _ h (Nat.mod_lt _ (by omega))
        refine ⟨t + 1, by omega, ?_, ?_, ?_, h4, h5⟩
        · rw [h1, probe_shift]
        · rw [h2]
          push_cast
          ring
        · intro s hs
          cases s with
          | zero =>
            rw [h0]
            exact ⟨by simpa using hc, hk⟩
          | succ s2 =>
            have h6 := h3 s2 (by omega)
            rw [probe_shift] at h6
            have h7 : info + ((s2 + 1 : ℕ) : ℤ) * (m.infoInc : ℤ)
                = info + (m.infoInc : ℤ) + (s2 * m.infoInc : ℤ) := by
              push_cast
              ring
            rw [h7]
            exact h6
    · rw [if_neg hc] at h
      simp only [Option.some.injEq, Prod.mk.injEq] at h
      obtain ⟨ha, hb, hf⟩ := h
      subst ha
      subst hb
      subst hf
      refine ⟨0, by omega, ?_, by simp, fun s hs => absurd hs (by omega),
        by simp, fun _ => by simpa using hc⟩
      rw [h0]

theorem findEmptyGo_path (m : PMap K V) (p : ℕ) (hp : m.mask + 1 = 2 ^ p) :
    ∀ (fuel idx : ℕ) (info : ℤ) (idxE : ℕ) (infoE : ℤ),
      findEmptyGo m fuel idx info = some (idxE, infoE) → idx < m.mask + 1 →
      ∃ d, d < fuel ∧ idxE = (idx + d) % (m.mask + 1) ∧
        infoE = info + (d * m.infoInc : ℤ) ∧
        (∀ s, s < d → m.info ((idx + s) % (m.mask + 1)) ≠ 0) ∧
        m.info idxE = 0 := by
  intro fuel
  induction fuel with
  | zero => intro idx info idxE infoE h _; simp [findEmptyGo] at h
  | succ n ih =>
    intro idx info idxE infoE h hidx
    rw [findEmptyGo] at h
    have h0 : (idx + 0) % (m.mask + 1) = idx := by
      rw [Nat.add_zero, Nat.mod_eq_of_lt hidx]
    by_cases hc : m.info idx ≠ 0
    · rw [if_pos hc] at h
      have hnext : nextIdx m idx = (idx + 1) % (m.mask + 1) := nextIdx_mod m p hp idx
      rw [hnext] at h
      obtain ⟨d, hd, h1, h2, h3, h4⟩ := ih _ _ _ _ h (Nat.mod_lt _ (by omega))
      refine ⟨d + 1, by omega, ?_, ?_, ?_, h4⟩
      · rw [h1, probe_shift]
      · rw [h2]
        push_cast
        ring
      · intro s hs
        cases s with
        | zero =>
          rw [h0]
          exact hc
        | succ s2 =>
          have h6 := h3 s2 (by omega)
          rw [probe_shift] at h6
          exact h6
    · rw [if_neg hc] at h
      simp only [Option.some.injEq, Prod.mk.injEq] at h
      obtain ⟨ha, hb⟩ := h
      subst ha
      subst hb
      refine ⟨0, by omega, ?_, by simp, fun s hs => absurd hs (by omega), ?_⟩
      · rw [h0]
      · simpa using hc

theorem shiftUpWrite_fields (m : PMap K V) (idx : ℕ) :
    (shiftUpWrite m idx).mask = m.mask ∧ (shiftUpWrite m idx).infoInc = m.infoInc ∧
    (shiftUpWrite m idx).info
      = upd m.info idx ((m.info (prevIdx m idx) + m.infoInc) % 256) ∧
    (shiftUpWrite m idx).slots = upd m.slots idx (m.slots (prevIdx m idx)) := by
  unfold shiftUpWrite
  by_cases hg : 255 < (m.info (prevIdx m idx) + m.infoInc) % 256 + m.infoInc <;>
    simp [hg]

theorem shiftUpGo_path (p : ℕ) :
    ∀ (d : ℕ) (m : PMap K V) (fuel ins : ℕ) (m3 : PMap K V),
      m.mask + 1 = 2 ^ p → 1 ≤ p → p ≤ 64 →
      shiftUpGo fuel m ((ins + d) % (m.mask + 1)) ins = some m3 →
      ins < m.mask + 1 → d < m.mask + 1 →
      (∀ u, 1 ≤ u → u ≤ d →
        m3.info ((ins + u) % (m.mask + 1))
          = (m.info ((ins + (u - 1)) % (m.mask + 1)) + m.infoInc) % 256 ∧
        m3.slots ((ins + u) % (m.mask + 1))
          = m.slots ((ins + (u - 1)) % (m.mask + 1))) ∧
      (∀ q, (∀ u, 1 ≤ u → u ≤ d → q ≠ (ins + u) % (m.mask + 1)) →
        m3.info q = m.info q ∧ m3.slots q = m.slots q) := by
  intro d
  induction d with
  | zero =>
    intro m fuel ins m3 hp hp1 hp64 h hins hd
    cases fuel with
    | zero => simp [shiftUpGo] at h
    | succ f =>
      rw [shiftUpGo] at h
      rw [if_pos (by rw [Nat.add_zero, Nat.mod_eq_of_lt hins])] at h
      simp only [Option.some.injEq] at h
      subst h
      exact ⟨fun u hu1 hu2 => absurd (hu1.trans hu2) (by omega),
        fun q _ => ⟨rfl, rfl⟩⟩
  | succ d2 ih =>
    intro m fuel ins m3 hp hp1 hp64 h hins hd
    cases fuel with
    | zero => simp [shiftUpGo] at h
    | succ f =>
      rw [shiftUpGo] at h
      have hneq : (ins + (d2 + 1)) % (m.mask + 1) ≠ ins := by
        intro hcon
        have := probe_inj (m.mask + 1) ins 0 (d2 + 1) (by omega) (by omega)
        rw [Nat.add_zero, Nat.mod_eq_of_lt hins] at this
        exact this hcon.symm
      rw [if_neg hneq] at h
      obtain ⟨hw1, hw2, hw3, hw4⟩ :=
        shiftUpWrite_fields m ((ins + (d2 + 1)) % (m.mask + 1))
      have hprev : prevIdx m ((ins + (d2 + 1)) % (m.mask + 1))
          = (ins + d2) % (m.mask + 1) := by
        have ha : ins + (d2 + 1) = (ins + d2) + 1 := by omega
        rw [ha]
        exact prevIdx_probe m p hp hp1 hp64 (ins + d2)
      rw [hprev] at h hw3 hw4
      have hp' : (shiftUpWrite m ((ins + (d2 + 1)) % (m.mask + 1))).mask + 1 = 2 ^ p := by
        rw [hw1]
        exact hp
      have hmask1 : (shiftUpWrite m ((ins + (d2 + 1)) % (m.mask + 1))).mask = m.mask := hw1
      obtain ⟨ih1, ih2⟩ := ih _ f ins m3 hp' hp1 hp64 (by rw [hmask1]; exact h)
        (by rw [hmask1]; exact hins) (by rw [hmask1]; omega)
      rw [hmask1] at ih1 ih2
      constructor
      · intro u hu1 hu2
        by_cases hud : u ≤ d2
        · obtain ⟨ja, jb⟩ := ih1 u hu1 hud
          rw [hw2, hw3] at ja
          rw [hw4] at jb
          have hne1 : (ins + (u - 1)) % (m.mask + 1) ≠ (ins + (d2 + 1)) % (m.mask + 1) :=
            probe_inj (m.mask + 1) ins (u - 1) (d2 + 1) (by omega) (by omega)
          rw [upd] at ja jb
          rw [if_neg hne1] at ja jb
          exact ⟨ja, jb⟩
        · have hu : u = d2 + 1 := by omega
          subst hu
          obtain ⟨ja, jb⟩ := ih2 ((ins + (d2 + 1)) % (m.mask + 1))
            (fun u' hu1' hu2' =>
              (probe_inj (m.mask + 1) ins u' (d2 + 1) (by omega) (by omega)).symm)
          rw [hw3] at ja
          rw [hw4] at jb
          rw [ja, jb, upd, if_pos rfl, upd, if_pos rfl]
          have hsub : d2 + 1 - 1 = d2 := by omega
          rw [hsub]
          exact ⟨rfl, rfl⟩
      · intro q hq
        obtain ⟨ja, jb⟩ := ih2 q (fun u' hu1' hu2' => hq u' hu1' (by omega))
        rw [hw3] at ja
        rw [hw4] at jb
        rw [ja, jb, upd]
        rw [if_neg (hq (d2 + 1) (by omega) (by omega))]
        rw [upd, if_neg (hq (d2 + 1) (by omega) (by omega))]
        exact ⟨rfl, rfl⟩

theorem probe_add (N idx a s : ℕ) : ((idx + a) % N + s) % N = (idx + (a + s)) % N := by
  rw [Nat.mod_add_mod]
  congr 1
  omega

theorem insertTail_path (m : PMap K V) (p : ℕ) (hp : m.mask + 1 = 2 ^ p)
    (hp1 : 1 ≤ p) (hp64 : p ≤ 64) (ins : ℕ) (si : ℤ) (b : ℕ) (kv : K × V)
    (m2 : PMap K V) (hins : ins < m.mask + 1)
    (h : insertTail m ins si b kv = some m2) :
    ∃ d, d < m.mask + 1 ∧
      m2.info ins = b ∧ m2.slots ins = kv ∧
      m.info ((ins + d) % (m.mask + 1)) = 0 ∧
      (∀ s, s < d → m.info ((ins + s) % (m.mask + 1)) ≠ 0) ∧
      (∀ q, (∀ u, u ≤ d → q ≠ (ins + u) % (m.mask + 1)) →
        m2.info q = m.info q ∧ m2.slots q = m.slots q) := by
  have hins0 : (ins + 0) % (m.mask + 1) = ins := by
    rw [Nat.add_zero, Nat.mod_eq_of_lt hins]
  unfold insertTail at h
  rcases hfe : findEmptyGo m (m.mask + 2) ins si with _ | ⟨idxE, infE⟩
  · rw [hfe] at h; exact absurd h (by simp)
  · rw [hfe] at h
    dsimp only at h
    obtain ⟨d, hdf, he1, he2, he3, he4⟩ := findEmptyGo_path m p hp _ _ _ _ _ hfe hins
    have hdN : d < m.mask + 1 := by
      rcases Nat.lt_or_ge d (m.mask + 1) with hlt | hge
      · exact hlt
      · exfalso
        have hdq : d = m.mask + 1 := by omega
        have h5 := he3 0 (by omega)
        rw [hins0] at h5
        rw [he1, hdq] at he4
        have h6 : (ins + (m.mask + 1)) % (m.mask + 1) = ins := by
          rw [Nat.add_mod_right, Nat.mod_eq_of_lt hins]
        rw [h6] at he4
        exact h5 he4
    by_cases hx : idxE = ins
    · rw [if_pos hx] at h
      dsimp only at h
      simp only [Option.some.injEq] at h
      subst h
      have hd0 : d = 0 := by
        by_contra hd0
        have := probe_inj (m.mask + 1) ins 0 d (by omega) (by omega)
        rw [hins0] at this
        rw [he1] at hx
        exact this hx.symm
      subst hd0
      refine ⟨0, by omega, ?_, ?_, ?_, fun s hs => absurd hs (by omega), ?_⟩
      · show upd m.info ins b ins = b
        rw [upd, if_pos rfl]
      · show upd m.slots ins kv ins = kv
        rw [upd, if_pos rfl]
      · rw [hins0]
        rw [he1, hins0] at he4
        exact he4
      · intro q hq
        have hqi : q ≠ ins := by
          have := hq 0 (by omega)
          rw [hins0] at this
          exact this
        constructor
        · show upd m.info ins b q = m.info q
          rw [upd, if_neg hqi]
        · show upd m.slots ins kv q = m.slots q
          rw [upd, if_neg hqi]
    · rw [if_neg hx] at h
      rcases hsu : shiftUpGo (m.mask + 2) m idxE ins with _ | m3
      · rw [hsu] at h; exact absurd h (by simp)
      · rw [hsu] at h
        dsimp only at h
        simp only [Option.some.injEq] at h
        subst h
        rw [he1] at hsu
        obtain ⟨ih1, ih2⟩ := shiftUpGo_path p d m (m.mask + 2) ins m3
          hp hp1 hp64 hsu hins hdN
        refine ⟨d, hdN, ?_, ?_, he1 ▸ he4, he3, ?_⟩
        · show upd m3.info ins b ins = b
          rw [upd, if_pos rfl]
        · show upd m3.slots ins kv ins = kv
          rw [upd, if_pos rfl]
        · intro q hq
          have hqi : q ≠ ins := by
            have := hq 0 (by omega)
            rw [hins0] at this
            exact this
          obtain ⟨ja, jb⟩ := ih2 q (fun u hu1 hu2 => hq u hu2)
          constructor
          · show upd m3.info ins b q = m.info q
            rw [upd, if_neg hqi]
            exact ja
          · show upd m3.slots ins kv q = m.slots q
            rw [upd, if_neg hqi]
            exact jb

theorem findIdxGo_hits (m : PMap K V) (k : K) (p : ℕ) (hp : m.mask + 1 = 2 ^ p) :
    ∀ (fuel t idx : ℕ) (info : ℤ),
      idx < m.mask + 1 → t < 2 * fuel →
      (info + (t * m.infoInc : ℤ) = (m.info ((idx + t) % (m.mask + 1)) : ℤ) ∧
        (m.slots ((idx + t) % (m.mask + 1))).1 = k) →
      (∀ s, s < t → ¬(info + (s * m.infoInc : ℤ)
          = (m.info ((idx + s) % (m.mask + 1)) : ℤ) ∧
        (m.slots ((idx + s) % (m.mask + 1))).1 = k)) →
      (∀ j, 2 * j + 2 ≤ t → info + ((2 * j + 2) * m.infoInc : ℤ)
          ≤ (m.info ((idx + (2 * j + 2)) % (m.mask + 1)) : ℤ)) →
      findIdxGo m k fuel idx info = some (((idx + t) % (m.mask + 1) : ℕ) : ℤ) := by
  intro fuel
  induction fuel with
  | zero => intro t idx info _ ht _ _ _; omega
  | succ n ih =>
    intro t idx info hidx ht hmatch hno hcont
    rw [findIdxGo]
    have hidx0 : (idx + 0) % (m.mask + 1) = idx := by
      rw [Nat.add_zero, Nat.mod_eq_of_lt hidx]
    have hnext : nextIdx m idx = (idx + 1) % (m.mask + 1) := nextIdx_mod m p hp idx
    have hnext2 : nextIdx m (nextIdx m idx) = (idx + 2) % (m.mask + 1) := by
      rw [hnext, nextIdx_mod m p hp, probe_add]
    match t, hmatch, hno, hcont with
    | 0, hmatch, hno, hcont =>
      rw [if_pos ?side]
      case side =>
        constructor
        · have := hmatch.1
          rw [hidx0] at this
          simpa using this
        · have := hmatch.2
          rw [hidx0] at this
          exact this
      rw [hidx0]
    | 1, hmatch, hno, hcont =>
      rw [if_neg ?side1]
      case side1 =>
        have := hno 0 (by omega)
        rw [hidx0] at this
        simpa using this
      rw [if_pos ?side2]
      case side2 =>
        rw [hnext]
        constructor
        · have := hmatch.1
          simpa using this
        · exact hmatch.2
      rw [hnext]
    | (t2 + 2), hmatch, hno, hcont =>
      rw [if_neg ?sideA]
      case sideA =>
        have := hno 0 (by omega)
        rw [hidx0] at this
        simpa using this
      rw [if_neg ?sideB]
      case sideB =>
        have := hno 1 (by omega)
        rw [hnext]
        simpa using this
      rw [if_pos ?sideC]
      case sideC =>
        have h2 := hcont 0 (by omega)
        rw [hnext2]
        have hpos : idx + (2 * 0 + 2) = idx + 2 := by norm_num
        rw [hpos] at h2
        push_cast at h2
        have h3 : info + (m.infoInc : ℤ) + (m.infoInc : ℤ)
            ≤ (m.info ((idx + 2) % (m.mask + 1)) : ℤ) := by
          linarith
        exact h3
      have hconv : ((idx + 2) % (m.mask + 1) + t2) % (m.mask + 1)
          = (idx + (t2 + 2)) % (m.mask + 1) := by
        rw [probe_add]
        congr 1
        omega
      have hresult := ih t2 ((idx + 2) % (m.mask + 1))
        (info + (m.infoInc : ℤ) + (m.infoInc : ℤ))
        (Nat.mod_lt _ (by omega)) (by omega) ?hm ?hn ?hc
      case hm =>
        rw [hconv]
        constructor
        · have := hmatch.1
          have harith : info + ((t2 + 2 : ℕ) : ℤ) * (m.infoInc : ℤ)
              = info + (m.infoInc : ℤ) + (m.infoInc : ℤ) + (t2 * m.infoInc : ℤ) := by
            push_cast
            ring
          rw [harith] at this
          exact this
        · exact hmatch.2
      case hn =>
        intro s hs
        have := hno (s + 2) (by omega)
        have hpos2 : ((idx + 2) % (m.mask + 1) + s) % (m.mask + 1)
            = (idx + (s + 2)) % (m.mask + 1) := by
          rw [probe_add]
          congr 1
          omega
        rw [hpos2]
        have harith : info + (m.infoInc : ℤ) + (m.infoInc : ℤ) + (s * m.infoInc : ℤ)
            = info + ((s + 2 : ℕ) : ℤ) * (m.infoInc : ℤ) := by
          push_cast
          ring
        rw [harith]
        exact this
      case hc =>
        intro j hj
        have := hcont (j + 1) (by omega)
        have hpos3 : ((idx + 2) % (m.mask + 1) + (2 * j + 2)) % (m.mask + 1)
            = (idx + (2 * (j + 1) + 2)) % (m.mask + 1) := by
          rw [probe_add]
          congr 1
          omega
        rw [hpos3]
        have harith : info + (m.infoInc : ℤ) + (m.infoInc : ℤ)
              + ((2 * j + 2) * m.infoInc : ℤ)
            = info + ((2 * (j + 1) + 2 : ℕ) : ℤ) * (m.infoInc : ℤ) := by
          push_cast
          ring
        rw [harith]
        exact this
      rw [hconv] at hresult
      rw [hnext2]
      exact hresult

theorem shiftUpGo_total (p : ℕ) :
    ∀ (d : ℕ) (m : PMap K V) (fuel ins : ℕ),
      m.mask + 1 = 2 ^ p → 1 ≤ p → p ≤ 64 →
      ins < m.mask + 1 → d < m.mask + 1 → d < fuel →
      ∃ m3, shiftUpGo fuel m ((ins + d) % (m.mask + 1)) ins = some m3 := by
  intro d
  induction d with
  | zero =>
    intro m fuel ins hp hp1 hp64 hins hd hf
    cases fuel with
    | zero => omega
    | succ f =>
      refine ⟨m, ?_⟩
      rw [shiftUpGo, if_pos (by rw [Nat.add_zero, Nat.mod_eq_of_lt hins])]
  | succ d2 ih =>
    intro m fuel ins hp hp1 hp64 hins hd hf
    cases fuel with
    | zero => omega
    | succ f =>
      have hneq : (ins + (d2 + 1)) % (m.mask + 1) ≠ ins := by
        intro hcon
        have := probe_inj (m.mask + 1) ins 0 (d2 + 1) (by omega) (by omega)
        rw [Nat.add_zero, Nat.mod_eq_of_lt hins] at this
        exact this hcon.symm
      have hprev : prevIdx m ((ins + (d2 + 1)) % (m.mask + 1))
          = (ins + d2) % (m.mask + 1) := by
        have ha : ins + (d2 + 1) = (ins + d2) + 1 := by omega
        rw [ha]
        exact prevIdx_probe m p hp hp1 hp64 (ins + d2)
      obtain ⟨hw1, hw2, hw3, hw4⟩ :=
        shiftUpWrite_fields m ((ins + (d2 + 1)) % (m.mask + 1))
      obtain ⟨m3, h3⟩ := ih (shiftUpWrite m ((ins + (d2 + 1)) % (m.mask + 1))) f ins
        (by rw [hw1]; exact hp) hp1 hp64 (by rw [hw1]; exact hins)
        (by rw [hw1]; omega) (by omega)
      rw [hw1] at h3
      refine ⟨m3, ?_⟩
      rw [shiftUpGo, if_neg hneq, hprev]
      exact h3

theorem insertTail_total (m : PMap K V) (p : ℕ) (hp : m.mask + 1 = 2 ^ p)
    (hp1 : 1 ≤ p) (hp64 : p ≤ 64) (ins : ℕ) (si : ℤ) (b : ℕ) (kv : K × V)
    (idxE : ℕ) (infE : ℤ) (d : ℕ)
    (hins : ins < m.mask + 1) (hd : d < m.mask + 1)
    (hfe : findEmptyGo m (m.mask + 2) ins si = some (idxE, infE))
    (hE : idxE = (ins + d) % (m.mask + 1)) :
    ∃ m2, insertTail m ins si b kv = some m2 := by
  unfold insertTail
  rw [hfe]
  dsimp only
  by_cases hx : idxE = ins
  · rw [if_pos hx]
    exact ⟨_, rfl⟩
  · rw [if_neg hx]
    obtain ⟨m3, h3⟩ := shiftUpGo_total p d m (m.mask + 2) ins hp hp1 hp64 hins hd
      (by omega)
    rw [hE, h3]
    exact ⟨_, rfl⟩

/-! ### Claim C1: `get` after `set` returns the stored value -/

theorem set_insert_core (cfg : HashCfg K) (m : PMap K V) (k : K) (v : V)
    (p : ℕ) (idx1 : ℕ) (info1 : ℤ) (idx2 : ℕ) (info2 : ℤ) (idxE : ℕ) (infoE : ℤ)
    (hp : m.mask + 1 = 2 ^ p) (hp1 : 1 ≤ p) (hp64 : p ≤ 64)
    (hall : m.allocated = true)
    (hinc : 1 ≤ m.infoInc)
    (hf0 : 0 ≤ (keyToIdx cfg m k).2)
    (hflow : info2 + (m.infoInc : ℤ) ≤ 255)
    (hsz : m.numElements < m.maxNumElementsAllowed)
    (h1 : nextWhileLessGo m (m.mask + 600) (keyToIdx cfg m k).1 (keyToIdx cfg m k).2
      = some (idx1, info1))
    (h2 : matchLoopGo m k (m.mask + 600) idx1 info1 = some (idx2, info2, false))
    (h3 : findEmptyGo m (m.mask + 2) idx2 info2 = some (idxE, infoE))
    (hspan : infoE < (keyToIdx cfg m k).2
      + ((m.mask + 1 : ℕ) : ℤ) * (m.infoInc : ℤ)) :
    ∃ m2 tA tB, setOp cfg m k v = some (m2, idx2) ∧
      idx2 = ((keyToIdx cfg m k).1 + (tA + tB)) % (m.mask + 1) ∧
      info2 = (keyToIdx cfg m k).2 + ((tA + tB : ℕ) : ℤ) * (m.infoInc : ℤ) ∧
      tA + tB < m.mask + 1 ∧
      ((toU8 info2 : ℕ) : ℤ) = info2 ∧
      (∀ s, s < tA → (keyToIdx cfg m k).2 + (s * m.infoInc : ℤ)
        < (m.info (((keyToIdx cfg m k).1 + s) % (m.mask + 1)) : ℤ)) ∧
      ¬((keyToIdx cfg m k).2 + (tA * m.infoInc : ℤ)
        < (m.info (((keyToIdx cfg m k).1 + tA) % (m.mask + 1)) : ℤ)) ∧
      (∀ s, tA ≤ s → s < tA + tB →
        (keyToIdx cfg m k).2 + (s * m.infoInc : ℤ)
          = (m.info (((keyToIdx cfg m k).1 + s) % (m.mask + 1)) : ℤ) ∧
        (m.slots (((keyToIdx cfg m k).1 + s) % (m.mask + 1))).1 ≠ k) ∧
      (∀ s, s < tA + tB →
        m2.info (((keyToIdx cfg m k).1 + s) % (m.mask + 1))
          = m.info (((keyToIdx cfg m k).1 + s) % (m.mask + 1)) ∧
        m2.slots (((keyToIdx cfg m k).1 + s) % (m.mask + 1))
          = m.slots (((keyToIdx cfg m k).1 + s) % (m.mask + 1))) ∧
      m2.info idx2 = toU8 info2 ∧ m2.slots idx2 = (k, v) ∧
      m2.allocated = true ∧ m2.mask = m.mask ∧ m2.infoInc = m.infoInc ∧
      m2.infoHashShift = m.infoHashShift ∧ m2.numElements = m.numElements + 1 := by
  have hi0 : (keyToIdx cfg m k).1 < m.mask + 1 := by
    have := keyToIdx_le_mask cfg m k
    omega
  obtain ⟨tA, htA, h1a, h1b, h1c, h1d⟩ :=
    nextWhileLessGo_path m p hp _ _ _ _ _ h1 hi0
  have hidx1 : idx1 < m.mask + 1 := by
    rw [h1a]
    exact Nat.mod_lt _ (by omega)
  obtain ⟨tB, htB, h2a, h2b, h2c, _, h2e⟩ :=
    matchLoopGo_path m k p hp _ _ _ _ _ _ h2 hidx1
  have h2e' := h2e rfl
  have hidx2eq : idx2 = ((keyToIdx cfg m k).1 + (tA + tB)) % (m.mask + 1) := by
    rw [h2a, h1a, probe_add]
  have hinfo2eq : info2 = (keyToIdx cfg m k).2
      + ((tA + tB : ℕ) : ℤ) * (m.infoInc : ℤ) := by
    rw [h2b, h1b]
    push_cast
    ring
  have hidx2 : idx2 < m.mask + 1 := by
    rw [hidx2eq]
    exact Nat.mod_lt _ (by omega)
  obtain ⟨d, hdf, hEa, hEb, hEc, hEd⟩ := findEmptyGo_path m p hp _ _ _ _ _ h3 hidx2
  have hspan2 : tA + tB + d < m.mask + 1 := by
    rw [hEb, hinfo2eq] at hspan
    have h4 : ((tA + tB : ℕ) : ℤ) * (m.infoInc : ℤ) + ((d : ℕ) : ℤ) * (m.infoInc : ℤ)
        < ((m.mask + 1 : ℕ) : ℤ) * (m.infoInc : ℤ) := by linarith
    have h5 : (((tA + tB) + d : ℕ) : ℤ) * (m.infoInc : ℤ)
        < ((m.mask + 1 : ℕ) : ℤ) * (m.infoInc : ℤ) := by
      push_cast at h4 ⊢
      linarith
    have h6 : (((tA + tB) + d : ℕ) : ℤ) < ((m.mask + 1 : ℕ) : ℤ) := by
      have hincZ : (0 : ℤ) < (m.infoInc : ℤ) := by exact_mod_cast hinc
      exact lt_of_mul_lt_mul_right h5 (le_of_lt hincZ)
    exact_mod_cast h6
  have hdN : d < m.mask + 1 := by omega
  have hinfo2pos : 0 ≤ info2 := by
    rw [hinfo2eq]
    positivity
  have hinfo2le : info2 ≤ 254 := by
    have : (1 : ℤ) ≤ (m.infoInc : ℤ) := by exact_mod_cast hinc
    omega
  have htoU8 : ((toU8 info2 : ℕ) : ℤ) = info2 := by
    unfold toU8
    rw [Int.emod_eq_of_lt hinfo2pos (by omega)]
    exact Int.toNat_of_nonneg hinfo2pos
  have hsz' : ¬(m.maxNumElementsAllowed ≤ m.numElements) := by omega
  have hguard : ¬(255 < info2 + (m.infoInc : ℤ)) := by omega
  obtain ⟨m2, hIT⟩ := insertTail_total m p hp hp1 hp64 idx2 info2 (toU8 info2)
    (k, v) idxE infoE d hidx2 hdN h3 hEa
  have hatt : doCreateAttempt cfg m k v = some (Sum.inl (m2, idx2)) := by
    unfold doCreateAttempt
    rw [h1]
    dsimp only
    rw [h2]
    dsimp only
    simp only [Bool.false_eq_true, if_false]
    rw [if_neg hsz', if_neg hguard, hIT]
    rfl
  have hset : setOp cfg m k v = some (m2, idx2) := by
    show doCreateGo cfg (39 + 1) m k v = some (m2, idx2)
    rw [doCreateGo, reload_id cfg m hall, hatt]
  have hfr := insertTail_frame m idx2 info2 (toU8 info2) (k, v) m2 hIT
  obtain ⟨d2, hd2N, hP1, hP2, hP3, hP4, hP5⟩ :=
    insertTail_path m p hp hp1 hp64 idx2 info2 (toU8 info2) (k, v) m2 hidx2 hIT
  have hdd : d2 = d := by
    rcases Nat.lt_trichotomy d2 d with hlt | heq | hgt
    · exact absurd hP3 (hEc d2 hlt)
    · exact heq
    · exact absurd (hEa ▸ hEd) (hP4 d hgt)
  subst hdd
  have hall2 : m2.allocated = true := by rw [hfr.1]; exact hall
  have hmask2 : m2.mask = m.mask := hfr.2.2.2.2.1
  have hinc2 : m2.infoInc = m.infoInc := hfr.2.2.2.2.2.1
  have hshift2 : m2.infoHashShift = m.infoHashShift := hfr.2.2.2.2.2.2.1
  have hkey : keyToIdx cfg m2 k = keyToIdx cfg m k := by
    unfold keyToIdx
    rw [hmask2, hinc2, hshift2]
  have hp2 : m2.mask + 1 = 2 ^ p := by rw [hmask2]; exact hp
  have huntouched : ∀ s, s < tA + tB →
      m2.info (((keyToIdx cfg m k).1 + s) % (m.mask + 1))
        = m.info (((keyToIdx cfg m k).1 + s) % (m.mask + 1)) ∧
      m2.slots (((keyToIdx cfg m k).1 + s) % (m.mask + 1))
        = m.slots (((keyToIdx cfg m k).1 + s) % (m.mask + 1)) := by
    intro s hs
    apply hP5
    intro u hu
    rw [hidx2eq, probe_add]
    exact probe_inj (m.mask + 1) (keyToIdx cfg m k).1 s (tA + tB + u)
      (by omega) (by omega)
  have hbyteA : ∀ s, s < tA →
      (keyToIdx cfg m k).2 + (s * m.infoInc : ℤ)
        < (m.info (((keyToIdx cfg m k).1 + s) % (m.mask + 1)) : ℤ) := h1c
  have hbyteB : ∀ s, tA ≤ s → s < tA + tB →
      (keyToIdx cfg m k).2 + (s * m.infoInc : ℤ)
        = (m.info (((keyToIdx cfg m k).1 + s) % (m.mask + 1)) : ℤ) ∧
      (m.slots (((keyToIdx cfg m k).1 + s) % (m.mask + 1))).1 ≠ k := by
    intro s hs1 hs2
    have h5 := h2c (s - tA) (by omega)
    rw [h1a, probe_add] at h5
    have h6 : tA + (s - tA) = s := by omega
    rw [h6] at h5
    have h7 : info1 + ((s - tA : ℕ) : ℤ) * (m.infoInc : ℤ)
        = (keyToIdx cfg m k).2 + (s * m.infoInc : ℤ) := by
      rw [h1b]
      have h8 : ((s - tA : ℕ) : ℤ) = (s : ℤ) - (tA : ℤ) := by
        push_cast
        omega
      rw [h8]
      push_cast
      ring
    rw [h7] at h5
    exact h5
  have hstopA : ¬((keyToIdx cfg m k).2 + (tA * m.infoInc : ℤ)
      < (m.info (((keyToIdx cfg m k).1 + tA) % (m.mask + 1)) : ℤ)) := by
    rw [h1a, h1b] at h1d
    exact h1d
  exact ⟨m2, tA, tB, hset, hidx2eq, hinfo2eq, by omega, htoU8, hbyteA, hstopA,
    hbyteB, huntouched, hP1, hP2, hall2, hmask2, hinc2, hshift2,
    hfr.2.2.2.2.2.2.2.1⟩

theorem get_hits (cfg : HashCfg K) (mF : PMap K V) (k : K) (p t : ℕ)
    (hp : mF.mask + 1 = 2 ^ p) (hall : mF.allocated = true) (ht : t < mF.mask + 1)
    (hmatch : (keyToIdx cfg mF k).2 + (t * mF.infoInc : ℤ)
      = (mF.info (((keyToIdx cfg mF k).1 + t) % (mF.mask + 1)) : ℤ))
    (hkeyt : (mF.slots (((keyToIdx cfg mF k).1 + t) % (mF.mask + 1))).1 = k)
    (hno : ∀ s, s < t → ¬((keyToIdx cfg mF k).2 + (s * mF.infoInc : ℤ)
        = (mF.info (((keyToIdx cfg mF k).1 + s) % (mF.mask + 1)) : ℤ) ∧
      (mF.slots (((keyToIdx cfg mF k).1 + s) % (mF.mask + 1))).1 = k))
    (hcont : ∀ j, 2 * j + 2 ≤ t →
      (keyToIdx cfg mF k).2 + ((2 * j + 2) * mF.infoInc : ℤ)
        ≤ (mF.info (((keyToIdx cfg mF k).1 + (2 * j + 2)) % (mF.mask + 1)) : ℤ)) :
    getOp cfg mF k
      = (mF, some ((mF.slots (((keyToIdx cfg mF k).1 + t) % (mF.mask + 1))).2)) := by
  have hi0 : (keyToIdx cfg mF k).1 < mF.mask + 1 := by
    have := keyToIdx_le_mask cfg mF k
    omega
  have hfind := findIdxGo_hits mF k p hp (mF.mask + 600) t (keyToIdx cfg mF k).1
    (keyToIdx cfg mF k).2 hi0 (by omega) ⟨hmatch, hkeyt⟩ hno hcont
  have hfi : findIdx cfg mF k
      = (mF, some ((((keyToIdx cfg mF k).1 + t) % (mF.mask + 1) : ℕ) : ℤ)) := by
    unfold findIdx
    rw [reload_id cfg mF hall, hfind]
  unfold getOp
  rw [hfi]
  dsimp only
  rw [if_pos (by positivity), Int.toNat_natCast]

/-- Claim C1: on a mapped table whose header and info bytes are well formed
(power-of-two slot count, bytes under the guard threshold, room under the
load bound), a `set(k, v)` that probes through `nextWhileLess`, the match
loop (no existing copy of `k`) and the empty-slot scan inserts the pair,
and a subsequent `get(k)` retraces the probe path and returns exactly `v`. -/
theorem C1_set_then_get (cfg : HashCfg K) (m : PMap K V) (k : K) (v : V)
    (p : ℕ) (idx1 : ℕ) (info1 : ℤ) (idx2 : ℕ) (info2 : ℤ) (idxE : ℕ) (infoE : ℤ)
    (hp : m.mask + 1 = 2 ^ p) (hp1 : 1 ≤ p) (hp64 : p ≤ 64)
    (hall : m.allocated = true)
    (hinc : 1 ≤ m.infoInc)
    (hf0 : 0 ≤ (keyToIdx cfg m k).2)
    (hflow : info2 + (m.infoInc : ℤ) ≤ 255)
    (hsz : m.numElements < m.maxNumElementsAllowed)
    (h1 : nextWhileLessGo m (m.mask + 600) (keyToIdx cfg m k).1 (keyToIdx cfg m k).2
      = some (idx1, info1))
    (h2 : matchLoopGo m k (m.mask + 600) idx1 info1 = some (idx2, info2, false))
    (h3 : findEmptyGo m (m.mask + 2) idx2 info2 = some (idxE, infoE))
    (hspan : infoE < (keyToIdx cfg m k).2
      + ((m.mask + 1 : ℕ) : ℤ) * (m.infoInc : ℤ)) :
    ∃ m2, setOp cfg m k v = some (m2, idx2) ∧ getOp cfg m2 k = (m2, some v) := by
  obtain ⟨m2, tA, tB, hset, hidx2eq, hinfo2eq, htN, htoU8, hbA, hstopA, hbB,
    huntouched, hP1, hP2, hall2, hmask2, hinc2, hshift2, hnum2⟩ :=
    set_insert_core cfg m k v p idx1 info1 idx2 info2 idxE infoE hp hp1 hp64 hall
      hinc hf0 hflow hsz h1 h2 h3 hspan
  have hkey : keyToIdx cfg m2 k = keyToIdx cfg m k := by
    unfold keyToIdx
    rw [hmask2, hinc2, hshift2]
  have hp2 : m2.mask + 1 = 2 ^ p := by rw [hmask2]; exact hp
  refine ⟨m2, hset, ?_⟩
  have hget := get_hits cfg m2 k p (tA + tB) hp2 hall2 (by rw [hmask2]; omega)
    ?hm ?hk ?hn ?hc
  case hm => rw [hkey, hmask2, ← hidx2eq, hP1, htoU8, hinfo2eq, hinc2]
  case hk => rw [hkey, hmask2, ← hidx2eq, hP2]
  case hn =>
    intro s hs
    rw [hkey, hmask2, hinc2]
    obtain ⟨hu1, hu2⟩ := huntouched s hs
    rw [hu1, hu2]
    rcases Nat.lt_or_ge s tA with hsA | hsB
    · intro hcon
      exact absurd hcon.1 (ne_of_lt (hbA s hsA))
    · intro hcon
      exact absurd hcon.2 (hbB s hsB hs).2
  case hc =>
    intro j hj
    rw [hkey, hmask2, hinc2]
    rcases Nat.lt_or_ge (2 * j + 2) (tA + tB) with hlt | hge
    · obtain ⟨hu1, _⟩ := huntouched (2 * j + 2) hlt
      rw [hu1]
      rcases Nat.lt_or_ge (2 * j + 2) tA with hsA | hsB
      · exact le_of_lt (hbA (2 * j + 2) hsA)
      · exact le_of_eq (hbB (2 * j + 2) hsB hlt).1
    · have hEq : 2 * j + 2 = tA + tB := by omega
      rw [hEq, ← hidx2eq, hP1, htoU8, hinfo2eq]
      have hc2 : (2 * (j : ℤ) + 2) = ((tA + tB : ℕ) : ℤ) := by
        push_cast
        omega
      exact le_of_eq (by rw [hc2])
  rw [hget, hkey, hmask2, ← hidx2eq, hP2]

theorem C1_set_then_get_witness :
    (pmA.mask + 1 = 2 ^ 10 ∧ pmA.allocated = true ∧ 1 ≤ pmA.infoInc ∧
      pmA.numElements < pmA.maxNumElementsAllowed ∧
      nextWhileLessGo pmA (pmA.mask + 600) (keyToIdx cfgU64 pmA 5).1
        (keyToIdx cfgU64 pmA 5).2 = some (373, 26)) ∧
    ∃ m2, setOp cfgU64 pmA 5 7 = some (m2, 373) ∧ getOp cfgU64 m2 5 = (m2, some 7) :=
  ⟨by decide, C1_set_then_get cfgU64 pmA 5 7 10 373 26 373 26 373 26
    (by decide) (by decide) (by decide) (by decide) (by decide) (by decide)
    (by decide) (by decide) (by decide) (by decide) (by decide) (by decide)⟩

theorem nextWhileLessGo_runs (m : PMap K V) (p : ℕ) (hp : m.mask + 1 = 2 ^ p) :
    ∀ (fuel t idx : ℕ) (info : ℤ),
      idx < m.mask + 1 → t < fuel →
      (∀ s, s < t → info + (s * m.infoInc : ℤ)
        < (m.info ((idx + s) % (m.mask + 1)) : ℤ)) →
      ¬(info + (t * m.infoInc : ℤ) < (m.info ((idx + t) % (m.mask + 1)) : ℤ)) →
      nextWhileLessGo m fuel idx info
        = some ((idx + t) % (m.mask + 1), info + (t * m.infoInc : ℤ)) := by
  intro fuel
  induction fuel with
  | zero => intro t idx info _ ht _ _; omega
  | succ n ih =>
    intro t idx info hidx ht hlt hstop
    rw [nextWhileLessGo]
    have hidx0 : (idx + 0) % (m.mask + 1) = idx := by
      rw [Nat.add_zero, Nat.mod_eq_of_lt hidx]
    have hnext : nextIdx m idx = (idx + 1) % (m.mask + 1) := nextIdx_mod m p hp idx
    match t, ht, hlt, hstop with
    | 0, ht, hlt, hstop =>
      rw [if_neg ?side]
      case side =>
        rw [hidx0] at hstop
        intro hcon
        exact hstop (by simpa using hcon)
      rw [hidx0]
      norm_num
    | (t2 + 1), ht, hlt, hstop =>
      rw [if_pos ?side]
      case side =>
        have := hlt 0 (by omega)
        rw [hidx0] at this
        simpa using this
      rw [hnext]
      have hres := ih t2 ((idx + 1) % (m.mask + 1)) (info + (m.infoInc : ℤ))
        (Nat.mod_lt _ (by omega)) (by omega) ?hlt2 ?hstop2
      case hlt2 =>
        intro s hs
        have h5 := hlt (s + 1) (by omega)
        rw [probe_add]
        have h6 : idx + (1 + s) = idx + (s + 1) := by omega
        rw [h6]
        have h7 : info + (m.infoInc : ℤ) + (s * m.infoInc : ℤ)
            = info + ((s + 1 : ℕ) : ℤ) * (m.infoInc : ℤ) := by
          push_cast
          ring
        rw [h7]
        exact h5
      case hstop2 =>
        rw [probe_add]
        have h6 : idx + (1 + t2) = idx + (t2 + 1) := by omega
        rw [h6]
        have h7 : info + (m.infoInc : ℤ) + (t2 * m.infoInc : ℤ)
            = info + ((t2 + 1 : ℕ) : ℤ) * (m.infoInc : ℤ) := by
          push_cast
          ring
        rw [h7]
        exact hstop
      rw [hres, probe_add]
      have h6 : idx + (1 + t2) = idx + (t2 + 1) := by omega
      rw [h6]
      have h7 : info + (m.infoInc : ℤ) + (t2 * m.infoInc : ℤ)
          = info + ((t2 + 1 : ℕ) : ℤ) * (m.infoInc : ℤ) := by
        push_cast
        ring
      rw [h7]

theorem matchLoopGo_finds (m : PMap K V) (k : K) (p : ℕ) (hp : m.mask + 1 = 2 ^ p) :
    ∀ (fuel t idx : ℕ) (info : ℤ),
      idx < m.mask + 1 → t < fuel →
      (∀ s, s < t → info + (s * m.infoInc : ℤ)
          = (m.info ((idx + s) % (m.mask + 1)) : ℤ) ∧
        (m.slots ((idx + s) % (m.mask + 1))).1 ≠ k) →
      info + (t * m.infoInc : ℤ) = (m.info ((idx + t) % (m.mask + 1)) : ℤ) →
      (m.slots ((idx + t) % (m.mask + 1))).1 = k →
      matchLoopGo m k fuel idx info
        = some ((idx + t) % (m.mask + 1), info + (t * m.infoInc : ℤ), true) := by
  intro fuel
  induction fuel with
  | zero => intro t idx info _ ht _ _ _; omega
  | succ n ih =>
    intro t idx info hidx ht hrun hbyte hkey
    rw [matchLoopGo]
    have hidx0 : (idx + 0) % (m.mask + 1) = idx := by
      rw [Nat.add_zero, Nat.mod_eq_of_lt hidx]
    have hnext : nextIdx m idx = (idx + 1) % (m.mask + 1) := nextIdx_mod m p hp idx
    match t, ht, hrun, hbyte, hkey with
    | 0, ht, hrun, hbyte, hkey =>
      rw [hidx0] at hbyte hkey
      rw [if_pos (by simpa using hbyte), if_pos hkey, hidx0]
      norm_num
    | (t2 + 1), ht, hrun, hbyte, hkey =>
      have h0 := hrun 0 (by omega)
      rw [hidx0] at h0
      rw [if_pos (by simpa using h0.1), if_neg h0.2, hnext]
      have harith : ∀ s : ℕ, info + (m.infoInc : ℤ) + (s * m.infoInc : ℤ)
          = info + ((s + 1 : ℕ) : ℤ) * (m.infoInc : ℤ) := by
        intro s
        push_cast
        ring
      have hres := ih t2 ((idx + 1) % (m.mask + 1)) (info + (m.infoInc : ℤ))
        (Nat.mod_lt _ (by omega)) (by omega) ?hrun2 ?hbyte2 ?hkey2
      case hrun2 =>
        intro s hs
        have h5 := hrun (s + 1) (by omega)
        rw [probe_add]
        have h6 : idx + (1 + s) = idx + (s + 1) := by omega
        rw [h6, harith s]
        exact h5
      case hbyte2 =>
        rw [probe_add]
        have h6 : idx + (1 + t2) = idx + (t2 + 1) := by omega
        rw [h6, harith t2]
        exact hbyte
      case hkey2 =>
        rw [probe_add]
        have h6 : idx + (1 + t2) = idx + (t2 + 1) := by omega
        rw [h6]
        exact hkey
      rw [hres, probe_add]
      have h6 : idx + (1 + t2) = idx + (t2 + 1) := by omega
      rw [h6, harith t2]

/-! ### Claim C4: `set(k, v1); set(k, v2)` updates in place -/

/-- Claim C4: under the same well-formedness as C1, after `set(k, v1)` a
second `set(k, v2)` takes the found path of `doCreate`: it overwrites the
pair in place at the same slot, `size()` is unchanged from its value after
the first `set`, and `get(k)` afterwards returns `v2`. -/
theorem C4_set_set_in_place (cfg : HashCfg K) (m : PMap K V) (k : K) (v1 v2 : V)
    (p : ℕ) (idx1 : ℕ) (info1 : ℤ) (idx2 : ℕ) (info2 : ℤ) (idxE : ℕ) (infoE : ℤ)
    (hp : m.mask + 1 = 2 ^ p) (hp1 : 1 ≤ p) (hp64 : p ≤ 64)
    (hall : m.allocated = true)
    (hinc : 1 ≤ m.infoInc)
    (hf0 : 0 ≤ (keyToIdx cfg m k).2)
    (hflow : info2 + (m.infoInc : ℤ) ≤ 255)
    (hsz : m.numElements < m.maxNumElementsAllowed)
    (h1 : nextWhileLessGo m (m.mask + 600) (keyToIdx cfg m k).1 (keyToIdx cfg m k).2
      = some (idx1, info1))
    (h2 : matchLoopGo m k (m.mask + 600) idx1 info1 = some (idx2, info2, false))
    (h3 : findEmptyGo m (m.mask + 2) idx2 info2 = some (idxE, infoE))
    (hspan : infoE < (keyToIdx cfg m k).2
      + ((m.mask + 1 : ℕ) : ℤ) * (m.infoInc : ℤ)) :
    ∃ m2 m4, setOp cfg m k v1 = some (m2, idx2) ∧
      setOp cfg m2 k v2 = some (m4, idx2) ∧
      sizeOp m4 = sizeOp m2 ∧ getOp cfg m4 k = (m4, some v2) := by
  obtain ⟨m2, tA, tB, hset, hidx2eq, hinfo2eq, htN, htoU8, hbA, hstopA, hbB,
    huntouched, hP1, hP2, hall2, hmask2, hinc2, hshift2, hnum2⟩ :=
    set_insert_core cfg m k v1 p idx1 info1 idx2 info2 idxE infoE hp hp1 hp64 hall
      hinc hf0 hflow hsz h1 h2 h3 hspan
  have hkey : keyToIdx cfg m2 k = keyToIdx cfg m k := by
    unfold keyToIdx
    rw [hmask2, hinc2, hshift2]
  have hp2 : m2.mask + 1 = 2 ^ p := by rw [hmask2]; exact hp
  have hbidx2 : ((m2.info idx2 : ℕ) : ℤ) = info2 := by
    rw [hP1, htoU8]
  have hNW : nextWhileLessGo m2 (m2.mask + 600) (keyToIdx cfg m2 k).1
      (keyToIdx cfg m2 k).2
      = some (((keyToIdx cfg m2 k).1 + tA) % (m2.mask + 1),
        (keyToIdx cfg m2 k).2 + (tA * m2.infoInc : ℤ)) := by
    apply nextWhileLessGo_runs m2 p hp2
    · rw [hkey, hmask2]
      have := keyToIdx_le_mask cfg m k
      omega
    · omega
    · intro s hs
      rw [hkey, hmask2, hinc2]
      obtain ⟨hu1, _⟩ := huntouched s (by omega)
      rw [hu1]
      exact hbA s hs
    · rw [hkey, hmask2, hinc2]
      by_cases hB0 : tB = 0
      · subst hB0
        have hpos : ((keyToIdx cfg m k).1 + tA) % (m.mask + 1) = idx2 := by
          rw [hidx2eq]
          norm_num
        rw [hpos]
        intro hcon
        rw [hbidx2, hinfo2eq] at hcon
        norm_num at hcon
      · obtain ⟨hu1, _⟩ := huntouched tA (by omega)
        rw [hu1]
        exact hstopA
  have heqpos : (((keyToIdx cfg m2 k).1 + tA) % (m2.mask + 1) + tB) % (m2.mask + 1)
      = idx2 := by
    rw [probe_add, hkey, hmask2, ← hidx2eq]
  have heqinfo : (keyToIdx cfg m2 k).2 + (tA * m2.infoInc : ℤ)
      + (tB * m2.infoInc : ℤ) = info2 := by
    rw [hkey, hinc2, hinfo2eq]
    push_cast
    ring
  have hML : matchLoopGo m2 k (m2.mask + 600)
      (((keyToIdx cfg m2 k).1 + tA) % (m2.mask + 1))
      ((keyToIdx cfg m2 k).2 + (tA * m2.infoInc : ℤ))
      = some (idx2, info2, true) := by
    have hres := matchLoopGo_finds m2 k p hp2 (m2.mask + 600) tB
      (((keyToIdx cfg m2 k).1 + tA) % (m2.mask + 1))
      ((keyToIdx cfg m2 k).2 + (tA * m2.infoInc : ℤ))
      (Nat.mod_lt _ (by omega)) (by omega) ?hrun ?hbyte ?hkmatch
    case hrun =>
      intro s hs
      rw [probe_add, hkey, hmask2, hinc2]
      obtain ⟨hu1, hu2⟩ := huntouched (tA + s) (by omega)
      rw [hu1, hu2]
      have h5 := hbB (tA + s) (by omega) (by omega)
      have h7 : (keyToIdx cfg m k).2 + (tA * m.infoInc : ℤ) + (s * m.infoInc : ℤ)
          = (keyToIdx cfg m k).2 + ((tA + s : ℕ) : ℤ) * (m.infoInc : ℤ) := by
        push_cast
        ring
      rw [h7]
      exact h5
    case hbyte =>
      rw [probe_add, hkey, hmask2, hinc2, ← hidx2eq, hbidx2, hinfo2eq]
      push_cast
      ring
    case hkmatch =>
      rw [probe_add, hkey, hmask2, ← hidx2eq, hP2]
    rw [heqpos, heqinfo] at hres
    exact hres
  obtain ⟨m4, hm4⟩ : ∃ m4, m4 = ({ m2 with
      slots := upd m2.slots idx2 (k, v2) } : PMap K V) := ⟨_, rfl⟩
  have hm4i : m4.info = m2.info := by rw [hm4]
  have hm4s : m4.slots = upd m2.slots idx2 (k, v2) := by rw [hm4]
  have hm4mask : m4.mask = m.mask := by rw [hm4]; exact hmask2
  have hm4inc : m4.infoInc = m.infoInc := by rw [hm4]; exact hinc2
  have hm4shift : m4.infoHashShift = m.infoHashShift := by rw [hm4]; exact hshift2
  have hm4all : m4.allocated = true := by rw [hm4]; exact hall2
  have hm4num : m4.numElements = m2.numElements := by rw [hm4]
  have hatt2 : doCreateAttempt cfg m2 k v2 = some (Sum.inl (m4, idx2)) := by
    rw [hm4]
    unfold doCreateAttempt
    rw [hNW]
    dsimp only
    rw [hML]
    dsimp only
    simp
  have hset2 : setOp cfg m2 k v2 = some (m4, idx2) := by
    show doCreateGo cfg (39 + 1) m2 k v2 = some (m4, idx2)
    rw [doCreateGo, reload_id cfg m2 hall2, hatt2]
  have hkey4 : keyToIdx cfg m4 k = keyToIdx cfg m k := by
    unfold keyToIdx
    rw [hm4mask, hm4inc, hm4shift]
  have hp4 : m4.mask + 1 = 2 ^ p := by rw [hm4mask]; exact hp
  refine ⟨m2, m4, hset, hset2, by rw [sizeOp, sizeOp, hm4num], ?_⟩
  have hget := get_hits cfg m4 k p (tA + tB) hp4 hm4all (by rw [hm4mask]; omega)
    ?hm ?hk ?hn ?hc
  case hm =>
    rw [hkey4, hm4mask, hm4inc, ← hidx2eq, hm4i, hbidx2, hinfo2eq]
  case hk =>
    rw [hkey4, hm4mask, ← hidx2eq, hm4s, upd, if_pos rfl]
  case hn =>
    intro s hs
    rw [hkey4, hm4mask, hm4inc, hm4i, hm4s]
    have hne : ((keyToIdx cfg m k).1 + s) % (m.mask + 1) ≠ idx2 := by
      rw [hidx2eq]
      exact probe_inj (m.mask + 1) (keyToIdx cfg m k).1 s (tA + tB) hs (by omega)
    rw [upd, if_neg hne]
    obtain ⟨hu1, hu2⟩ := huntouched s hs
    rw [hu1, hu2]
    rcases Nat.lt_or_ge s tA with hsA | hsB
    · intro hcon
      exact absurd hcon.1 (ne_of_lt (hbA s hsA))
    · intro hcon
      exact absurd hcon.2 (hbB s hsB hs).2
  case hc =>
    intro j hj
    rw [hkey4, hm4mask, hm4inc, hm4i]
    rcases Nat.lt_or_ge (2 * j + 2) (tA + tB) with hlt | hge
    · obtain ⟨hu1, _⟩ := huntouched (2 * j + 2) hlt
      rw [hu1]
      rcases Nat.lt_or_ge (2 * j + 2) tA with hsA | hsB
      · exact le_of_lt (hbA (2 * j + 2) hsA)
      · exact le_of_eq (hbB (2 * j + 2) hsB hlt).1
    · have hEq : 2 * j + 2 = tA + tB := by omega
      rw [hEq, ← hidx2eq, hbidx2, hinfo2eq]
      have hc2 : (2 * (j : ℤ) + 2) = ((tA + tB : ℕ) : ℤ) := by
        push_cast
        omega
      exact le_of_eq (by rw [hc2])
  rw [hget, hkey4, hm4mask, ← hidx2eq, hm4s, upd, if_pos rfl]

theorem C4_set_set_in_place_witness :
    (pmA.mask + 1 = 2 ^ 10 ∧ pmA.allocated = true ∧
      pmA.numElements < pmA.maxNumElementsAllowed) ∧
    ∃ m2 m4, setOp cfgU64 pmA 5 7 = some (m2, 373) ∧
      setOp cfgU64 m2 5 9 = some (m4, 373) ∧
      sizeOp m4 = sizeOp m2 ∧ getOp cfgU64 m4 5 = (m4, some 9) :=
  ⟨by decide, C4_set_set_in_place cfgU64 pmA 5 7 9 10 373 26 373 26 373 26
    (by decide) (by decide) (by decide) (by decide) (by decide) (by decide)
    (by decide) (by decide) (by decide) (by decide) (by decide) (by decide)⟩

/-! ### `shiftDown`: linear walk characterization -/

theorem shiftDownGo_spec :
    ∀ (fuel : ℕ) (m : PMap K V) (idx : ℕ),
      idx < m.mask + 1 → m.info (m.mask + 1) < 2 * m.infoInc →
      m.mask + 1 < idx + fuel →
      ∃ e m1, idx + e ≤ m.mask ∧ shiftDownGo fuel m idx = some m1 ∧
        (∀ w, w < e → m1.info (idx + w) = m.info (idx + w + 1) - m.infoInc ∧
          m1.slots (idx + w) = m.slots (idx + w + 1) ∧
          2 * m.infoInc ≤ m.info (idx + w + 1)) ∧
        m1.info (idx + e) = 0 ∧
        m.info (idx + e + 1) < 2 * m.infoInc ∧
        (∀ q, q < idx ∨ idx + e < q → m1.info q = m.info q ∧ m1.slots q = m.slots q) := by
  intro fuel
  induction fuel with
  | zero => intro m idx hidx _ hf; omega
  | succ f ih =>
    intro m idx hidx hsent hf
    by_cases hc : 2 * m.infoInc ≤ m.info (idx + 1)
    · have hidx1 : idx + 1 < m.mask + 1 := by
        rcases Nat.lt_or_ge (idx + 1) (m.mask + 1) with h | h
        · exact h
        · exfalso
          have h2 : idx + 1 = m.mask + 1 := by omega
          rw [h2] at hc
          omega
      have hup : (upd m.info idx (m.info (idx + 1) - m.infoInc)) (m.mask + 1)
          = m.info (m.mask + 1) := by
        rw [upd, if_neg (by omega)]
      obtain ⟨e2, m1, j1, j2, j3, j4, j5, j6⟩ := ih
        { m with info := upd m.info idx (m.info (idx + 1) - m.infoInc),
                 slots := upd m.slots idx (m.slots (idx + 1)) } (idx + 1)
        hidx1
        (by show upd m.info idx (m.info (idx + 1) - m.infoInc) (m.mask + 1)
              < 2 * m.infoInc
            rw [hup]
            exact hsent)
        (by show m.mask + 1 < idx + 1 + f
            omega)
      have j1b : idx + 1 + e2 ≤ m.mask := j1
      refine ⟨e2 + 1, m1, by omega, ?_, ?_, ?_, ?_, ?_⟩
      · rw [shiftDownGo, if_pos hc]
        exact j2
      · intro w hw
        cases w with
        | zero =>
          simp only [Nat.add_zero]
          obtain ⟨ja, jb⟩ := j6 idx (by omega)
          rw [ja, jb]
          refine ⟨?_, ?_, hc⟩
          · show upd m.info idx (m.info (idx + 1) - m.infoInc) idx
              = m.info (idx + 1) - m.infoInc
            rw [upd, if_pos rfl]
          · show upd m.slots idx (m.slots (idx + 1)) idx = m.slots (idx + 1)
            rw [upd, if_pos rfl]
        | succ w2 =>
          obtain ⟨ja, jb, jc⟩ := j3 w2 (by omega)
          have hpos1 : idx + 1 + w2 = idx + (w2 + 1) := by omega
          rw [hpos1] at ja jb jc
          have hne : idx + (w2 + 1) + 1 ≠ idx := by omega
          rw [ja, jb]
          refine ⟨?_, ?_, ?_⟩
          · show upd m.info idx (m.info (idx + 1) - m.infoInc) (idx + (w2 + 1) + 1)
                - m.infoInc
              = m.info (idx + (w2 + 1) + 1) - m.infoInc
            rw [upd, if_neg hne]
          · show upd m.slots idx (m.slots (idx + 1)) (idx + (w2 + 1) + 1)
              = m.slots (idx + (w2 + 1) + 1)
            rw [upd, if_neg hne]
          · have jc2 : 2 * m.infoInc
                ≤ upd m.info idx (m.info (idx + 1) - m.infoInc) (idx + (w2 + 1) + 1) :=
              jc
            rw [upd, if_neg hne] at jc2
            exact jc2
      · have hpos : idx + (e2 + 1) = idx + 1 + e2 := by omega
        rw [hpos]
        exact j4
      · have hpos : idx + (e2 + 1) + 1 = idx + 1 + e2 + 1 := by omega
        rw [hpos]
        have hne : idx + 1 + e2 + 1 ≠ idx := by omega
        have j5b : upd m.info idx (m.info (idx + 1) - m.infoInc) (idx + 1 + e2 + 1)
            < 2 * m.infoInc := j5
        rw [upd, if_neg hne] at j5b
        exact j5b
      · intro q hq
        obtain ⟨ja, jb⟩ := j6 q (by omega)
        rw [ja, jb]
        have hne : q ≠ idx := by omega
        constructor
        · show upd m.info idx (m.info (idx + 1) - m.infoInc) q = m.info q
          rw [upd, if_neg hne]
        · show upd m.slots idx (m.slots (idx + 1)) q = m.slots q
          rw [upd, if_neg hne]
    · refine ⟨0, { m with info := upd m.info idx 0 }, by omega, ?_,
        fun w hw => absurd hw (by omega), ?_,
        (by simp only [Nat.add_zero]; omega), ?_⟩
      · rw [shiftDownGo, if_neg hc]
      · show upd m.info idx 0 (idx + 0) = 0
        rw [Nat.add_zero, upd, if_pos rfl]
      · intro q hq
        have hne : q ≠ idx := by omega
        constructor
        · show upd m.info idx 0 q = m.info q
          rw [upd, if_neg hne]
        · rfl

theorem eraseGo_runs (cfg : HashCfg K) (m : PMap K V) (k : K) (p : ℕ)
    (hp : m.mask + 1 = 2 ^ p) (m1 : PMap K V) :
    ∀ (fuel t idx : ℕ) (info : ℤ),
      idx < m.mask + 1 → t < fuel →
      (∀ s, s < t → ¬(info + (s * m.infoInc : ℤ)
          = (m.info ((idx + s) % (m.mask + 1)) : ℤ) ∧
        (m.slots ((idx + s) % (m.mask + 1))).1 = k)) →
      (∀ s, s < t → info + ((s + 1 : ℕ) : ℤ) * (m.infoInc : ℤ)
        ≤ (m.info ((idx + (s + 1)) % (m.mask + 1)) : ℤ)) →
      info + (t * m.infoInc : ℤ) = (m.info ((idx + t) % (m.mask + 1)) : ℤ) →
      (m.slots ((idx + t) % (m.mask + 1))).1 = k →
      shiftDownGo (m.mask + 2) m ((idx + t) % (m.mask + 1)) = some m1 →
      eraseGo cfg fuel m k idx info
        = some ({ m1 with numElements := m1.numElements - 1 }, 1) := by
  intro fuel
  induction fuel with
  | zero => intro t idx info _ ht _ _ _ _ _; omega
  | succ n ih =>
    intro t idx info hidx ht hno hcont hbyte hkey hSD
    rw [eraseGo]
    have hidx0 : (idx + 0) % (m.mask + 1) = idx := by
      rw [Nat.add_zero, Nat.mod_eq_of_lt hidx]
    have hnext : nextIdx m idx = (idx + 1) % (m.mask + 1) := nextIdx_mod m p hp idx
    match t, ht, hno, hcont, hbyte, hkey, hSD with
    | 0, ht, hno, hcont, hbyte, hkey, hSD =>
      rw [hidx0] at hbyte hkey hSD
      rw [if_pos ⟨by simpa using hbyte, hkey⟩, hSD]
    | (t2 + 1), ht, hno, hcont, hbyte, hkey, hSD =>
      rw [if_neg ?noside]
      case noside =>
        have := hno 0 (by omega)
        rw [hidx0] at this
        simpa using this
      rw [if_pos ?contside]
      case contside =>
        have := hcont 0 (by omega)
        rw [hnext]
        simpa using this
      rw [hnext]
      have harith : ∀ s : ℕ, info + (m.infoInc : ℤ) + (s * m.infoInc : ℤ)
          = info + ((s + 1 : ℕ) : ℤ) * (m.infoInc : ℤ) := by
        intro s
        push_cast
        ring
      have hres := ih t2 ((idx + 1) % (m.mask + 1)) (info + (m.infoInc : ℤ))
        (Nat.mod_lt _ (by omega)) (by omega) ?hno2 ?hcont2 ?hbyte2 ?hkey2 ?hSD2
      case hno2 =>
        intro s hs
        rw [probe_add]
        have h6 : idx + (1 + s) = idx + (s + 1) := by omega
        rw [h6, harith s]
        exact hno (s + 1) (by omega)
      case hcont2 =>
        intro s hs
        rw [probe_add]
        have h6 : idx + (1 + (s + 1)) = idx + (s + 1 + 1) := by omega
        rw [h6]
        have h7 : info + (m.infoInc : ℤ) + ((s + 1 : ℕ) : ℤ) * (m.infoInc : ℤ)
            = info + ((s + 1 + 1 : ℕ) : ℤ) * (m.infoInc : ℤ) := by
          push_cast
          ring
        rw [h7]
        exact hcont (s + 1) (by omega)
      case hbyte2 =>
        rw [probe_add]
        have h6 : idx + (1 + t2) = idx + (t2 + 1) := by omega
        rw [h6, harith t2]
        exact hbyte
      case hkey2 =>
        rw [probe_add]
        have h6 : idx + (1 + t2) = idx + (t2 + 1) := by omega
        rw [h6]
        exact hkey
      case hSD2 =>
        rw [probe_add]
        have h6 : idx + (1 + t2) = idx + (t2 + 1) := by omega
        rw [h6]
        exact hSD
      exact hres

theorem eraseGo_miss (cfg : HashCfg K) (m : PMap K V) (k : K) (p : ℕ)
    (hp : m.mask + 1 = 2 ^ p)
    (hb : ∀ j, j ≤ m.mask → m.info j < 256) (hinc : 1 ≤ m.infoInc) :
    ∀ (fuel idx : ℕ) (info : ℤ),
      idx < m.mask + 1 → 1 ≤ fuel →
      255 < info + ((fuel - 1 : ℕ) : ℤ) * (m.infoInc : ℤ) →
      (∀ s : ℕ, ¬(info + (s * m.infoInc : ℤ)
          = (m.info ((idx + s) % (m.mask + 1)) : ℤ) ∧
        (m.slots ((idx + s) % (m.mask + 1))).1 = k)) →
      eraseGo cfg fuel m k idx info = some (m, 0) := by
  intro fuel
  induction fuel with
  | zero => intro idx info _ h1 _ _; omega
  | succ n ih =>
    intro idx info hidx _ hinv hno
    rw [eraseGo]
    have hidx0 : (idx + 0) % (m.mask + 1) = idx := by
      rw [Nat.add_zero, Nat.mod_eq_of_lt hidx]
    have hnext : nextIdx m idx = (idx + 1) % (m.mask + 1) := nextIdx_mod m p hp idx
    rw [if_neg ?noside]
    case noside =>
      have := hno 0
      rw [hidx0] at this
      simpa using this
    by_cases hc2 : info + (m.infoInc : ℤ) ≤ (m.info (nextIdx m idx) : ℤ)
    · rw [if_pos hc2]
      have hble : (m.info (nextIdx m idx) : ℤ) < 256 := by
        have h5 : nextIdx m idx ≤ m.mask := nextIdx_le_mask m idx
        exact_mod_cast hb _ h5
      have hincZ : (1 : ℤ) ≤ (m.infoInc : ℤ) := by exact_mod_cast hinc
      have hn1 : 1 ≤ n := by
        by_contra hn0
        have hn0' : n = 0 := by omega
        rw [hn0'] at hinv
        norm_num at hinv
        omega
      have hres := ih ((idx + 1) % (m.mask + 1)) (info + (m.infoInc : ℤ))
        (Nat.mod_lt _ (by omega)) hn1 ?inv2 ?hno2
      case inv2 =>
        have h7 : ((n - 1 : ℕ) : ℤ) = (n : ℤ) - 1 := by
          push_cast [hn1]
          ring
        have h8 : ((n + 1 - 1 : ℕ) : ℤ) = (n : ℤ) := by
          push_cast
          ring
        rw [h8] at hinv
        rw [h7]
        have h9 : (m.infoInc : ℤ) * ((n : ℤ) - 1) = (n : ℤ) * m.infoInc - m.infoInc := by
          ring
        nlinarith
      case hno2 =>
        intro s
        rw [probe_add]
        have h6 : idx + (1 + s) = idx + (s + 1) := by omega
        rw [h6]
        have h7 : info + (m.infoInc : ℤ) + (s * m.infoInc : ℤ)
            = info + ((s + 1 : ℕ) : ℤ) * (m.infoInc : ℤ) := by
          push_cast
          ring
        rw [h7]
        exact hno (s + 1)
      rw [hnext]
      exact hres
    · rw [if_neg hc2]

theorem findIdxGo_miss (m : PMap K V) (k : K) (p : ℕ) (hp : m.mask + 1 = 2 ^ p)
    (hb : ∀ j, j ≤ m.mask → m.info j < 256) (hinc : 1 ≤ m.infoInc) :
    ∀ (fuel idx : ℕ) (info : ℤ),
      idx < m.mask + 1 → 1 ≤ fuel →
      255 < info + ((fuel - 1 : ℕ) : ℤ) * (2 * m.infoInc : ℤ) →
      (∀ s : ℕ, ¬(info + (s * m.infoInc : ℤ)
          = (m.info ((idx + s) % (m.mask + 1)) : ℤ) ∧
        (m.slots ((idx + s) % (m.mask + 1))).1 = k)) →
      findIdxGo m k fuel idx info = some (-1) := by
  intro fuel
  induction fuel with
  | zero => intro idx info _ h1 _ _; omega
  | succ n ih =>
    intro idx info hidx _ hinv hno
    rw [findIdxGo]
    have hidx0 : (idx + 0) % (m.mask + 1) = idx := by
      rw [Nat.add_zero, Nat.mod_eq_of_lt hidx]
    have hnext : nextIdx m idx = (idx + 1) % (m.mask + 1) := nextIdx_mod m p hp idx
    have hnext2 : nextIdx m (nextIdx m idx) = (idx + 2) % (m.mask + 1) := by
      rw [hnext, nextIdx_mod m p hp, probe_add]
    rw [if_neg ?no0]
    case no0 =>
      have := hno 0
      rw [hidx0] at this
      simpa using this
    rw [if_neg ?no1]
    case no1 =>
      have := hno 1
      rw [hnext]
      simpa using this
    by_cases hc2 : info + (m.infoInc : ℤ) + (m.infoInc : ℤ)
        ≤ (m.info (nextIdx m (nextIdx m idx)) : ℤ)
    · rw [if_pos hc2]
      have hble : (m.info (nextIdx m (nextIdx m idx)) : ℤ) < 256 := by
        have h5 : nextIdx m (nextIdx m idx) ≤ m.mask := nextIdx_le_mask m _
        exact_mod_cast hb _ h5
      have hincZ : (1 : ℤ) ≤ (m.infoInc : ℤ) := by exact_mod_cast hinc
      have hn1 : 1 ≤ n := by
        by_contra hn0
        have hn0' : n = 0 := by omega
        rw [hn0'] at hinv
        norm_num at hinv
        omega
      have hres := ih ((idx + 2) % (m.mask + 1))
        (info + (m.infoInc : ℤ) + (m.infoInc : ℤ))
        (Nat.mod_lt _ (by omega)) hn1 ?inv2 ?hno2
      case inv2 =>
        have h8 : ((n + 1 - 1 : ℕ) : ℤ) = (n : ℤ) := by
          push_cast
          ring
        rw [h8] at hinv
        have h7 : ((n - 1 : ℕ) : ℤ) = (n : ℤ) - 1 := by
          push_cast [hn1]
          ring
        rw [h7]
        nlinarith
      case hno2 =>
        intro s
        rw [probe_add]
        have h6 : idx + (2 + s) = idx + (s + 2) := by omega
        rw [h6]
        have h7 : info + (m.infoInc : ℤ) + (m.infoInc : ℤ) + (s * m.infoInc : ℤ)
            = info + ((s + 2 : ℕ) : ℤ) * (m.infoInc : ℤ) := by
          push_cast
          ring
        rw [h7]
        exact hno (s + 2)
      rw [hnext2]
      exact hres
    · rw [if_neg hc2]

/-! ### Claim C3: `erase` semantics -/

/-- Claim C3: on a mapped well-formed table where key `k` is stored at the
end of its probe chain (the hypotheses spell out the erase scan path and
that `k` occupies exactly one live slot), `erase(k)` returns 1 and
decrements `size()` by one; afterwards `has(k)` is false and a second
`erase(k)` returns 0 leaving the state unchanged. -/
theorem C3_erase_semantics (cfg : HashCfg K) (m : PMap K V) (k : K) (p t : ℕ)
    (hp : m.mask + 1 = 2 ^ p) (hp1 : 1 ≤ p) (hp64 : p ≤ 64)
    (hall : m.allocated = true)
    (hinc : 1 ≤ m.infoInc)
    (hb : ∀ j, j ≤ m.mask → m.info j < 256)
    (hsent : m.info (m.mask + 1) < 2 * m.infoInc)
    (hf0 : 1 ≤ (keyToIdx cfg m k).2)
    (ht : t < m.mask + 1)
    (hno : ∀ s, s < t → ¬((keyToIdx cfg m k).2 + (s * m.infoInc : ℤ)
        = (m.info (((keyToIdx cfg m k).1 + s) % (m.mask + 1)) : ℤ) ∧
      (m.slots (((keyToIdx cfg m k).1 + s) % (m.mask + 1))).1 = k))
    (hcont : ∀ s, s < t →
      (keyToIdx cfg m k).2 + ((s + 1 : ℕ) : ℤ) * (m.infoInc : ℤ)
        ≤ (m.info (((keyToIdx cfg m k).1 + (s + 1)) % (m.mask + 1)) : ℤ))
    (hbyte : (keyToIdx cfg m k).2 + (t * m.infoInc : ℤ)
      = (m.info (((keyToIdx cfg m k).1 + t) % (m.mask + 1)) : ℤ))
    (hkey : (m.slots (((keyToIdx cfg m k).1 + t) % (m.mask + 1))).1 = k)
    (huniq : ∀ q, q ≤ m.mask → (m.slots q).1 = k → m.info q ≠ 0 →
      q = ((keyToIdx cfg m k).1 + t) % (m.mask + 1)) :
    ∃ m', eraseOp cfg m k = some (m', 1) ∧
      sizeOp m' = sizeOp m - 1 ∧
      hasOp cfg m' k = (m', some false) ∧
      eraseOp cfg m' k = some (m', 0) := by
  have hidx2lt : ((keyToIdx cfg m k).1 + t) % (m.mask + 1) < m.mask + 1 :=
    Nat.mod_lt _ (by omega)
  obtain ⟨e, m1, he, hSD, hwr, hz, hend, hout⟩ :=
    shiftDownGo_spec (m.mask + 2) m (((keyToIdx cfg m k).1 + t) % (m.mask + 1))
      hidx2lt hsent (by omega)
  have hfr := shiftDownGo_frame (m.mask + 2) m _ m1 hSD
  obtain ⟨m', hm'⟩ : ∃ m',
      m' = ({ m1 with numElements := m1.numElements - 1 } : PMap K V) := ⟨_, rfl⟩
  have hm'info : m'.info = m1.info := by rw [hm']
  have hm'slots : m'.slots = m1.slots := by rw [hm']
  have hm'mask : m'.mask = m.mask := by rw [hm']; exact hfr.2.2.2.2.1
  have hm'inc : m'.infoInc = m.infoInc := by rw [hm']; exact hfr.2.2.2.2.2.1
  have hm'shift : m'.infoHashShift = m.infoHashShift := by
    rw [hm']
    exact hfr.2.2.2.2.2.2.1
  have hm'all : m'.allocated = true := by rw [hm']; show m1.allocated = true; rw [hfr.1]; exact hall
  have hm'num : m'.numElements = m.numElements - 1 := by
    rw [hm']
    show m1.numElements - 1 = m.numElements - 1
    rw [hfr.2.2.2.2.2.2.2.1]
  have hkey' : keyToIdx cfg m' k = keyToIdx cfg m k := by
    unfold keyToIdx
    rw [hm'mask, hm'inc, hm'shift]
  have hfb : ∀ j, j ≤ m.mask → m'.info j < 256 := by
    intro j hj
    rw [hm'info]
    rcases Nat.lt_or_ge j (((keyToIdx cfg m k).1 + t) % (m.mask + 1)) with hq1 | hq1
    · rw [(hout j (Or.inl hq1)).1]
      exact hb j hj
    · rcases Nat.lt_or_ge (((keyToIdx cfg m k).1 + t) % (m.mask + 1) + e) j with hq2 | hq2
      · rw [(hout j (Or.inr hq2)).1]
        exact hb j hj
      · rcases Nat.lt_or_ge (j - ((keyToIdx cfg m k).1 + t) % (m.mask + 1)) e with hw | hw
        · obtain ⟨ja, _, _⟩ := hwr _ hw
          have hjq : ((keyToIdx cfg m k).1 + t) % (m.mask + 1)
              + (j - ((keyToIdx cfg m k).1 + t) % (m.mask + 1)) = j := by omega
          rw [hjq] at ja
          rw [ja]
          have := hb (j + 1) (by omega)
          omega
        · have hje : j = ((keyToIdx cfg m k).1 + t) % (m.mask + 1) + e := by omega
          rw [hje, hz]
          omega
  have hnomatch : ∀ s : ℕ, ¬((keyToIdx cfg m k).2 + (s * m.infoInc : ℤ)
      = (m'.info (((keyToIdx cfg m k).1 + s) % (m.mask + 1)) : ℤ) ∧
    (m'.slots (((keyToIdx cfg m k).1 + s) % (m.mask + 1))).1 = k) := by
    intro s
    rintro ⟨hA, hB⟩
    rw [hm'info] at hA
    rw [hm'slots] at hB
    have hqle : ((keyToIdx cfg m k).1 + s) % (m.mask + 1) < m.mask + 1 :=
      Nat.mod_lt _ (by omega)
    have hpos : (0 : ℤ) < (keyToIdx cfg m k).2 + (s * m.infoInc : ℤ) := by
      have : (0 : ℤ) ≤ (s * m.infoInc : ℤ) := by positivity
      omega
    rcases Nat.lt_or_ge (((keyToIdx cfg m k).1 + s) % (m.mask + 1))
        (((keyToIdx cfg m k).1 + t) % (m.mask + 1)) with hq1 | hq1
    · obtain ⟨ja, jb⟩ := hout _ (Or.inl hq1)
      rw [ja] at hA
      rw [jb] at hB
      have hnz : m.info (((keyToIdx cfg m k).1 + s) % (m.mask + 1)) ≠ 0 := by
        intro hcon
        rw [hcon] at hA
        norm_num at hA
        omega
      have := huniq _ (by omega) hB hnz
      omega
    · rcases Nat.lt_or_ge (((keyToIdx cfg m k).1 + t) % (m.mask + 1) + e)
          (((keyToIdx cfg m k).1 + s) % (m.mask + 1)) with hq2 | hq2
      · obtain ⟨ja, jb⟩ := hout _ (Or.inr hq2)
        rw [ja] at hA
        rw [jb] at hB
        have hnz : m.info (((keyToIdx cfg m k).1 + s) % (m.mask + 1)) ≠ 0 := by
          intro hcon
          rw [hcon] at hA
          norm_num at hA
          omega
        have := huniq _ (by omega) hB hnz
        omega
      · rcases Nat.lt_or_ge
            (((keyToIdx cfg m k).1 + s) % (m.mask + 1)
              - ((keyToIdx cfg m k).1 + t) % (m.mask + 1)) e with hw | hw
        · obtain ⟨_, jb, jc⟩ := hwr _ hw
          have hjq : ((keyToIdx cfg m k).1 + t) % (m.mask + 1)
              + (((keyToIdx cfg m k).1 + s) % (m.mask + 1)
                - ((keyToIdx cfg m k).1 + t) % (m.mask + 1))
              = ((keyToIdx cfg m k).1 + s) % (m.mask + 1) := by omega
          rw [hjq] at jb jc
          rw [jb] at hB
          have hnz : m.info (((keyToIdx cfg m k).1 + s) % (m.mask + 1) + 1) ≠ 0 := by
            omega
          have := huniq _ (by omega) hB hnz
          omega
        · have hje : ((keyToIdx cfg m k).1 + s) % (m.mask + 1)
              = ((keyToIdx cfg m k).1 + t) % (m.mask + 1) + e := by omega
          rw [hje, hz] at hA
          norm_num at hA
          omega
  have hE1 : eraseOp cfg m k = some (m', 1) := by
    unfold eraseOp
    rw [reload_id cfg m hall, hm']
    exact eraseGo_runs cfg m k p hp m1 (m.mask + 600) t (keyToIdx cfg m k).1
      (keyToIdx cfg m k).2 (by have := keyToIdx_le_mask cfg m k; omega) (by omega)
      hno hcont hbyte hkey hSD
  have hp' : m'.mask + 1 = 2 ^ p := by rw [hm'mask]; exact hp
  have hb' : ∀ j, j ≤ m'.mask → m'.info j < 256 := by
    intro j hj
    rw [hm'mask] at hj
    exact hfb j hj
  have hinc' : 1 ≤ m'.infoInc := by rw [hm'inc]; exact hinc
  have hinv : ∀ info0 : ℤ, 1 ≤ info0 →
      (255 : ℤ) < info0 + ((m'.mask + 600 - 1 : ℕ) : ℤ) * (2 * m'.infoInc : ℤ) := by
    intro info0 hi0
    have h1 : (1 : ℤ) ≤ (m'.infoInc : ℤ) := by exact_mod_cast hinc'
    have h2 : (599 : ℤ) ≤ ((m'.mask + 600 - 1 : ℕ) : ℤ) := by
      push_cast
      omega
    have h3 : (599 : ℤ) * (2 * (m'.infoInc : ℤ))
        ≤ ((m'.mask + 600 - 1 : ℕ) : ℤ) * (2 * m'.infoInc : ℤ) := by
      apply mul_le_mul_of_nonneg_right h2
      positivity
    have h4 : (1198 : ℤ) ≤ 599 * (2 * (m'.infoInc : ℤ)) := by linarith
    linarith
  have hinvE : ∀ info0 : ℤ, 1 ≤ info0 →
      (255 : ℤ) < info0 + ((m'.mask + 600 - 1 : ℕ) : ℤ) * (m'.infoInc : ℤ) := by
    intro info0 hi0
    have h1 : (1 : ℤ) ≤ (m'.infoInc : ℤ) := by exact_mod_cast hinc'
    have h2 : (599 : ℤ) ≤ ((m'.mask + 600 - 1 : ℕ) : ℤ) := by
      push_cast
      omega
    have h3 : (599 : ℤ) * (m'.infoInc : ℤ)
        ≤ ((m'.mask + 600 - 1 : ℕ) : ℤ) * (m'.infoInc : ℤ) := by
      apply mul_le_mul_of_nonneg_right h2
      positivity
    have h4 : (599 : ℤ) ≤ 599 * (m'.infoInc : ℤ) := by linarith
    linarith
  have hnomatch' : ∀ s : ℕ, ¬((keyToIdx cfg m' k).2 + (s * m'.infoInc : ℤ)
      = (m'.info (((keyToIdx cfg m' k).1 + s) % (m'.mask + 1)) : ℤ) ∧
    (m'.slots (((keyToIdx cfg m' k).1 + s) % (m'.mask + 1))).1 = k) := by
    intro s
    rw [hkey', hm'mask, hm'inc]
    exact hnomatch s
  have hfindm' : findIdxGo m' k (m'.mask + 600) (keyToIdx cfg m' k).1
      (keyToIdx cfg m' k).2 = some (-1) := by
    apply findIdxGo_miss m' k p hp' hb' hinc'
    · rw [hkey', hm'mask]
      have := keyToIdx_le_mask cfg m k
      omega
    · omega
    · rw [hkey']
      exact hinv _ hf0
    · exact hnomatch'
  have hfi : findIdx cfg m' k = (m', some (-1)) := by
    unfold findIdx
    rw [reload_id cfg m' hm'all, hfindm']
  refine ⟨m', hE1, ?_, ?_, ?_⟩
  · show m'.numElements = m.numElements - 1
    exact hm'num
  · unfold hasOp
    rw [hfi]
    simp
  · unfold eraseOp
    rw [reload_id cfg m' hm'all]
    apply eraseGo_miss cfg m' k p hp' hb' hinc'
    · rw [hkey', hm'mask]
      have := keyToIdx_le_mask cfg m k
      omega
    · omega
    · rw [hkey']
      exact hinvE _ hf0
    · exact hnomatch'

def pmB : PMap ℕ ℕ := ((setOp cfgU64 pmA 5 7).getD (pmA, 0)).1

theorem C3_erase_semantics_witness :
    (pmB.allocated = true ∧ pmB.info (pmB.mask + 1) < 2 * pmB.infoInc ∧
      sizeOp pmB = 1) ∧
    ∃ m', eraseOp cfgU64 pmB 5 = some (m', 1) ∧
      sizeOp m' = sizeOp pmB - 1 ∧
      hasOp cfgU64 m' 5 = (m', some false) ∧
      eraseOp cfgU64 m' 5 = some (m', 0) :=
  ⟨by decide, C3_erase_semantics cfgU64 pmB 5 10 0
    (by decide) (by decide) (by decide) (by decide) (by decide) (by decide)
    (by decide) (by decide) (by decide)
    (fun s hs => absurd hs (by omega)) (fun s hs => absurd hs (by omega))
    (by decide) (by decide) (by decide)⟩

end MmapMap
